import Mathlib

/-!
# libsstring: a shallow embedding of `basic_sstring` (src/sstring.hpp)

The embedding follows the instantiation `libsstring::sstring`
(`CharT = char`, `SSO_FlagType = uint8_t`, `SSO_ReservedBytes = 30`,
`SSO_StructAlignByte = 8`) on a 64-bit little-endian target, the only layout
the header accepts.

* `Storage` is the 32-byte union, byte by byte.  The inline shape is
  `buf` = bytes 0..29, `len` = byte 30, `tag` = byte 31; the heap shape is
  `ptr` = bytes 0..7, `size` = bytes 8..15, `cap` = bytes 16..23,
  `flag` = bytes 24..31, each little-endian.  Both shapes are views of the
  same bytes, as in the source.
* `Mem` is the allocator and the free store: live allocations by address, a
  bump pointer, the end of the arena, the record of `deallocate` calls and a
  sticky `fault` flag.
* `size_type` arithmetic is arithmetic modulo `2 ^ 64`; a pointer plus an
  offset is an offset modulo `2 ^ 64` into the addressed array.
* An access outside the array or allocation it addresses is not given a
  meaning: it raises `fault`, the bytes of a write that fall outside are
  lost and a read outside yields 0.  Execution continues, so that the fields
  the code writes afterwards can still be observed; a `deallocate` of
  anything but a live allocation with its size raises `fault` as well.  A
  well-formed object (`WF`) has a free store without a fault, and a result
  that gives `WF` for the object after a call is about an execution without
  a fault; `resize` with a wrapping size, the heap-to-inline branch of
  `shrink_to_fit` and an append of a view into a buffer the call releases
  end with a fault.
* A pointer to characters that a call receives (`SvData`) addresses memory
  outside the string, the string object itself or an allocation of the free
  store; the characters are read where the code reads them, in the state the
  code has reached.
* `allocate` throws `bad_alloc` exactly when the arena has no room for the
  request; fresh memory holds unspecified bytes (`junk`).
* A `throw` is an `Except.error` carrying the exception and the object as it
  is at the throw.
* Operations on two strings (copy, move, swap, `==`, `substr`) run on a
  `World`: the storage blocks of the string objects by address, and the one
  free store of their allocators (`std::allocator<char>`: stateless, all
  instances equal, propagating on move assignment and not on swap).
-/

namespace libsstring

/-! # Definitions -/

/-! ## Bytes and machine words -/

/-- One byte (`unsigned char`). -/
abbrev Byte := Fin 256

/-- A byte array addressed by offset. -/
abbrev Bytes := Nat → Byte

/-- Value of `static constexpr size_type npos = static_cast<size_type>(-1)`. -/
def npos : Nat := 2 ^ 64 - 1

/-- Addition of `size_type` values. -/
def add64 (a b : Nat) : Nat := (a + b) % 2 ^ 64

/-- Subtraction of `size_type` values. -/
def sub64 (a b : Nat) : Nat := (a + (2 ^ 64 - b % 2 ^ 64)) % 2 ^ 64

/-- Multiplication of `size_type` values. -/
def mul64 (a b : Nat) : Nat := (a * b) % 2 ^ 64

/-- Value of `static_cast<flag_type>(v)` for `flag_type = uint8_t`. -/
def to_flag (v : Nat) : Byte := Fin.ofNat v

/-- Byte `k` of the little-endian encoding of `v`. -/
def byte_of (v k : Nat) : Byte := Fin.ofNat (v / 256 ^ k)

/-- The bytes `src 0 .. src (n-1)` written over `dst` from offset `off`
(`memcpy`, `memmove` and `memset` all reduce to this: the source is read
before the destination is written). -/
def blit (dst : Bytes) (off n : Nat) (src : Bytes) : Bytes :=
  fun i => if off ≤ i ∧ i < off + n then src (i - off) else dst i

/-- The bytes of a list, as a source for `blit` (0 beyond its end). -/
def of_list (l : List Byte) : Bytes := fun i => l.getD i 0

/-- The constant source of `memset` and `std::fill`. -/
def fill_src (ch : Byte) : Bytes := fun _ => ch

/-- The source `src + off`. -/
def shift_src (src : Bytes) (off : Nat) : Bytes := fun i => src (off + i)

/-- Little-endian 64-bit load at byte offset `off`. -/
def ld64 (b : Bytes) (off : Nat) : Nat :=
  (b off).val + 256 * (b (off + 1)).val + 256 ^ 2 * (b (off + 2)).val
    + 256 ^ 3 * (b (off + 3)).val + 256 ^ 4 * (b (off + 4)).val
    + 256 ^ 5 * (b (off + 5)).val + 256 ^ 6 * (b (off + 6)).val
    + 256 ^ 7 * (b (off + 7)).val

/-- Little-endian 64-bit store at byte offset `off`. -/
def st64 (b : Bytes) (off v : Nat) : Bytes :=
  blit b off 8 (byte_of v)

/-! ## The storage union -/

/-- Value of `SSO_ReservedBytes`. -/
def SSO_ReservedBytes : Nat := 30

/-- The union `Storage`: 32 bytes (offsets 32 and above are never read). -/
abbrev Storage := Bytes

/-- Value of `HEAP_FLAG = size_type(1) << (SIZE_T_BITS - 1)`. -/
def HEAP_FLAG : Nat := 2 ^ 63

/-- Field `storage.heap.ptr`. -/
def heap_ptr (s : Storage) : Nat := ld64 s 0
/-- Field `storage.heap.size`. -/
def heap_size (s : Storage) : Nat := ld64 s 8
/-- Field `storage.heap.cap` (`heap_capacity_raw`). -/
def heap_capacity_raw (s : Storage) : Nat := ld64 s 16
/-- Field `storage.heap.flag`. -/
def heap_flag (s : Storage) : Nat := ld64 s 24
/-- Field `storage.sso.len`. -/
def sso_len (s : Storage) : Nat := (s 30).val
/-- Field `storage.sso.tag`. -/
def sso_tag (s : Storage) : Nat := (s 31).val

/-- Value of `sso_capacity_bytes()`: `sizeof(storage.sso.buf)`. -/
def sso_capacity_bytes : Nat := SSO_ReservedBytes
/-- Value of `sso_max_size()`. -/
def sso_max_size : Nat := sso_capacity_bytes - 1

/-- Embeds `is_heap`: `(storage.heap.flag & HEAP_FLAG) != 0`. -/
def is_heap (s : Storage) : Bool := Nat.land (heap_flag s) HEAP_FLAG != 0

/-- Embeds `is_sso`. -/
def is_sso (s : Storage) : Bool := !is_heap s

/-- Embeds `set_heap_flag`: `storage.heap.flag |= HEAP_FLAG`. -/
def set_heap_flag (s : Storage) : Storage := st64 s 24 (Nat.lor (heap_flag s) HEAP_FLAG)

/-- Embeds `clear_heap_flag`: `storage.sso.tag = 0`. -/
def clear_heap_flag (s : Storage) : Storage := blit s 31 1 (fill_src 0)

/-- Embeds `reset_storage`, also the constructor of `Storage`:
`memset(this, 0, sizeof(Storage))`. -/
def reset_storage : Storage := fun _ => 0

/-- Assignment `storage.heap.ptr = p`. -/
def set_heap_ptr (s : Storage) (p : Nat) : Storage := st64 s 0 p
/-- Assignment `storage.heap.size = v`. -/
def set_heap_size (s : Storage) (v : Nat) : Storage := st64 s 8 v
/-- Assignment `storage.heap.cap = v`. -/
def set_heap_cap (s : Storage) (v : Nat) : Storage := st64 s 16 v
/-- Assignment `storage.sso.len = static_cast<flag_type>(v)`. -/
def set_sso_len (s : Storage) (v : Nat) : Storage := blit s 30 1 (fill_src (to_flag v))
/-- Assignment `storage.sso.tag = 0`. -/
def set_sso_tag0 (s : Storage) : Storage := blit s 31 1 (fill_src 0)

/-! ## The free store and the allocator -/

/-- One live allocation: the number of bytes requested and their content. -/
structure Block where
  size : Nat
  bytes : Bytes

/-- The free store seen through `std::allocator<char>`, as a bump allocator
over the arena of addresses up to `limit`: `blocks` are the live allocations
by address, `next` the lowest address never handed out, `junk` the
(unspecified) content of fresh memory, `freed` the record of the
`deallocate(p, n)` calls, most recent first, and `fault` tells whether an
access outside an object or a `deallocate` of something that is not a live
allocation of that size has happened. -/
structure Mem where
  blocks : Nat → Option Block
  next : Nat
  limit : Nat
  junk : Bytes
  freed : List (Nat × Nat)
  fault : Bool

/-- A free store with no allocation yet. -/
def Mem.init (next limit : Nat) (junk : Bytes) : Mem :=
  { blocks := fun _ => none, next := next, limit := limit, junk := junk,
    freed := [], fault := false }

/-- The free store with the allocation at address `p` replaced by `b`
(`none`: no allocation there). -/
def Mem.set_block (m : Mem) (p : Nat) (b : Option Block) : Mem :=
  { m with blocks := fun a => if a = p then b else m.blocks a }

/-- The free store after an allocation of `n` bytes: the new allocation is at
the bump pointer, which then moves past it. -/
def Mem.grown (m : Mem) (n : Nat) : Mem :=
  { m.set_block m.next (some ⟨n, m.junk⟩) with next := m.next + n + 1 }

/-- Call `alloc_traits::allocate(a, n)`: the fresh address and the new free
store, or `none` when the arena cannot hold `n` more bytes
(`std::bad_alloc`). -/
def Mem.allocate (m : Mem) (n : Nat) : Option (Nat × Mem) :=
  if m.next + n < m.limit then some (m.next, m.grown n) else none

/-- Whether `p` is a live allocation of exactly `n` bytes. -/
def Mem.owns (m : Mem) (p n : Nat) : Bool :=
  match m.blocks p with
  | some b => b.size == n
  | none => false

/-- Call `alloc_traits::deallocate(a, p, n)`. -/
def Mem.deallocate (m : Mem) (p n : Nat) : Mem :=
  { (if m.owns p n then m.set_block p none else m) with
    freed := (p, n) :: m.freed,
    fault := m.fault || !m.owns p n }

/-- Whether the `n` bytes at `p + off` lie inside the live allocation `p`
(no byte is accessed when `n = 0`). -/
def Mem.in_bounds (m : Mem) (p off n : Nat) : Bool :=
  n == 0 ||
    (match m.blocks p with
     | some b => decide (off + n ≤ b.size)
     | none => false)

/-- Read of the byte `p[i]`. -/
def Mem.load (m : Mem) (p i : Nat) : Byte :=
  match m.blocks p with
  | some b => if i < b.size then b.bytes i else 0
  | none => 0

/-- Records an access to the `n` bytes at `p + off`. -/
def Mem.check (m : Mem) (p off n : Nat) : Mem :=
  if m.in_bounds p off n then m else { m with fault := true }

/-- Write of `src 0 .. src (n-1)` to `p + off`. -/
def Mem.write (m : Mem) (p off n : Nat) (src : Bytes) : Mem :=
  match m.blocks p with
  | some b => (m.check p off n).set_block p (some ⟨b.size, blit b.bytes off n src⟩)
  | none => m.check p off n

/-! ## The string object -/

/-- A `basic_sstring` object (its `storage`) together with the free store its
allocator works on. -/
structure Obj where
  storage : Storage
  mem : Mem

/-- The exceptions the class lets out. -/
inductive Exn where
  | out_of_range
  | bad_alloc
  deriving DecidableEq, Repr

/-- Result of a member function that may throw: the object after a normal
return, or the exception with the object as the throw leaves it. -/
abbrev Res := Except (Exn × Obj) Obj

/-- Records an access to `storage.sso.buf[off .. off+n)`. -/
def sso_check (o : Obj) (off n : Nat) : Obj :=
  if n = 0 ∨ off + n ≤ SSO_ReservedBytes then o
  else { o with mem := { o.mem with fault := true } }

/-- Write of `src 0 .. src (n-1)` to `storage.sso.buf + off`. -/
def sso_write (o : Obj) (off n : Nat) (src : Bytes) : Obj :=
  { sso_check o off n with
    storage := fun i => if i < SSO_ReservedBytes then blit o.storage off n src i
                        else o.storage i }

/-- Assignment `storage.sso.buf[i] = b`. -/
def sso_put (o : Obj) (i : Nat) (b : Byte) : Obj := sso_write o i 1 (fill_src b)

/-- Records an access to `storage.heap.ptr[off .. off+n)`. -/
def heap_check (o : Obj) (off n : Nat) : Obj :=
  { o with mem := o.mem.check (heap_ptr o.storage) off n }

/-- Write of `src 0 .. src (n-1)` to `storage.heap.ptr + off`. -/
def heap_write (o : Obj) (off n : Nat) (src : Bytes) : Obj :=
  { o with mem := o.mem.write (heap_ptr o.storage) off n src }

/-- Assignment `storage.heap.ptr[i] = b`. -/
def heap_put (o : Obj) (i : Nat) (b : Byte) : Obj := heap_write o i 1 (fill_src b)

/-- Embeds `allocate_buffer`. -/
def allocate_buffer (o : Obj) (capacity : Nat) : Except (Exn × Obj) (Nat × Obj) :=
  match o.mem.allocate capacity with
  | some (p, m) => .ok (p, { o with mem := m })
  | none => .error (Exn.bad_alloc, o)

/-- Embeds `deallocate_buffer`. -/
def deallocate_buffer (o : Obj) (p cap : Nat) : Obj :=
  { o with mem := o.mem.deallocate p cap }

/-- The four assignments that end every conversion to the heap shape:
`storage.heap.ptr = p; storage.heap.size = sz; storage.heap.cap = cap;
set_heap_flag()`. -/
def adopt (o : Obj) (p sz cap : Nat) : Obj :=
  { o with storage :=
      set_heap_flag (set_heap_cap (set_heap_size (set_heap_ptr o.storage p) sz) cap) }

/-! ## Queries -/

/-- Embeds `size`. -/
def size (o : Obj) : Nat :=
  if is_heap o.storage then heap_size o.storage else sso_len o.storage

/-- Embeds `capacity`. -/
def capacity (o : Obj) : Nat :=
  if is_heap o.storage then sub64 (heap_capacity_raw o.storage) 1 else sso_max_size

/-- Embeds `data`: the array the data pointer addresses. -/
def data (o : Obj) : Bytes :=
  if is_heap o.storage then o.mem.load (heap_ptr o.storage) else o.storage

/-- The bytes `data()[0 .. size())`. -/
def content (o : Obj) : List Byte := (List.range (size o)).map (data o)

/-! ## Characters passed to the string -/

/-- The value of a pointer to characters that a member function receives
(`sv.data()` of a `std::basic_string_view` argument, or a `const CharT*`):
where the characters live. -/
inductive SvData where
  /-- Characters in memory that the call neither writes nor releases (a
  literal, an array, the buffer of another string): the bytes they hold. -/
  | outside (bytes : Bytes)
  /-- The address `off` bytes into the string object itself, which is where
  `data() + off` of an inline string points. -/
  | in_object (off : Nat)
  /-- The address `off` bytes into the allocation `p` of the free store, which
  is where `data() + off` of a heap string points. -/
  | in_store (p off : Nat)

/-- The pointer `data() + off` of the string `o`. -/
def data_at (o : Obj) (off : Nat) : SvData :=
  if is_heap o.storage then .in_store (heap_ptr o.storage) off else .in_object off

/-- Whether the ranges of `n` bytes at offsets `a` and `b` of one array share
a byte. -/
def ranges_overlap (a b n : Nat) : Bool := decide (0 < n ∧ a < b + n ∧ b < a + n)

/-- Records the read of the `n` characters at `v` by a `memcpy` whose
destination is `dst`: the characters have to lie inside the string object
(32 bytes) or inside a live allocation, and `memcpy` has no meaning when
source and destination overlap. -/
def sv_check (o : Obj) (v : SvData) (n : Nat) (dst : SvData) : Obj :=
  match v with
  | .outside _ => o
  | .in_object off =>
    let clash := match dst with
      | .in_object d => ranges_overlap off d n
      | _ => false
    if (n = 0 ∨ off + n ≤ SSO_ReservedBytes + 2) ∧ clash = false then o
    else { o with mem := { o.mem with fault := true } }
  | .in_store p off =>
    let clash := match dst with
      | .in_store q d => decide (p = q) && ranges_overlap off d n
      | _ => false
    if clash = false then { o with mem := o.mem.check p off n }
    else { o with mem := { o.mem with fault := true } }

/-- The characters at `v` as a read finds them in the state `o`. -/
def sv_bytes (o : Obj) (v : SvData) : Bytes :=
  match v with
  | .outside bytes => bytes
  | .in_object off => shift_src o.storage off
  | .in_store p off => shift_src (o.mem.load p) off

/-! ## Growth -/

/-- Write of `src 0 .. src (n-1)` to `p + off`, for a pointer `p` held in a
local variable. -/
def ptr_write (o : Obj) (p off n : Nat) (src : Bytes) : Obj :=
  { o with mem := o.mem.write p off n src }

/-- Assignment `p[i] = b`, for a pointer `p` held in a local variable. -/
def ptr_put (o : Obj) (p i : Nat) (b : Byte) : Obj := ptr_write o p i 1 (fill_src b)

/-- Embeds `make_non_sso_and_reserve`. -/
def make_non_sso_and_reserve (o : Obj) (new_capacity : Nat) : Res :=
  if is_sso o.storage then
    let cur_len := sso_len o.storage
    let cap := max new_capacity (add64 cur_len 1)
    match allocate_buffer o cap with
    | .error e => .error e
    | .ok (p, o1) =>
      -- std::memcpy(p, storage.sso.buf, cur_len)
      let o2 := ptr_write (sso_check o1 0 cur_len) p 0 cur_len o1.storage
      let o3 := ptr_put o2 p cur_len 0
      .ok (adopt o3 p cur_len cap)
  else
    let cur_cap := heap_capacity_raw o.storage
    if cur_cap ≥ new_capacity then .ok o
    else
      let newcap := max new_capacity (mul64 cur_cap 2)
      match allocate_buffer o newcap with
      | .error e => .error e
      | .ok (p, o1) =>
        -- std::memcpy(p, storage.heap.ptr, storage.heap.size)
        let sz := heap_size o1.storage
        let o2 := ptr_write (heap_check o1 0 sz) p 0 sz (o1.mem.load (heap_ptr o1.storage))
        let o3 := ptr_put o2 p sz 0
        let o4 := deallocate_buffer o3 (heap_ptr o3.storage) cur_cap
        .ok { o4 with storage := set_heap_flag (set_heap_cap (set_heap_ptr o4.storage p) newcap) }

/-! ## Constructors -/

/-- Embeds `Traits::length`: the number of bytes before the first NUL of a
C string (the list is the memory at the pointer, a NUL follows it). -/
def c_length (s : List Byte) : Nat := (s.takeWhile (fun b => b != 0)).length

/-- Embeds the default constructor `basic_sstring()`. -/
def ctor_default (m : Mem) : Obj :=
  let o : Obj := ⟨reset_storage, m⟩
  let o := { o with storage := set_sso_len o.storage 0 }
  let o := { o with storage := set_sso_tag0 o.storage }
  sso_put o 0 0

/-- The body shared by the constructors from a C string and from a
`string_view`, once the length is known: `src` are the bytes to copy. -/
def ctor_bytes (src : Bytes) (len : Nat) (m : Mem) : Res :=
  let o : Obj := ⟨reset_storage, m⟩
  if len ≤ sso_max_size then
    let o := sso_write o 0 len src
    let o := { o with storage := set_sso_len o.storage len }
    let o := { o with storage := set_sso_tag0 o.storage }
    .ok (sso_put o len 0)
  else
    let cap := add64 len 1
    match allocate_buffer o cap with
    | .error e => .error e
    | .ok (p, o) =>
      let o := ptr_write o p 0 len src
      let o := ptr_put o p len 0
      .ok (adopt o p len cap)

/-- Embeds `basic_sstring(std::basic_string_view<CharT, Traits> sv)`. -/
def ctor_sv (sv : List Byte) (m : Mem) : Res :=
  ctor_bytes (of_list sv) sv.length m

/-- Embeds `basic_sstring(const CharT* s)`; `none` is the null pointer. -/
def ctor_cstr (s : Option (List Byte)) (m : Mem) : Res :=
  match s with
  | none => .ok ⟨reset_storage, m⟩
  | some l => ctor_bytes (of_list l) (c_length l) m

/-- Embeds the fill constructor `basic_sstring(size_type count, CharT ch)`. -/
def ctor_fill (count : Nat) (ch : Byte) (m : Mem) : Res :=
  let o : Obj := ⟨reset_storage, m⟩
  if count ≤ sso_max_size then
    let o := sso_write o 0 count (fill_src ch)
    let o := { o with storage := set_sso_len o.storage count }
    let o := sso_put o count 0
    .ok { o with storage := set_sso_tag0 o.storage }
  else
    let cap := add64 count 1
    match allocate_buffer o cap with
    | .error e => .error e
    | .ok (p, o) =>
      let o := ptr_write o p 0 count (fill_src ch)
      let o := ptr_put o p count 0
      .ok (adopt o p count cap)

/-! ## Mutating operations -/

/-- Embeds `clear`. -/
def clear (o : Obj) : Obj :=
  if is_heap o.storage then
    let o := { o with storage := set_heap_size o.storage 0 }
    heap_put o 0 0
  else
    let o := { o with storage := set_sso_len o.storage 0 }
    sso_put o 0 0

/-- Embeds `reserve`. -/
def reserve (o : Obj) (new_cap : Nat) : Res :=
  let need := add64 new_cap 1
  if is_sso o.storage then
    if need ≤ sso_capacity_bytes then .ok o
    else make_non_sso_and_reserve o need
  else if heap_capacity_raw o.storage ≥ need then .ok o
  else make_non_sso_and_reserve o need

/-- Embeds `reserve_exact`. -/
def reserve_exact (o : Obj) (new_cap : Nat) : Res :=
  let need := add64 new_cap 1
  let returns_early : Bool :=
    if !is_sso o.storage then decide (need ≤ sso_capacity_bytes)
    else decide (heap_capacity_raw o.storage ≥ need)
  if returns_early then .ok o
  else if is_sso o.storage then
    let cur_len := sso_len o.storage
    match allocate_buffer o need with
    | .error e => .error e
    | .ok (p, o1) =>
      -- std::memcpy(p, storage.sso.buf, cur_len)
      let o2 := ptr_write (sso_check o1 0 cur_len) p 0 cur_len o1.storage
      let o3 := ptr_put o2 p cur_len 0
      .ok (adopt o3 p cur_len need)
  else
    let cur_cap := heap_capacity_raw o.storage
    if cur_cap = need then .ok o
    else
      match allocate_buffer o need with
      | .error e => .error e
      | .ok (p, o1) =>
        -- std::memcpy(p, storage.heap.ptr, storage.heap.size)
        let sz := heap_size o1.storage
        let o2 := ptr_write (heap_check o1 0 sz) p 0 sz (o1.mem.load (heap_ptr o1.storage))
        let o3 := ptr_put o2 p sz 0
        let o4 := deallocate_buffer o3 (heap_ptr o3.storage) cur_cap
        .ok { o4 with storage := set_heap_flag (set_heap_cap (set_heap_ptr o4.storage p) need) }

/-- Embeds `shrink_to_fit`. -/
def shrink_to_fit (o : Obj) : Res :=
  if is_sso o.storage then .ok o
  else
    let sz := heap_size o.storage
    if sz ≤ sso_max_size then
      -- std::memcpy(storage.sso.buf, storage.heap.ptr, sz)
      let o1 := sso_write (heap_check o 0 sz) 0 sz (o.mem.load (heap_ptr o.storage))
      let o2 := { o1 with storage := set_sso_len o1.storage sz }
      let o3 := sso_put o2 sz 0
      let oldcap := heap_capacity_raw o3.storage
      let o4 := deallocate_buffer o3 (heap_ptr o3.storage) oldcap
      .ok { o4 with storage := set_sso_tag0 o4.storage }
    else
      let newcap := add64 sz 1
      let oldcap := heap_capacity_raw o.storage
      if newcap < oldcap then
        match allocate_buffer o newcap with
        | .error e => .error e
        | .ok (p, o1) =>
          -- std::memcpy(p, storage.heap.ptr, sz)
          let o2 := ptr_write (heap_check o1 0 sz) p 0 sz (o1.mem.load (heap_ptr o1.storage))
          let o3 := ptr_put o2 p sz 0
          let o4 := deallocate_buffer o3 (heap_ptr o3.storage) oldcap
          .ok { o4 with
                storage := set_heap_flag (set_heap_cap (set_heap_ptr o4.storage p) newcap) }
      else .ok o

/-- Embeds `push_back`. -/
def push_back (o : Obj) (ch : Byte) : Res :=
  let cur := size o
  if is_sso o.storage ∧ cur < sso_max_size then
    let o := sso_put o cur ch
    let o := sso_put o (add64 cur 1) 0
    .ok { o with storage := set_sso_len o.storage (add64 cur 1) }
  else
    let need := add64 cur 2
    match make_non_sso_and_reserve o need with
    | .error e => .error e
    | .ok o =>
      let o := heap_put o cur ch
      let o := heap_put o (add64 cur 1) 0
      .ok { o with storage := set_heap_size o.storage (add64 cur 1) }

/-- Embeds `pop_back`. -/
def pop_back (o : Obj) : Obj :=
  let cur := size o
  if cur = 0 then o
  else if is_sso o.storage then
    let o := { o with storage := set_sso_len o.storage (sub64 cur 1) }
    sso_put o (sub64 cur 1) 0
  else
    let o := { o with storage := set_heap_size o.storage (sub64 cur 1) }
    heap_put o (sub64 cur 1) 0

/-- Embeds `resize`. -/
def resize (o : Obj) (new_size : Nat) (ch : Byte) : Res :=
  let cur := size o
  if new_size = cur then .ok o
  else if new_size < cur then
    let o1 : Obj :=
      if !is_heap o.storage then { o with storage := set_sso_len o.storage new_size }
      else { o with storage := set_heap_size o.storage new_size }
    .ok (if !is_heap o1.storage then sso_put o1 new_size 0 else heap_put o1 new_size 0)
  else
    let need := add64 new_size 1
    match make_non_sso_and_reserve o need with
    | .error e => .error e
    | .ok o =>
      -- std::fill(storage.heap.ptr + cur, storage.heap.ptr + new_size, ch)
      let o := heap_write o cur (sub64 new_size cur) (fill_src ch)
      let o := { o with storage := set_heap_size o.storage new_size }
      .ok (heap_put o new_size 0)

/-- Embeds the body of `append(std::basic_string_view<CharT, Traits> sv)`,
which `append(const CharT* s)` repeats once the length is known: `v` is
`sv.data()` and `add` is `sv.size()`.  The characters are read when the
`memcpy` runs, which in the second branch is after `make_non_sso_and_reserve`
has rewritten the storage and released the old buffer. -/
def append_view (o : Obj) (v : SvData) (add : Nat) : Res :=
  let cur := size o
  let need := add64 (add64 cur add) 1
  if is_sso o.storage ∧ need ≤ sso_capacity_bytes then
    -- std::memcpy(storage.sso.buf + cur, sv.data(), add)
    let o := sv_check o v add (.in_object cur)
    let o := sso_write o cur add (sv_bytes o v)
    let o := { o with storage := set_sso_len o.storage (add64 cur add) }
    .ok (sso_put o (add64 cur add) 0)
  else
    match make_non_sso_and_reserve o need with
    | .error e => .error e
    | .ok o =>
      -- std::memcpy(storage.heap.ptr + cur, sv.data(), add)
      let o := sv_check o v add (.in_store (heap_ptr o.storage) cur)
      let o := heap_write o cur add (sv_bytes o v)
      let o := { o with storage := set_heap_size o.storage (add64 cur add) }
      .ok (heap_put o (heap_size o.storage) 0)

/-- The call `append_view` for `add` characters `src` that live outside the
string: not in the string object and not in its buffer. -/
def append_bytes (o : Obj) (src : Bytes) (add : Nat) : Res :=
  append_view o (.outside src) add

/-- Embeds `append(std::basic_string_view<CharT, Traits> sv)` for a view of
the characters `sv` outside the string. -/
def append (o : Obj) (sv : List Byte) : Res :=
  append_bytes o (of_list sv) sv.length

/-- Embeds `append(const CharT* s)` for characters outside the string. -/
def append_cstr (o : Obj) (s : List Byte) : Res :=
  append_bytes o (of_list s) (c_length s)

/-- Embeds `append(const basic_sstring& other)` for `other` the string itself
(`s.append(s)`, `s += s`): the call
`append(std::string_view(other.data(), other.size()))`. -/
def append_self (o : Obj) : Res := append_view o (data_at o 0) (size o)

/-- Embeds `insert(size_type pos, std::basic_string_view<CharT, Traits> sv)`:
`v` is `sv.data()` and `add` is `sv.size()`.  The characters are read when
the `memcpy` runs, after the reallocation and after the tail has moved. -/
def insert_view (o : Obj) (pos : Nat) (v : SvData) (add : Nat) : Res :=
  if pos > size o then .error (Exn.out_of_range, o)
  else
    let cur := size o
    let need := add64 (add64 cur add) 1
    if is_sso o.storage ∧ need ≤ sso_capacity_bytes then
      -- std::memmove(storage.sso.buf + pos + add, storage.sso.buf + pos, cur - pos)
      let o := sso_write (sso_check o pos (sub64 cur pos)) (add64 pos add) (sub64 cur pos)
                 (shift_src o.storage pos)
      -- std::memcpy(storage.sso.buf + pos, sv.data(), add)
      let o := sv_check o v add (.in_object pos)
      let o := sso_write o pos add (sv_bytes o v)
      let o := { o with storage := set_sso_len o.storage (add64 cur add) }
      .ok (sso_put o (add64 cur add) 0)
    else
      match make_non_sso_and_reserve o need with
      | .error e => .error e
      | .ok o =>
        -- std::memmove(storage.heap.ptr + pos + add, storage.heap.ptr + pos, cur - pos)
        let o := heap_write (heap_check o pos (sub64 cur pos)) (add64 pos add) (sub64 cur pos)
                   (shift_src (o.mem.load (heap_ptr o.storage)) pos)
        -- std::memcpy(storage.heap.ptr + pos, sv.data(), add)
        let o := sv_check o v add (.in_store (heap_ptr o.storage) pos)
        let o := heap_write o pos add (sv_bytes o v)
        let o := { o with storage := set_heap_size o.storage (add64 cur add) }
        .ok (heap_put o (heap_size o.storage) 0)

/-- Embeds `insert` for a view of the characters `sv` outside the string. -/
def insert (o : Obj) (pos : Nat) (sv : List Byte) : Res :=
  insert_view o pos (.outside (of_list sv)) sv.length

/-- Embeds `x.insert(pos, x)`: the argument is the string itself, converted
by `operator std::basic_string_view`, that is the view
`(data(), size())`. -/
def insert_self (o : Obj) (pos : Nat) : Res := insert_view o pos (data_at o 0) (size o)

/-- Embeds `erase`. -/
def erase (o : Obj) (pos : Nat) (len : Nat) : Res :=
  let cur := size o
  if pos ≥ cur then .error (Exn.out_of_range, o)
  else if len = npos ∨ add64 pos len ≥ cur then
    if is_sso o.storage then
      let o := { o with storage := set_sso_len o.storage pos }
      .ok (sso_put o pos 0)
    else
      let o := { o with storage := set_heap_size o.storage pos }
      .ok (heap_put o pos 0)
  else
    let tail := sub64 cur (add64 pos len)
    if is_sso o.storage then
      -- std::memmove(storage.sso.buf + pos, storage.sso.buf + pos + len, tail)
      let o := sso_write (sso_check o (add64 pos len) tail) pos tail
                 (shift_src o.storage (add64 pos len))
      let o := { o with storage := set_sso_len o.storage (add64 pos tail) }
      .ok (sso_put o (add64 pos tail) 0)
    else
      -- std::memmove(storage.heap.ptr + pos, storage.heap.ptr + pos + len, tail)
      let o := heap_write (heap_check o (add64 pos len) tail) pos tail
                 (shift_src (o.mem.load (heap_ptr o.storage)) (add64 pos len))
      let o := { o with storage := set_heap_size o.storage (add64 pos tail) }
      .ok (heap_put o (heap_size o.storage) 0)

/-- The loop of `ltrim`: from index `i`, steps forward while `i < size()` and
`data()[i]` is found in the set; at most `fuel` steps. -/
def ltrim_loop (d : Bytes) (sz : Nat) (cs : List Byte) : Nat → Nat → Nat
  | 0, i => i
  | fuel + 1, i => if i < sz ∧ d i ∈ cs then ltrim_loop d sz cs fuel (i + 1) else i

/-- The loop of `rtrim`: from index `i`, steps back while `i > 0` and
`data()[i - 1]` is found in the set. -/
def rtrim_loop (d : Bytes) (cs : List Byte) : Nat → Nat
  | 0 => 0
  | i + 1 => if d i ∈ cs then rtrim_loop d cs i else i + 1

/-- The `string_view` made of a C string: its bytes before the first NUL. -/
def c_view (chars : List Byte) : List Byte := chars.takeWhile (fun b => b != 0)

/-- Embeds `ltrim`. -/
def ltrim (o : Obj) (chars : List Byte) : Res :=
  let i := ltrim_loop (data o) (size o) (c_view chars) (size o) 0
  if i > 0 then erase o 0 i else .ok o

/-- Embeds `rtrim`. -/
def rtrim (o : Obj) (chars : List Byte) : Res :=
  let i := rtrim_loop (data o) (c_view chars) (size o)
  if i < size o then erase o i (sub64 (size o) i) else .ok o

/-- Embeds `trim`. -/
def trim (o : Obj) (chars : List Byte) : Res :=
  match ltrim o chars with
  | .error e => .error e
  | .ok o => rtrim o chars

/-! ## Well-formed objects and reachable objects -/

/-- The object a call leaves behind, whether it returned or threw. -/
def outcome (r : Res) : Obj :=
  match r with
  | .ok o => o
  | .error e => e.2

/-- A sound free store: no fault so far, an arena inside the 64-bit address
space, and no live allocation at or above the bump pointer. -/
structure Mem.OK (m : Mem) : Prop where
  no_fault : m.fault = false
  arena : m.limit ≤ 2 ^ 64
  fresh : ∀ a, m.next ≤ a → m.blocks a = none

/-- The structural invariant of the data model.  Inline shape: the length is
at most `R - 1` and the byte at offset `len` of `buf` is 0.  Heap shape: the
pointer is a live allocation of exactly `cap` bytes, `size < cap`, and the
byte at offset `size` of it is 0. -/
structure WF (o : Obj) : Prop where
  mem_ok : o.mem.OK
  sso : is_heap o.storage = false →
    sso_len o.storage ≤ sso_max_size ∧ o.storage (sso_len o.storage) = 0
  heap : is_heap o.storage = true →
    ∃ b, o.mem.blocks (heap_ptr o.storage) = some b ∧ b.size = heap_capacity_raw o.storage ∧
      heap_size o.storage < heap_capacity_raw o.storage ∧ b.bytes (heap_size o.storage) = 0

/-- The heap shape read off an object: the discriminant is set, the fields
hold the address `p`, the size `sz` and the raw capacity `cap`, and `p` is a
live allocation of `cap` bytes with content `d`. -/
structure HeapView (o : Obj) (p sz cap : Nat) (d : Bytes) : Prop where
  is_heap_eq : is_heap o.storage = true
  ptr_eq : heap_ptr o.storage = p
  size_eq : heap_size o.storage = sz
  cap_eq : heap_capacity_raw o.storage = cap
  block_eq : o.mem.blocks p = some ⟨cap, d⟩

/-- What a returning call `make_non_sso_and_reserve(n)` achieves: an object in
the heap shape with the size, the bytes and the terminator it had, and a raw
capacity of at least `n`. -/
def GrowsTo (o : Obj) (n : Nat) : Prop :=
  ∃ o1 p cap d, make_non_sso_and_reserve o n = .ok o1 ∧ HeapView o1 p (size o) cap d ∧
    o1.mem.OK ∧ n ≤ cap ∧ size o < cap ∧ (∀ i, i < size o → d i = data o i) ∧ d (size o) = 0

/-- Room left in the arena: `allocate n` succeeds exactly when `n < room`. -/
def Mem.room (m : Mem) : Nat := m.limit - m.next

/-- The objects obtained from a value constructor (default, C string,
`string_view`, fill) on a sound free store by public mutating calls that
return normally. -/
inductive Reachable : Obj → Prop
  | ctor_default (m : Mem) : m.OK → Reachable (ctor_default m)
  | ctor_cstr (s : Option (List Byte)) (m : Mem) (o : Obj) :
      m.OK → ctor_cstr s m = .ok o → Reachable o
  | ctor_sv (sv : List Byte) (m : Mem) (o : Obj) :
      m.OK → ctor_sv sv m = .ok o → Reachable o
  | ctor_fill (count : Nat) (ch : Byte) (m : Mem) (o : Obj) :
      m.OK → count < 2 ^ 64 → ctor_fill count ch m = .ok o → Reachable o
  | push_back (o : Obj) (ch : Byte) (o2 : Obj) :
      Reachable o → push_back o ch = .ok o2 → Reachable o2
  | pop_back (o : Obj) : Reachable o → Reachable (pop_back o)
  | append (o : Obj) (sv : List Byte) (o2 : Obj) :
      Reachable o → append o sv = .ok o2 → Reachable o2
  | append_cstr (o : Obj) (s : List Byte) (o2 : Obj) :
      Reachable o → append_cstr o s = .ok o2 → Reachable o2
  | insert (o : Obj) (pos : Nat) (sv : List Byte) (o2 : Obj) :
      Reachable o → pos < 2 ^ 64 → insert o pos sv = .ok o2 → Reachable o2
  | erase (o : Obj) (pos len : Nat) (o2 : Obj) :
      Reachable o → pos < 2 ^ 64 → len < 2 ^ 64 → erase o pos len = .ok o2 → Reachable o2
  | resize (o : Obj) (new_size : Nat) (ch : Byte) (o2 : Obj) :
      Reachable o → new_size < 2 ^ 64 → resize o new_size ch = .ok o2 → Reachable o2
  | clear (o : Obj) : Reachable o → Reachable (clear o)
  | reserve (o : Obj) (new_cap : Nat) (o2 : Obj) :
      Reachable o → new_cap < 2 ^ 64 → reserve o new_cap = .ok o2 → Reachable o2
  | reserve_exact (o : Obj) (new_cap : Nat) (o2 : Obj) :
      Reachable o → new_cap < 2 ^ 64 → reserve_exact o new_cap = .ok o2 → Reachable o2
  | shrink_to_fit (o : Obj) (o2 : Obj) :
      Reachable o → shrink_to_fit o = .ok o2 → Reachable o2
  | ltrim (o : Obj) (chars : List Byte) (o2 : Obj) :
      Reachable o → ltrim o chars = .ok o2 → Reachable o2
  | rtrim (o : Obj) (chars : List Byte) (o2 : Obj) :
      Reachable o → rtrim o chars = .ok o2 → Reachable o2
  | trim (o : Obj) (chars : List Byte) (o2 : Obj) :
      Reachable o → trim o chars = .ok o2 → Reachable o2

/-! ## Sample data -/

/-- A free store with nothing allocated: arena `[4096, 2^32)`, fresh memory
filled with `0xAA`. -/
def mem0 : Mem := Mem.init 4096 (2 ^ 32) (fun _ => 0xAA)

/-- The bytes of `"abcde"`. -/
def abcde : List Byte := [97, 98, 99, 100, 101]

/-- The bytes of `"abcdef"`. -/
def abcdef : List Byte := [97, 98, 99, 100, 101, 102]

/-- The bytes of `"XYZ"`. -/
def XYZ : List Byte := [88, 89, 90]

/-- The bytes of `"0123456789"`. -/
def digits : List Byte := [48, 49, 50, 51, 52, 53, 54, 55, 56, 57]

/-- Forty bytes `'x'`. -/
def forty_x : List Byte := List.replicate 40 120

/-- Twenty-nine bytes `'x'`. -/
def twenty_nine_x : List Byte := List.replicate 29 120

/-- The string constructed from twenty-nine bytes `'x'` (inline, full). -/
def str_twenty_nine_x : Obj := outcome (ctor_sv twenty_nine_x mem0)

/-- The string constructed from `"abcde"` (inline). -/
def str_abcde : Obj := outcome (ctor_sv abcde mem0)

/-- The string constructed from `"abcdef"` (inline). -/
def str_abcdef : Obj := outcome (ctor_sv abcdef mem0)

/-- The string constructed from `"0123456789"` (inline). -/
def str_digits : Obj := outcome (ctor_sv digits mem0)

/-- The string constructed from forty bytes `'x'` (heap). -/
def str_forty_x : Obj := outcome (ctor_sv forty_x mem0)

/-- The heap string of forty `'x'` after `reserve(100)`: raw capacity 101. -/
def str_forty_x_reserved : Obj := outcome (reserve str_forty_x 100)

/-- The heap string of forty `'x'` after `resize(3)`: a heap string of size
3. -/
def str_forty_x_resized : Obj := outcome (resize str_forty_x 3 0)

/-! ## Comparison and search -/

/-- The least index in `[c, c + len)` at which `a` and `b` differ, if any. -/
def mismatch (a b : Bytes) : Nat → Nat → Option Nat
  | _, 0 => none
  | c, len + 1 => if a c ≠ b c then some c else mismatch a b (c + 1) len

/-- What the C standard says of `memcmp(a, b, n)`: the result is 0 when the
first `n` bytes agree, and otherwise has the sign of the difference of the
first pair of bytes that differ, both taken as `unsigned char`.  The value
itself is left to the implementation. -/
def MemcmpSpec (memcmp : Bytes → Bytes → Nat → Int) : Prop :=
  ∀ a b n,
    (mismatch a b 0 n = none → memcmp a b n = 0) ∧
    (∀ k, mismatch a b 0 n = some k →
      (a k < b k → memcmp a b n < 0) ∧ (b k < a k → 0 < memcmp a b n))

/-- A `memcmp` that returns the difference of the first pair of bytes that
differ, as the byte-by-byte implementations of the C library do. -/
def memcmp_diff (a b : Bytes) (n : Nat) : Int :=
  match mismatch a b 0 n with
  | none => 0
  | some k => ((a k).val : Int) - ((b k).val : Int)

/-- Embeds `compare(std::basic_string_view)`, over the `std::memcmp` of the
C library. -/
def compare (memcmp : Bytes → Bytes → Nat → Int) (o : Obj) (sv : List Byte) : Int :=
  let lhs_sz := size o
  let rhs_sz := sv.length
  let r := memcmp (data o) (of_list sv) (min lhs_sz rhs_sz)
  if r ≠ 0 then r
  else if lhs_sz < rhs_sz then -1
  else if lhs_sz > rhs_sz then 1
  else 0

/-- The call `memchr(d + c, b, len)`: the offset from `d` of the first byte
equal to `b` among `d[c .. c + len)`, or `none` for a null pointer. -/
def memchr (d : Bytes) (b : Byte) : Nat → Nat → Option Nat
  | _, 0 => none
  | c, len + 1 => if d c = b then some c else memchr d b (c + 1) len

/-- The test `Traits::compare(d + i, needle, m) == 0`: the `m` bytes at
`d + i` are the `m` bytes of `needle`. -/
def traits_compare_eq (d : Bytes) (i : Nat) (needle : Bytes) (m : Nat) : Bool :=
  (List.range m).all (fun j => decide (d (i + j) = needle j))

/-- The `while (true)` loop of `find(std::basic_string_view, size_type)`, with
`cur` and `end` as offsets from `data()`.  The first argument bounds the
number of iterations; `none` means the bound was reached. -/
def find_loop (d needle : Bytes) (m e : Nat) : Nat → Nat → Option Nat
  | 0, _ => none
  | fuel + 1, cur =>
    match memchr d (needle 0) cur (e - cur) with
    | none => some npos
    | some candidate =>
      if traits_compare_eq d candidate needle m then some candidate
      else if candidate + 1 ≥ e then some npos
      else find_loop d needle m e fuel (candidate + 1)

/-- Embeds `find(std::basic_string_view, size_type)`.  Every iteration of the
loop moves `cur` forward, so `search_len` iterations are allowed; `none`
would mean that the loop needed more. -/
def find (o : Obj) (sv : List Byte) (pos : Nat) : Option Nat :=
  let n := size o
  let m := sv.length
  if pos > n then some npos
  else if m = 0 then some pos
  else if m > n - pos then some npos
  else
    let remaining := n - pos
    let search_len := remaining - m + 1
    find_loop (data o) (of_list sv) m (pos + search_len) search_len pos

/-- An occurrence of `p` in `X` at index `i`, for a search from `start`:
`start <= i`, `i + len(p) <= size()` and `X[i .. i + len(p))` equals `p`. -/
def Occurs (X : Obj) (p : List Byte) (start i : Nat) : Prop :=
  start ≤ i ∧ i + p.length ≤ size X ∧ ((content X).drop i).take p.length = p

/-- A free store whose arena has room for two allocations of 41 bytes and
not for a third. -/
def mem_tight : Mem := Mem.init 4096 4200 (fun _ => 0xAA)

/-- The string constructed from forty bytes `'x'` on the small arena
(heap). -/
def str_forty_x_tight : Obj := outcome (ctor_sv forty_x mem_tight)

/-- The string constructed from `"abcde"` on the small arena, after the
string of forty `'x'` (inline). -/
def str_abcde_tight : Obj := outcome (ctor_sv abcde str_forty_x_tight.mem)

/-! ## Several strings on one free store -/

/-- The `basic_sstring` objects of a program, by address, and the free store
their allocators (`std::allocator<char>`, all equal) work on. -/
structure World where
  objs : Nat → Storage
  mem : Mem

/-- A free-store result: the world, or the exception and the world at the
throw. -/
abbrev WRes := Except (Exn × World) World

/-- The string at address `a`, with the free store. -/
def World.obj (w : World) (a : Nat) : Obj := ⟨w.objs a, w.mem⟩

/-- Assignment of a whole storage block to the string at address `a`. -/
def World.set (w : World) (a : Nat) (s : Storage) : World :=
  { w with objs := fun x => if x = a then s else w.objs x }

/-- The world after a member function has run on the string at address `a`
and left it, and the free store, as `o`. -/
def World.put (w : World) (a : Nat) (o : Obj) : World :=
  { objs := fun x => if x = a then o.storage else w.objs x, mem := o.mem }

/-- Embeds `copy_storage`: `memcpy(&dest, &src, sizeof(Storage))`. -/
def copy_storage (w : World) (dest src : Nat) : World := w.set dest (w.objs src)

/-- Embeds `steal_storage`: `copy_storage(dest, src); reset_storage(src)`. -/
def steal_storage (w : World) (dest src : Nat) : World :=
  (copy_storage w dest src).set src reset_storage

/-- Records an access to `p[off .. off+n)`, for a pointer `p` held in another
object. -/
def ptr_check (o : Obj) (p off n : Nat) : Obj :=
  { o with mem := o.mem.check p off n }

/-- The block that copy construction and copy assignment share for a heap
source `rhs`: allocate `rhs.heap_capacity_raw()` bytes, copy
`rhs.storage.heap.size` bytes and a terminator, and set the four heap
fields. -/
def copy_heap (o : Obj) (rhs : Storage) : Res :=
  let sz := heap_size rhs
  let cap := heap_capacity_raw rhs
  match allocate_buffer o cap with
  | .error e => .error e
  | .ok (p, o) =>
    -- std::memcpy(p, rhs.storage.heap.ptr, sz)
    let o := ptr_write (ptr_check o (heap_ptr rhs) 0 sz) p 0 sz (o.mem.load (heap_ptr rhs))
    let o := ptr_put o p sz 0
    .ok (adopt o p sz cap)

/-- The statement that copy construction and copy assignment share:
`if (rhs.is_sso()) copy the storage block; else { the block of copy_heap }`,
for the destination at address `this`. -/
def copy_from (w : World) (this rhs : Nat) : WRes :=
  if is_sso (w.objs rhs) then .ok (copy_storage w this rhs)
  else
    match copy_heap (w.obj this) (w.objs rhs) with
    | .error e => .error (e.1, w.put this e.2)
    | .ok o => .ok (w.put this o)

/-- Embeds the copy constructor `basic_sstring(const basic_sstring& other)`,
for the object constructed at address `this`; its member `storage` is first
zero-filled by `Storage()`. -/
def copy_ctor (w : World) (this other : Nat) : WRes :=
  copy_from (w.set this reset_storage) this other

/-- Embeds copy assignment `operator=(const basic_sstring& rhs)`. -/
def copy_assign (w : World) (this rhs : Nat) : WRes :=
  if this = rhs then .ok w
  else
    let o := w.obj this
    let o :=
      if is_heap o.storage then
        deallocate_buffer o (heap_ptr o.storage) (heap_capacity_raw o.storage)
      else o
    copy_from (w.put this o) this rhs

/-- Embeds the move constructor `basic_sstring(basic_sstring&& other)`. -/
def move_ctor (w : World) (this other : Nat) : World :=
  steal_storage (w.set this reset_storage) this other

/-- Embeds move assignment `operator=(basic_sstring&& rhs)` for
`std::allocator`, whose `propagate_on_container_move_assignment` is
`true_type`: both branches steal the storage. -/
def move_assign (w : World) (this rhs : Nat) : World :=
  if this = rhs then w
  else
    let o := w.obj this
    let o :=
      if is_heap o.storage then
        deallocate_buffer o (heap_ptr o.storage) (heap_capacity_raw o.storage)
      else o
    let w := w.put this o
    if is_sso (w.objs rhs) then steal_storage w this rhs
    else steal_storage w this rhs

/-- Embeds `swap` for `std::allocator`, whose `propagate_on_container_swap`
is `false_type` and whose instances all compare equal: the three `memcpy`
through `tmp`. -/
def swap (w : World) (this other : Nat) : World :=
  if this = other then w
  else
    let tmp := w.objs this
    let w := copy_storage w this other
    w.set other tmp

/-- Embeds `operator==`:
`a.size() == b.size() && Traits::compare(a.data(), b.data(), a.size()) == 0`. -/
def operator_eq (w : World) (a b : Nat) : Bool :=
  decide (size (w.obj a) = size (w.obj b)) &&
    traits_compare_eq (data (w.obj a)) 0 (data (w.obj b)) (size (w.obj a))

/-- The world a call leaves behind, whether it returned or threw. -/
def woutcome (r : WRes) : World :=
  match r with
  | .ok w => w
  | .error e => e.2

/-- Two strings that do not share a heap buffer. -/
def NoAlias (a b : Obj) : Prop :=
  is_heap a.storage = true → is_heap b.storage = true →
    heap_ptr a.storage ≠ heap_ptr b.storage

/-- Address of the first sample string. -/
def addr_a : Nat := 0
/-- Address of the second sample string. -/
def addr_b : Nat := 1
/-- Address of a third string. -/
def addr_c : Nat := 2

/-- The world with `"abcde"` (inline) at `addr_a` and forty `'x'` (heap) at
`addr_b`. -/
def world_ab : World :=
  let a := outcome (ctor_sv abcde mem0)
  let b := outcome (ctor_sv forty_x a.mem)
  (World.put (World.put ⟨fun _ => reset_storage, mem0⟩ addr_a a) addr_b b)

/-- The world with the heap string `"xxx"` (forty `'x'` resized to 3) at
`addr_a` and the inline string `"xxx"` at `addr_b`. -/
def world_short_heap : World :=
  let a := str_forty_x_resized
  let b := outcome (ctor_sv [120, 120, 120] a.mem)
  (World.put (World.put ⟨fun _ => reset_storage, mem0⟩ addr_a a) addr_b b)

/-- The world with two heap strings of forty bytes on the small arena, forty
`'x'` at `addr_a` and forty `'y'` at `addr_b`: no room is left for a third
buffer of 41 bytes. -/
def world_tight : World :=
  let a := outcome (ctor_sv forty_x mem_tight)
  let b := outcome (ctor_sv (List.replicate 40 121) a.mem)
  (World.put (World.put ⟨fun _ => reset_storage, mem_tight⟩ addr_a a) addr_b b)

/-- What a returning copy (construction or assignment) of `rhs` to `this`
achieves, from the world `w` to the world `w1`: the destination is a
well-formed string with the size, the content, the mode and the capacity of
the source, in a buffer of its own, and the source is the string it was. -/
structure Copied (w w1 : World) (this rhs : Nat) : Prop where
  dest_wf : WF (w1.obj this)
  source_wf : WF (w1.obj rhs)
  source_kept : w1.objs rhs = w.objs rhs
  source_size : size (w1.obj rhs) = size (w.obj rhs)
  source_content : content (w1.obj rhs) = content (w.obj rhs)
  mode_eq : is_heap (w1.objs this) = is_heap (w.objs rhs)
  size_eq : size (w1.obj this) = size (w.obj rhs)
  capacity_eq : capacity (w1.obj this) = capacity (w.obj rhs)
  content_eq : content (w1.obj this) = content (w.obj rhs)
  own_buffer : NoAlias (w1.obj this) (w1.obj rhs)

/-- The world in which copy assignment runs its copy: the destination has
released its buffer, if it had one. -/
def released (w : World) (this : Nat) : World :=
  w.put this
    (if is_heap (w.obj this).storage then
      deallocate_buffer (w.obj this) (heap_ptr (w.obj this).storage)
        (heap_capacity_raw (w.obj this).storage)
    else w.obj this)

/-- Embeds `basic_sstring(std::basic_string_view<CharT, Traits> sv, const
allocator_type& alloc)`, on the bytes `src` and length `len` of the view. -/
def ctor_sv_alloc (src : Bytes) (len : Nat) (m : Mem) : Res :=
  let o : Obj := ⟨reset_storage, m⟩
  if len ≤ sso_max_size then
    let o := sso_write o 0 len src
    let o := { o with storage := set_sso_len o.storage len }
    let o := sso_put o len 0
    .ok { o with storage := set_sso_tag0 o.storage }
  else
    let cap := add64 len 1
    match allocate_buffer o cap with
    | .error e => .error e
    | .ok (p, o) =>
      let o := ptr_write o p 0 len src
      let o := ptr_put o p len 0
      .ok (adopt o p len cap)

/-- Records the read of `data()[off .. off+n)` of the string with storage
block `s`. -/
def data_check (o : Obj) (s : Storage) (off n : Nat) : Obj :=
  if is_heap s then ptr_check o (heap_ptr s) off n else sso_check o off n

/-- Embeds `substr`: the string at address `this` is the receiver, the string
returned is constructed at address `ret`, from the view
`(data() + pos, count)`, whose bytes the constructor reads. -/
def substr (w : World) (this ret : Nat) (pos count : Nat) : WRes :=
  let o := w.obj this
  let cur := size o
  if pos > cur then .error (Exn.out_of_range, w)
  else
    let count := if count = npos ∨ add64 pos count > cur then sub64 cur pos else count
    match ctor_sv_alloc (shift_src (data o) pos) count w.mem with
    | .error e => .error (e.1, w)
    | .ok r => .ok (w.put ret (data_check r o.storage pos count))

/-- The bytes of `"  pad  "`. -/
def pad_padded : List Byte := [32, 32, 112, 97, 100, 32, 32]

/-- The bytes of `" \t"`. -/
def blank_tab : List Byte := [32, 9]

/-- The string constructed from `"  pad  "`. -/
def str_pad_padded : Obj := outcome (ctor_sv pad_padded mem0)

/-! ## Element access -/

/-- Embeds `at`: the byte `data()[idx]`, or `out_of_range` when
`idx >= size()`. -/
def at_index (o : Obj) (idx : Nat) : Except (Exn × Obj) Byte :=
  if idx ≥ size o then .error (Exn.out_of_range, o) else .ok (data o idx)

/-- Embeds `front`: `at(0)`. -/
def front (o : Obj) : Except (Exn × Obj) Byte := at_index o 0

/-- Embeds `back`: `at(size() - 1)`, the subtraction in `size_type`. -/
def back (o : Obj) : Except (Exn × Obj) Byte := at_index o (sub64 (size o) 1)

/-- The empty string (default constructor). -/
def str_empty : Obj := ctor_default mem0

/-- The structural invariant of the string alone: in inline mode
`size() <= R - 1` and `buf[size()] == 0`; in heap mode the pointer addresses
an allocation of the raw capacity, `size()` is below the raw capacity and
`ptr[size()] == 0`.  `WF` is this invariant together with a sound free
store. -/
def Structural (o : Obj) : Prop :=
  (is_heap o.storage = false →
    size o ≤ SSO_ReservedBytes - 1 ∧ o.storage (size o) = 0) ∧
  (is_heap o.storage = true →
    ∃ b, o.mem.blocks (heap_ptr o.storage) = some b ∧ b.size = heap_capacity_raw o.storage ∧
      size o < heap_capacity_raw o.storage ∧ b.bytes (size o) = 0)

/-- The loop of `std::search` as the C++ standard specifies its result: from
offset `i`, the first offset at which the `m` bytes of `needle` occur wholly
before `last`, or `last` when there is none; at most `fuel` offsets are
tried. -/
def search_loop (d needle : Bytes) (m last : Nat) : Nat → Nat → Nat
  | 0, _ => last
  | fuel + 1, i =>
    if i + m > last then last
    else if traits_compare_eq d i needle m then i
    else search_loop d needle m last fuel (i + 1)

/-- The call `std::search(d + first, d + last, needle, needle + m)`, as an
offset from `d`: the first occurrence of the needle in `[first, last)`, `last`
when there is none, and `first` when the needle is empty. -/
def std_search (d : Bytes) (first last : Nat) (needle : Bytes) (m : Nat) : Nat :=
  search_loop d needle m last (last - first + 1) first

/-- Embeds `find_legacy`. -/
def find_legacy (o : Obj) (sv : List Byte) (pos : Nat) : Nat :=
  if pos > size o then npos
  else
    let haylen := sub64 (size o) pos
    let p := std_search (data o) pos (pos + haylen) (of_list sv) sv.length
    if p = pos + haylen then npos else p

/-- Twenty distinct bytes, `"abcdefghijklmnopqrst"`. -/
def a_to_t : List Byte :=
  [97, 98, 99, 100, 101, 102, 103, 104, 105, 106, 107, 108, 109, 110, 111, 112, 113, 114,
    115, 116]

/-- The inline string `"abcdefghijklmnopqrst"`. -/
def str_a_to_t : Obj := outcome (ctor_sv a_to_t mem0)

/-- The string of forty `'x'` after `resize(20)`: a heap string of 20 bytes. -/
def str_forty_x_twenty : Obj := outcome (resize str_forty_x 20 0)

/-- The string of forty `'x'` after `resize(29)`: a heap string of 29 bytes. -/
def str_forty_x_twenty_nine : Obj := outcome (resize str_forty_x 29 0)

/-! # Lemmas -/

/-! ### Machine words -/

theorem land_flag (x : Nat) (h : x < 2 ^ 64) :
    Nat.land x (2 ^ 63) = if 2 ^ 63 ≤ x then 2 ^ 63 else 0 := by
  show x &&& 2 ^ 63 = _
  apply Nat.eq_of_testBit_eq
  intro i
  rw [Nat.testBit_and, Nat.testBit_two_pow]
  by_cases hi : 63 = i
  · subst hi
    simp only [decide_True, Bool.and_true]
    rw [Nat.testBit_to_div_mod]
    split
    · rw [Nat.testBit_two_pow_self]; simp; omega
    · simp; omega
  · simp only [hi, decide_False, Bool.and_false]
    split
    · rw [Nat.testBit_two_pow_of_ne hi]
    · simp

theorem lor_flag (x : Nat) (h : x < 2 ^ 64) :
    Nat.lor x (2 ^ 63) = x % 2 ^ 63 + 2 ^ 63 := by
  show x ||| 2 ^ 63 = _
  have h1 : x % 2 ^ 63 + 2 ^ 63 = 2 ^ 63 * 1 ||| x % 2 ^ 63 := by
    rw [← Nat.mul_add_lt_is_or (Nat.mod_lt _ (by norm_num))]; omega
  rw [h1]
  apply Nat.eq_of_testBit_eq
  intro i
  simp only [Nat.testBit_or, Nat.mul_one, Nat.testBit_two_pow, Nat.testBit_mod_two_pow]
  by_cases hi : 63 = i
  · subst hi; simp
  · simp only [hi, decide_False, Bool.or_false, Bool.false_or]
    by_cases h2 : i < 63
    · simp [h2]
    · simp only [h2, decide_False, Bool.false_and]
      apply Nat.testBit_lt_two_pow
      calc x < 2 ^ 64 := h
        _ ≤ 2 ^ i := Nat.pow_le_pow_right (by norm_num) (by omega)

theorem byte_of_val (v k : Nat) : (byte_of v k).val = v / 256 ^ k % 256 := rfl

theorem to_flag_val (v : Nat) : (to_flag v).val = v % 256 := rfl

theorem blit_apply (dst : Bytes) (off n : Nat) (src : Bytes) (i : Nat) :
    blit dst off n src i = if off ≤ i ∧ i < off + n then src (i - off) else dst i := rfl

theorem ld64_lt (b : Bytes) (off : Nat) : ld64 b off < 2 ^ 64 := by
  unfold ld64
  have h0 := (b off).isLt
  have h1 := (b (off + 1)).isLt
  have h2 := (b (off + 2)).isLt
  have h3 := (b (off + 3)).isLt
  have h4 := (b (off + 4)).isLt
  have h5 := (b (off + 5)).isLt
  have h6 := (b (off + 6)).isLt
  have h7 := (b (off + 7)).isLt
  omega

theorem ld64_congr (b c : Bytes) (off : Nat) (h : ∀ k, k < 8 → b (off + k) = c (off + k)) :
    ld64 b off = ld64 c off := by
  unfold ld64
  rw [show b off = c off from h 0 (by omega), h 1 (by omega), h 2 (by omega), h 3 (by omega),
    h 4 (by omega), h 5 (by omega), h 6 (by omega), h 7 (by omega)]

theorem ld64_st64 (b : Bytes) (off v : Nat) : ld64 (st64 b off v) off = v % 2 ^ 64 := by
  unfold ld64 st64
  simp only [blit_apply]
  simp only [show ∀ k, off + k - off = k from fun k => by omega, Nat.sub_self]
  simp [byte_of_val]
  omega

theorem st64_apply_out (b : Bytes) (off v i : Nat) (h : i < off ∨ off + 8 ≤ i) :
    st64 b off v i = b i := by
  unfold st64
  rw [blit_apply, if_neg (by omega)]

theorem ld64_st64_out (b : Bytes) (off v off2 : Nat) (h : off2 + 8 ≤ off ∨ off + 8 ≤ off2) :
    ld64 (st64 b off v) off2 = ld64 b off2 :=
  ld64_congr _ _ _ (fun k hk => st64_apply_out _ _ _ _ (by omega))

theorem is_heap_iff (s : Storage) : is_heap s = true ↔ 128 ≤ (s 31).val := by
  unfold is_heap heap_flag HEAP_FLAG
  rw [land_flag _ (ld64_lt s 24)]
  have key : 2 ^ 63 ≤ ld64 s 24 ↔ 128 ≤ (s 31).val := by
    simp only [ld64, Nat.reduceAdd]
    have h0 := (s 24).isLt
    have h1 := (s 25).isLt
    have h2 := (s 26).isLt
    have h3 := (s 27).isLt
    have h4 := (s 28).isLt
    have h5 := (s 29).isLt
    have h6 := (s 30).isLt
    have h7 := (s 31).isLt
    omega
  rw [← key]
  split <;> simp_all

/-! ### Storage fields under the setters -/

theorem ld64_blit_out (b : Bytes) (off n : Nat) (src : Bytes) (off2 : Nat)
    (h : off2 + 8 ≤ off ∨ off + n ≤ off2) : ld64 (blit b off n src) off2 = ld64 b off2 :=
  ld64_congr _ _ _ (fun k hk => by rw [blit_apply, if_neg (by omega)])

theorem is_heap_congr (s t : Storage) (h : s 31 = t 31) : is_heap s = is_heap t := by
  rw [Bool.eq_iff_iff, is_heap_iff, is_heap_iff, h]

theorem is_heap_eq_false_iff (s : Storage) : is_heap s = false ↔ (s 31).val < 128 := by
  have h1 := is_heap_iff s
  cases hs : is_heap s <;> simp_all

theorem is_sso_eq (s : Storage) : is_sso s = !is_heap s := rfl

theorem heap_ptr_set_heap_ptr (s : Storage) (p : Nat) : heap_ptr (set_heap_ptr s p) = p % 2 ^ 64 :=
  ld64_st64 s 0 p
theorem heap_size_set_heap_ptr (s : Storage) (p : Nat) : heap_size (set_heap_ptr s p) = heap_size s :=
  ld64_st64_out s 0 p 8 (by omega)
theorem heap_cap_set_heap_ptr (s : Storage) (p : Nat) :
    heap_capacity_raw (set_heap_ptr s p) = heap_capacity_raw s :=
  ld64_st64_out s 0 p 16 (by omega)
theorem is_heap_set_heap_ptr (s : Storage) (p : Nat) : is_heap (set_heap_ptr s p) = is_heap s :=
  is_heap_congr _ _ (st64_apply_out s 0 p 31 (by omega))

theorem heap_ptr_set_heap_size (s : Storage) (v : Nat) : heap_ptr (set_heap_size s v) = heap_ptr s :=
  ld64_st64_out s 8 v 0 (by omega)
theorem heap_size_set_heap_size (s : Storage) (v : Nat) :
    heap_size (set_heap_size s v) = v % 2 ^ 64 :=
  ld64_st64 s 8 v
theorem heap_cap_set_heap_size (s : Storage) (v : Nat) :
    heap_capacity_raw (set_heap_size s v) = heap_capacity_raw s :=
  ld64_st64_out s 8 v 16 (by omega)
theorem is_heap_set_heap_size (s : Storage) (v : Nat) : is_heap (set_heap_size s v) = is_heap s :=
  is_heap_congr _ _ (st64_apply_out s 8 v 31 (by omega))

theorem heap_ptr_set_heap_cap (s : Storage) (v : Nat) : heap_ptr (set_heap_cap s v) = heap_ptr s :=
  ld64_st64_out s 16 v 0 (by omega)
theorem heap_size_set_heap_cap (s : Storage) (v : Nat) : heap_size (set_heap_cap s v) = heap_size s :=
  ld64_st64_out s 16 v 8 (by omega)
theorem heap_cap_set_heap_cap (s : Storage) (v : Nat) :
    heap_capacity_raw (set_heap_cap s v) = v % 2 ^ 64 :=
  ld64_st64 s 16 v
theorem is_heap_set_heap_cap (s : Storage) (v : Nat) : is_heap (set_heap_cap s v) = is_heap s :=
  is_heap_congr _ _ (st64_apply_out s 16 v 31 (by omega))

theorem heap_ptr_set_heap_flag (s : Storage) : heap_ptr (set_heap_flag s) = heap_ptr s :=
  ld64_st64_out s 24 _ 0 (by omega)
theorem heap_size_set_heap_flag (s : Storage) : heap_size (set_heap_flag s) = heap_size s :=
  ld64_st64_out s 24 _ 8 (by omega)
theorem heap_cap_set_heap_flag (s : Storage) :
    heap_capacity_raw (set_heap_flag s) = heap_capacity_raw s :=
  ld64_st64_out s 24 _ 16 (by omega)

theorem is_heap_set_heap_flag (s : Storage) : is_heap (set_heap_flag s) = true := by
  rw [is_heap_iff]
  unfold set_heap_flag st64 HEAP_FLAG heap_flag
  rw [blit_apply, if_pos (by omega), byte_of_val, lor_flag _ (ld64_lt s 24)]
  omega

theorem set_heap_flag_apply (s : Storage) (i : Nat) (h : i < 24) : set_heap_flag s i = s i :=
  st64_apply_out s 24 _ i (by omega)

theorem set_sso_len_apply (s : Storage) (v i : Nat) :
    set_sso_len s v i = if i = 30 then to_flag v else s i := by
  unfold set_sso_len
  rw [blit_apply]
  by_cases h : i = 30
  · simp [h, fill_src]
  · rw [if_neg (by omega), if_neg h]

theorem set_sso_tag0_apply (s : Storage) (i : Nat) :
    set_sso_tag0 s i = if i = 31 then 0 else s i := by
  unfold set_sso_tag0
  rw [blit_apply]
  by_cases h : i = 31
  · simp [h, fill_src]
  · rw [if_neg (by omega), if_neg h]

theorem is_heap_set_sso_len (s : Storage) (v : Nat) : is_heap (set_sso_len s v) = is_heap s :=
  is_heap_congr _ _ (by rw [set_sso_len_apply]; simp)

theorem is_heap_set_sso_tag0 (s : Storage) : is_heap (set_sso_tag0 s) = false := by
  rw [is_heap_eq_false_iff, set_sso_tag0_apply]; simp

theorem sso_len_set_sso_len (s : Storage) (v : Nat) : sso_len (set_sso_len s v) = v % 256 := by
  unfold sso_len; rw [set_sso_len_apply]; simp [to_flag_val]

theorem sso_len_set_sso_tag0 (s : Storage) : sso_len (set_sso_tag0 s) = sso_len s := by
  unfold sso_len; rw [set_sso_tag0_apply]; simp

theorem is_heap_reset_storage : is_heap reset_storage = false := by
  rw [is_heap_eq_false_iff]; simp [reset_storage]

/-! ### The free store -/

theorem Mem.set_block_blocks (m : Mem) (p : Nat) (b : Option Block) (a : Nat) :
    (m.set_block p b).blocks a = if a = p then b else m.blocks a := rfl

@[simp] theorem Mem.set_block_blocks_same (m : Mem) (p : Nat) (b : Option Block) :
    (m.set_block p b).blocks p = b := by
  rw [Mem.set_block_blocks, if_pos rfl]

theorem Mem.set_block_blocks_ne (m : Mem) (p : Nat) (b : Option Block) (a : Nat) (h : a ≠ p) :
    (m.set_block p b).blocks a = m.blocks a := by
  rw [Mem.set_block_blocks, if_neg h]

@[simp] theorem Mem.set_block_next (m : Mem) (p : Nat) (b : Option Block) :
    (m.set_block p b).next = m.next := rfl
@[simp] theorem Mem.set_block_limit (m : Mem) (p : Nat) (b : Option Block) :
    (m.set_block p b).limit = m.limit := rfl
@[simp] theorem Mem.set_block_junk (m : Mem) (p : Nat) (b : Option Block) :
    (m.set_block p b).junk = m.junk := rfl
@[simp] theorem Mem.set_block_freed (m : Mem) (p : Nat) (b : Option Block) :
    (m.set_block p b).freed = m.freed := rfl
@[simp] theorem Mem.set_block_fault (m : Mem) (p : Nat) (b : Option Block) :
    (m.set_block p b).fault = m.fault := rfl

theorem Mem.set_block_set_block (m : Mem) (p : Nat) (b c : Option Block) :
    (m.set_block p b).set_block p c = m.set_block p c := by
  unfold Mem.set_block
  simp only [Mem.mk.injEq, and_true]
  funext a
  by_cases h : a = p <;> simp [h]

theorem Mem.check_eq (m : Mem) (p off n : Nat) (h : m.in_bounds p off n = true) :
    m.check p off n = m := by
  unfold Mem.check; rw [if_pos h]

theorem Mem.in_bounds_of_block (m : Mem) (p off n cap : Nat) (d : Bytes)
    (hb : m.blocks p = some ⟨cap, d⟩) (h : n = 0 ∨ off + n ≤ cap) :
    m.in_bounds p off n = true := by
  unfold Mem.in_bounds
  rw [hb]
  rcases h with h | h
  · simp [h]
  · simp [h]

theorem Mem.write_eq (m : Mem) (p off n cap : Nat) (d src : Bytes)
    (hb : m.blocks p = some ⟨cap, d⟩) (h : n = 0 ∨ off + n ≤ cap) :
    m.write p off n src = m.set_block p (some ⟨cap, blit d off n src⟩) := by
  unfold Mem.write
  rw [hb]
  simp only
  rw [Mem.check_eq m p off n (Mem.in_bounds_of_block m p off n cap d hb h)]

theorem Mem.load_of_block (m : Mem) (p cap : Nat) (d : Bytes) (hb : m.blocks p = some ⟨cap, d⟩)
    (i : Nat) : m.load p i = if i < cap then d i else 0 := by
  unfold Mem.load; rw [hb]

theorem Mem.OK.lt_next {m : Mem} (h : m.OK) {p : Nat} {b : Block} (hb : m.blocks p = some b) :
    p < m.next := by
  by_contra hc
  have := h.fresh p (by omega)
  rw [hb] at this
  cases this

theorem Mem.OK.after_write {m : Mem} (h : m.OK) (p off n cap : Nat) (d src : Bytes)
    (hb : m.blocks p = some ⟨cap, d⟩) (hn : n = 0 ∨ off + n ≤ cap) :
    (m.write p off n src).OK := by
  rw [Mem.write_eq m p off n cap d src hb hn]
  refine ⟨h.no_fault, h.arena, ?_⟩
  intro a ha
  have hp := h.lt_next hb
  have ha2 : m.next ≤ a := ha
  rw [Mem.set_block_blocks_ne _ _ _ _ (by omega)]
  exact h.fresh a ha

theorem Mem.init_OK (next limit : Nat) (junk : Bytes) (h : limit ≤ 2 ^ 64) :
    (Mem.init next limit junk).OK :=
  ⟨rfl, h, fun _ _ => rfl⟩

theorem Mem.allocate_eq (m : Mem) (n : Nat) (h : n < m.room) :
    m.allocate n = some (m.next, m.grown n) := by
  unfold Mem.allocate
  unfold Mem.room at h
  rw [if_pos (by omega)]

theorem Mem.allocate_none (m : Mem) (n : Nat) (h : ¬ n < m.room) : m.allocate n = none := by
  unfold Mem.allocate
  unfold Mem.room at h
  rw [if_neg (by omega)]

/-! ### The heap view -/

theorem HeapView.size_obj {o : Obj} {p sz cap : Nat} {d : Bytes} (hv : HeapView o p sz cap d) :
    libsstring.size o = sz := by
  unfold libsstring.size; rw [hv.is_heap_eq, if_pos rfl, hv.size_eq]

theorem HeapView.capacity_obj {o : Obj} {p sz cap : Nat} {d : Bytes} (hv : HeapView o p sz cap d) :
    capacity o = sub64 cap 1 := by
  unfold capacity; rw [hv.is_heap_eq, if_pos rfl, hv.cap_eq]

theorem HeapView.data_obj {o : Obj} {p sz cap : Nat} {d : Bytes} (hv : HeapView o p sz cap d)
    (i : Nat) : data o i = if i < cap then d i else 0 := by
  unfold data; rw [hv.is_heap_eq, if_pos rfl, hv.ptr_eq, Mem.load_of_block _ _ _ _ hv.block_eq]

theorem HeapView.check_eq_self {o : Obj} {p sz cap : Nat} {d : Bytes} (hv : HeapView o p sz cap d)
    (off n : Nat) (h : n = 0 ∨ off + n ≤ cap) : heap_check o off n = o := by
  unfold heap_check
  rw [hv.ptr_eq, Mem.check_eq _ _ _ _ (Mem.in_bounds_of_block _ _ _ _ _ _ hv.block_eq h)]

theorem HeapView.write_view {o : Obj} {p sz cap : Nat} {d : Bytes} (hv : HeapView o p sz cap d)
    (off n : Nat) (src : Bytes) (h : n = 0 ∨ off + n ≤ cap) :
    HeapView (heap_write o off n src) p sz cap (blit d off n src) := by
  unfold heap_write
  rw [hv.ptr_eq, Mem.write_eq _ _ _ _ _ _ _ hv.block_eq h]
  exact ⟨hv.is_heap_eq, hv.ptr_eq, hv.size_eq, hv.cap_eq, by simp⟩

theorem HeapView.write_OK {o : Obj} {p sz cap : Nat} {d : Bytes} (hv : HeapView o p sz cap d)
    (hok : o.mem.OK) (off n : Nat) (src : Bytes) (h : n = 0 ∨ off + n ≤ cap) :
    (heap_write o off n src).mem.OK := by
  unfold heap_write
  rw [hv.ptr_eq]
  exact hok.after_write _ _ _ _ _ _ hv.block_eq h

theorem HeapView.put_view {o : Obj} {p sz cap : Nat} {d : Bytes} (hv : HeapView o p sz cap d)
    (i : Nat) (b : Byte) (h : i < cap) :
    HeapView (heap_put o i b) p sz cap (blit d i 1 (fill_src b)) :=
  hv.write_view i 1 (fill_src b) (Or.inr (by omega))

theorem HeapView.put_OK {o : Obj} {p sz cap : Nat} {d : Bytes} (hv : HeapView o p sz cap d)
    (hok : o.mem.OK) (i : Nat) (b : Byte) (h : i < cap) : (heap_put o i b).mem.OK :=
  hv.write_OK hok i 1 (fill_src b) (Or.inr (by omega))

theorem HeapView.set_size_view {o : Obj} {p sz cap : Nat} {d : Bytes} (hv : HeapView o p sz cap d)
    (v : Nat) (h : v < 2 ^ 64) :
    HeapView { o with storage := set_heap_size o.storage v } p v cap d := by
  refine ⟨?_, ?_, ?_, ?_, hv.block_eq⟩
  · simp only [is_heap_set_heap_size]; exact hv.is_heap_eq
  · simp only [heap_ptr_set_heap_size]; exact hv.ptr_eq
  · simp only [heap_size_set_heap_size]; omega
  · simp only [heap_cap_set_heap_size]; exact hv.cap_eq

theorem WF.heap_view {o : Obj} (h : WF o) (hh : is_heap o.storage = true) :
    ∃ d, HeapView o (heap_ptr o.storage) (heap_size o.storage) (heap_capacity_raw o.storage) d ∧
      heap_size o.storage < heap_capacity_raw o.storage ∧ d (heap_size o.storage) = 0 := by
  obtain ⟨b, hb, hs, hlt, hz⟩ := h.heap hh
  refine ⟨b.bytes, ⟨hh, rfl, rfl, rfl, ?_⟩, hlt, hz⟩
  rw [hb, ← hs]

theorem WF.of_heap_view {o : Obj} {p sz cap : Nat} {d : Bytes} (hv : HeapView o p sz cap d)
    (hok : o.mem.OK) (h1 : sz < cap) (h2 : d sz = 0) : WF o := by
  refine ⟨hok, ?_, ?_⟩
  · intro hf; rw [hv.is_heap_eq] at hf; cases hf
  · intro _
    refine ⟨⟨cap, d⟩, ?_, ?_, ?_, ?_⟩
    · rw [hv.ptr_eq]; exact hv.block_eq
    · exact hv.cap_eq.symm
    · rw [hv.size_eq, hv.cap_eq]; exact h1
    · rw [hv.size_eq]; exact h2

/-! ### Growth -/

theorem Mem.grown_blocks (m : Mem) (n a : Nat) :
    (m.grown n).blocks a = if a = m.next then some ⟨n, m.junk⟩ else m.blocks a := rfl
@[simp] theorem Mem.grown_blocks_same (m : Mem) (n : Nat) :
    (m.grown n).blocks m.next = some ⟨n, m.junk⟩ := by
  rw [Mem.grown_blocks, if_pos rfl]
theorem Mem.grown_blocks_ne (m : Mem) (n a : Nat) (h : a ≠ m.next) :
    (m.grown n).blocks a = m.blocks a := by
  rw [Mem.grown_blocks, if_neg h]
@[simp] theorem Mem.grown_next (m : Mem) (n : Nat) : (m.grown n).next = m.next + n + 1 := rfl
@[simp] theorem Mem.grown_limit (m : Mem) (n : Nat) : (m.grown n).limit = m.limit := rfl
@[simp] theorem Mem.grown_junk (m : Mem) (n : Nat) : (m.grown n).junk = m.junk := rfl
@[simp] theorem Mem.grown_freed (m : Mem) (n : Nat) : (m.grown n).freed = m.freed := rfl
@[simp] theorem Mem.grown_fault (m : Mem) (n : Nat) : (m.grown n).fault = m.fault := rfl

theorem Mem.OK.after_grown {m : Mem} (h : m.OK) (n : Nat) : (m.grown n).OK := by
  refine ⟨h.no_fault, h.arena, ?_⟩
  intro a ha
  rw [Mem.grown_next] at ha
  rw [Mem.grown_blocks_ne _ _ _ (by omega)]
  exact h.fresh a (by omega)

theorem Mem.OK.after_set_block {m : Mem} (h : m.OK) (p : Nat) (b : Option Block) (hp : p < m.next) :
    (m.set_block p b).OK := by
  refine ⟨h.no_fault, h.arena, ?_⟩
  intro a ha
  rw [Mem.set_block_next] at ha
  rw [Mem.set_block_blocks_ne _ _ _ _ (by omega)]
  exact h.fresh a ha

theorem allocate_buffer_eq (o : Obj) (cap : Nat) (h : cap < o.mem.room) :
    allocate_buffer o cap = .ok (o.mem.next, { o with mem := o.mem.grown cap }) := by
  unfold allocate_buffer
  rw [Mem.allocate_eq _ _ h]

theorem allocate_buffer_fail (o : Obj) (cap : Nat) (h : ¬ cap < o.mem.room) :
    allocate_buffer o cap = .error (Exn.bad_alloc, o) := by
  unfold allocate_buffer
  rw [Mem.allocate_none _ _ h]

theorem adopt_view (o : Obj) (p sz cap : Nat) (d : Bytes) (hp : p < 2 ^ 64) (hsz : sz < 2 ^ 64)
    (hcap : cap < 2 ^ 64) (hb : o.mem.blocks p = some ⟨cap, d⟩) :
    HeapView (adopt o p sz cap) p sz cap d := by
  unfold adopt
  refine ⟨?_, ?_, ?_, ?_, hb⟩
  · exact is_heap_set_heap_flag _
  · simp only [heap_ptr_set_heap_flag, heap_ptr_set_heap_cap, heap_ptr_set_heap_size,
      heap_ptr_set_heap_ptr]; omega
  · simp only [heap_size_set_heap_flag, heap_size_set_heap_cap, heap_size_set_heap_size]; omega
  · simp only [heap_cap_set_heap_flag, heap_cap_set_heap_cap]; omega

theorem ptr_write_eq (o : Obj) (p off n cap : Nat) (d src : Bytes)
    (hb : o.mem.blocks p = some ⟨cap, d⟩) (h : n = 0 ∨ off + n ≤ cap) :
    ptr_write o p off n src =
      { o with mem := o.mem.set_block p (some ⟨cap, blit d off n src⟩) } := by
  unfold ptr_write
  rw [Mem.write_eq _ _ _ _ _ _ _ hb h]

theorem write_put_eq (o : Obj) (p cap sz : Nat) (j src : Bytes)
    (hb : o.mem.blocks p = some ⟨cap, j⟩) (hsz : sz < cap) :
    ptr_put (ptr_write o p 0 sz src) p sz 0 =
      { o with mem :=
          (o.mem.set_block p (some ⟨cap, blit (blit j 0 sz src) sz 1 (fill_src 0)⟩)) } := by
  unfold ptr_put
  rw [ptr_write_eq o p 0 sz cap j src hb (Or.inr (by omega))]
  rw [ptr_write_eq _ p sz 1 cap (blit j 0 sz src) _ (by simp) (Or.inr (by omega))]
  simp only [Mem.set_block_set_block]

theorem sso_check_eq (o : Obj) (off n : Nat) (h : n = 0 ∨ off + n ≤ 30) : sso_check o off n = o := by
  unfold sso_check SSO_ReservedBytes
  rw [if_pos h]

theorem size_of_sso {o : Obj} (hs : is_heap o.storage = false) : size o = sso_len o.storage := by
  unfold size; rw [hs]; rfl

theorem capacity_of_sso {o : Obj} (hs : is_heap o.storage = false) : capacity o = 29 := by
  unfold capacity; rw [hs]; rfl

theorem data_of_sso {o : Obj} (hs : is_heap o.storage = false) : data o = o.storage := by
  unfold data; rw [hs]; rfl

theorem blit_fill_at (d : Bytes) (i : Nat) (b : Byte) : blit d i 1 (fill_src b) i = b := by
  rw [blit_apply, if_pos (by omega)]; rfl

theorem blit_of_lt (d : Bytes) (off n : Nat) (src : Bytes) (i : Nat) (h : i < off) :
    blit d off n src i = d i := by
  rw [blit_apply, if_neg (by omega)]

theorem blit_zero_of_lt (d : Bytes) (n : Nat) (src : Bytes) (i : Nat) (h : i < n) :
    blit d 0 n src i = src i := by
  rw [blit_apply, if_pos (by omega)]; rfl

/-- Growth from the inline shape. -/
theorem make_non_sso_of_sso (o : Obj) (n : Nat) (hwf : WF o) (hs : is_heap o.storage = false)
    (hroom : max n (sso_len o.storage + 1) < o.mem.room) :
    ∃ o2 d, make_non_sso_and_reserve o n = .ok o2 ∧
      HeapView o2 o.mem.next (size o) (max n (size o + 1)) d ∧ o2.mem.OK ∧
      (∀ i, i < size o → d i = data o i) ∧ d (size o) = 0 := by
  have hlen := (hwf.sso hs).1
  have hsz := size_of_sso hs
  simp only [sso_max_size, sso_capacity_bytes, SSO_ReservedBytes] at hlen
  have hok := hwf.mem_ok
  have hlim := hok.arena
  have hr : o.mem.next + max n (sso_len o.storage + 1) < 2 ^ 64 := by
    unfold Mem.room at hroom; omega
  have hadd : add64 (sso_len o.storage) 1 = sso_len o.storage + 1 := by unfold add64; omega
  have e : make_non_sso_and_reserve o n = .ok
      (adopt { o with mem := ((o.mem.grown (max n (sso_len o.storage + 1))).set_block o.mem.next
        (some ⟨max n (sso_len o.storage + 1),
          blit (blit o.mem.junk 0 (sso_len o.storage) o.storage) (sso_len o.storage) 1
            (fill_src 0)⟩)) } o.mem.next (sso_len o.storage) (max n (sso_len o.storage + 1))) := by
    unfold make_non_sso_and_reserve
    rw [is_sso_eq, hs]
    simp only [Bool.not_false, if_true, hadd]
    rw [allocate_buffer_eq o _ hroom]
    simp only
    rw [sso_check_eq _ _ _ (Or.inr (by omega))]
    rw [write_put_eq _ _ (max n (sso_len o.storage + 1)) _ o.mem.junk _ (by simp) (by omega)]
  refine ⟨_, blit (blit o.mem.junk 0 (sso_len o.storage) o.storage) (sso_len o.storage) 1
    (fill_src 0), e, ?_, ?_, ?_, ?_⟩
  · rw [hsz]
    apply adopt_view _ _ _ _ _ (by omega) (by omega) (by omega)
    simp
  · exact (hok.after_grown _).after_set_block _ _ (by simp; omega)
  · intro i hi
    rw [hsz] at hi
    rw [data_of_sso hs, blit_of_lt _ _ _ _ _ hi, blit_zero_of_lt _ _ _ _ hi]
  · rw [hsz, blit_fill_at]

/-- Growth from the inline shape fails when the arena has no room. -/
theorem make_non_sso_sso_fail (o : Obj) (n : Nat) (hwf : WF o) (hs : is_heap o.storage = false)
    (hroom : ¬ max n (sso_len o.storage + 1) < o.mem.room) :
    make_non_sso_and_reserve o n = .error (Exn.bad_alloc, o) := by
  have hlen := (hwf.sso hs).1
  simp only [sso_max_size, sso_capacity_bytes, SSO_ReservedBytes] at hlen
  have hadd : add64 (sso_len o.storage) 1 = sso_len o.storage + 1 := by unfold add64; omega
  unfold make_non_sso_and_reserve
  rw [is_sso_eq, hs]
  simp only [Bool.not_false, if_true, hadd]
  rw [allocate_buffer_fail o _ hroom]

theorem Mem.owns_of_block (m : Mem) (p n : Nat) (d : Bytes) (hb : m.blocks p = some ⟨n, d⟩) :
    m.owns p n = true := by
  unfold Mem.owns; rw [hb]; simp

theorem Mem.deallocate_eq (m : Mem) (p n : Nat) (d : Bytes) (hb : m.blocks p = some ⟨n, d⟩) :
    m.deallocate p n = { m.set_block p none with freed := (p, n) :: m.freed } := by
  unfold Mem.deallocate
  rw [Mem.owns_of_block m p n d hb]
  simp

theorem mul64_le (c : Nat) : mul64 c 2 ≤ 2 * c := by
  unfold mul64
  have := Nat.mod_le (c * 2) (2 ^ 64)
  omega

/-- Growth from the heap shape. -/
theorem make_non_sso_of_heap (o : Obj) (n q sz c : Nat) (d : Bytes) (hv : HeapView o q sz c d)
    (hok : o.mem.OK) (hlt : sz < c) (hz : d sz = 0)
    (hroom : c < n → max n (mul64 c 2) < o.mem.room) :
    ∃ o2 p cap d2, make_non_sso_and_reserve o n = .ok o2 ∧
      HeapView o2 p sz cap d2 ∧ o2.mem.OK ∧ n ≤ cap ∧ sz < cap ∧
      (∀ i, i < sz → d2 i = d i) ∧ d2 sz = 0 := by
  by_cases hge : c ≥ n
  · refine ⟨o, q, c, d, ?_, hv, hok, hge, hlt, fun _ _ => rfl, hz⟩
    unfold make_non_sso_and_reserve
    rw [is_sso_eq, hv.is_heap_eq, hv.cap_eq]
    simp only [Bool.not_true, Bool.false_eq_true, if_false]
    rw [if_pos hge]
  · have hlim := hok.arena
    have hq := hok.lt_next hv.block_eq
    have hroom2 := hroom (by omega)
    generalize hR : max n (mul64 c 2) = R at hroom2
    have hnR : n ≤ R := by rw [← hR]; exact le_max_left _ _
    have hr : o.mem.next + R < 2 ^ 64 := by unfold Mem.room at hroom2; omega
    have hb1 : (o.mem.grown R).blocks q = some ⟨c, d⟩ := by
      rw [Mem.grown_blocks_ne _ _ _ (by omega)]; exact hv.block_eq
    have hv1 : HeapView { o with mem := o.mem.grown R } q sz c d :=
      ⟨hv.is_heap_eq, hv.ptr_eq, hv.size_eq, hv.cap_eq, hb1⟩
    have e : make_non_sso_and_reserve o n = .ok
        { storage := set_heap_flag (set_heap_cap (set_heap_ptr o.storage o.mem.next) R),
          mem := { (((o.mem.grown R).set_block o.mem.next
            (some ⟨R, blit (blit o.mem.junk 0 sz ((o.mem.grown R).load q)) sz 1
              (fill_src 0)⟩)).set_block q none) with
            freed := (q, c) :: o.mem.freed } } := by
      unfold make_non_sso_and_reserve
      rw [is_sso_eq, hv.is_heap_eq, hv.cap_eq]
      simp only [Bool.not_true, Bool.false_eq_true, if_false]
      rw [if_neg hge, hR, allocate_buffer_eq o _ hroom2]
      simp only
      rw [hv.size_eq, hv.ptr_eq, hv1.check_eq_self 0 sz (Or.inr (by omega))]
      rw [write_put_eq _ _ R _ o.mem.junk _ (by simp) (by omega)]
      unfold deallocate_buffer
      simp only
      rw [hv.ptr_eq, Mem.deallocate_eq _ q c d
        (by rw [Mem.set_block_blocks_ne _ _ _ _ (by omega)]; exact hb1)]
      rfl
    refine ⟨_, o.mem.next, R,
      blit (blit o.mem.junk 0 sz ((o.mem.grown R).load q)) sz 1 (fill_src 0),
      e, ⟨?_, ?_, ?_, ?_, ?_⟩, ?_, ?_, ?_, ?_, ?_⟩
    · exact is_heap_set_heap_flag _
    · simp only [heap_ptr_set_heap_flag, heap_ptr_set_heap_cap, heap_ptr_set_heap_ptr]; omega
    · simp only [heap_size_set_heap_flag, heap_size_set_heap_cap, heap_size_set_heap_ptr]
      exact hv.size_eq
    · simp only [heap_cap_set_heap_flag, heap_cap_set_heap_cap]; omega
    · show (Mem.set_block _ q none).blocks o.mem.next = _
      rw [Mem.set_block_blocks_ne _ _ _ _ (by omega)]
      simp
    · refine ⟨hok.no_fault, hlim, ?_⟩
      intro a ha
      have ha2 : o.mem.next + R + 1 ≤ a := ha
      show (Mem.set_block _ q none).blocks a = none
      rw [Mem.set_block_blocks_ne _ _ _ _ (by omega), Mem.set_block_blocks_ne _ _ _ _ (by omega),
        Mem.grown_blocks_ne _ _ _ (by omega)]
      exact hok.fresh a (by omega)
    · omega
    · omega
    · intro i hi
      rw [blit_of_lt _ _ _ _ _ hi, blit_zero_of_lt _ _ _ _ hi, Mem.load_of_block _ _ _ _ hb1,
        if_pos (by omega)]
    · rw [blit_fill_at]

/-- Growth from the heap shape fails when the arena has no room. -/
theorem make_non_sso_heap_fail (o : Obj) (n q sz c : Nat) (d : Bytes)
    (hv : HeapView o q sz c d) (hlt : c < n) (hroom : ¬ max n (mul64 c 2) < o.mem.room) :
    make_non_sso_and_reserve o n = .error (Exn.bad_alloc, o) := by
  unfold make_non_sso_and_reserve
  rw [is_sso_eq, hv.is_heap_eq, hv.cap_eq]
  simp only [Bool.not_true, Bool.false_eq_true, if_false]
  rw [if_neg (by omega), allocate_buffer_fail o _ hroom]

/-- A call of `make_non_sso_and_reserve` on a well-formed object returns a
grown object or throws `bad_alloc` and leaves the object as it was. -/
theorem make_non_sso_cases (o : Obj) (n : Nat) (hwf : WF o) :
    GrowsTo o n ∨ make_non_sso_and_reserve o n = .error (Exn.bad_alloc, o) := by
  cases hs : is_heap o.storage
  · by_cases hroom : max n (sso_len o.storage + 1) < o.mem.room
    · left
      obtain ⟨o2, d, e, hv, hok, hd, hz⟩ := make_non_sso_of_sso o n hwf hs hroom
      exact ⟨o2, _, _, d, e, hv, hok, by omega, by omega, hd, hz⟩
    · right; exact make_non_sso_sso_fail o n hwf hs hroom
  · obtain ⟨d, hv, hlt, hz⟩ := hwf.heap_view hs
    by_cases hroom : heap_capacity_raw o.storage < n →
        max n (mul64 (heap_capacity_raw o.storage) 2) < o.mem.room
    · left
      obtain ⟨o2, p, cap, d2, e, hv2, hok, h1, h2, hd, hz2⟩ :=
        make_non_sso_of_heap o n _ _ _ d hv hwf.mem_ok hlt hz hroom
      rw [GrowsTo, hv.size_obj]
      refine ⟨o2, p, cap, d2, e, hv2, hok, h1, h2, ?_, hz2⟩
      intro i hi
      rw [hd i hi, hv.data_obj, if_pos (by omega)]
    · right
      have hc : heap_capacity_raw o.storage < n := by
        by_contra hc; exact hroom (fun h => absurd h hc)
      exact make_non_sso_heap_fail o n _ _ _ d hv hc (fun h => hroom (fun _ => h))

/-- A call of `make_non_sso_and_reserve` on a well-formed object returns when
the arena has room. -/
theorem make_non_sso_ok (o : Obj) (n : Nat) (hwf : WF o)
    (hroom : max n (2 * (capacity o + 1)) < o.mem.room) : GrowsTo o n := by
  rcases make_non_sso_cases o n hwf with h | h
  · exact h
  · exfalso
    cases hs : is_heap o.storage
    · have hlen := (hwf.sso hs).1
      simp only [sso_max_size, sso_capacity_bytes, SSO_ReservedBytes] at hlen
      rw [capacity_of_sso hs] at hroom
      obtain ⟨o2, d, e, _⟩ := make_non_sso_of_sso o n hwf hs (by omega)
      rw [e] at h; cases h
    · obtain ⟨d, hv, hlt, hz⟩ := hwf.heap_view hs
      have hc : capacity o + 1 = heap_capacity_raw o.storage := by
        rw [hv.capacity_obj]; unfold sub64
        have := ld64_lt o.storage 16
        unfold heap_capacity_raw at *
        omega
      rw [hc] at hroom
      have hm := mul64_le (heap_capacity_raw o.storage)
      obtain ⟨o2, p, cap, d2, e, _⟩ :=
        make_non_sso_of_heap o n _ _ _ d hv hwf.mem_ok hlt hz (fun _ => by omega)
      rw [e] at h; cases h

/-! ### The inline shape -/

theorem sso_write_eq (o : Obj) (off n : Nat) (src : Bytes) (h : n = 0 ∨ off + n ≤ 30) :
    sso_write o off n src = { o with storage := blit o.storage off n src } := by
  unfold sso_write
  rw [sso_check_eq o off n h]
  have e : (fun i => if i < SSO_ReservedBytes then blit o.storage off n src i else o.storage i)
      = blit o.storage off n src := by
    funext i
    unfold SSO_ReservedBytes
    by_cases hi : i < 30
    · rw [if_pos hi]
    · rw [if_neg hi, blit_apply, if_neg (by omega)]
  simp only [e]

theorem sso_put_eq (o : Obj) (i : Nat) (b : Byte) (h : i < 30) :
    sso_put o i b = { o with storage := blit o.storage i 1 (fill_src b) } :=
  sso_write_eq o i 1 _ (Or.inr (by omega))

theorem is_heap_blit (s : Storage) (off n : Nat) (src : Bytes) (h : n = 0 ∨ off + n ≤ 31) :
    is_heap (blit s off n src) = is_heap s :=
  is_heap_congr _ _ (by rw [blit_apply, if_neg (by omega)])

theorem sso_len_blit (s : Storage) (off n : Nat) (src : Bytes) (h : n = 0 ∨ off + n ≤ 30) :
    sso_len (blit s off n src) = sso_len s := by
  unfold sso_len; rw [blit_apply, if_neg (by omega)]

theorem WF.of_sso {o : Obj} (hok : o.mem.OK) (hs : is_heap o.storage = false)
    (hlen : sso_len o.storage ≤ 29) (hz : o.storage (sso_len o.storage) = 0) : WF o := by
  refine ⟨hok, fun _ => ⟨hlen, hz⟩, ?_⟩
  intro hh; rw [hs] at hh; cases hh

/-! ### Content -/

theorem content_length (o : Obj) : (content o).length = size o := by
  unfold content; simp

theorem content_getD (o : Obj) (i : Nat) :
    (content o).getD i 0 = if i < size o then data o i else 0 := by
  unfold content
  rw [List.getD_eq_getElem?_getD, List.getElem?_map]
  by_cases h : i < size o
  · rw [List.getElem?_range h, if_pos h]; rfl
  · rw [if_neg h, List.getElem?_eq_none (by simp; omega)]; rfl

theorem content_eq_of (o : Obj) (l : List Byte) (hl : l.length = size o)
    (h : ∀ i, i < size o → data o i = l.getD i 0) : content o = l := by
  apply List.ext_getElem
  · rw [content_length, hl]
  · intro i h1 h2
    rw [content_length] at h1
    unfold content
    rw [List.getElem_map, List.getElem_range, h i h1, List.getD_eq_getElem _ _ h2]

theorem HeapView.content_of {o : Obj} {p sz cap : Nat} {d : Bytes} (hv : HeapView o p sz cap d)
    (hlt : sz < cap) (l : List Byte) (hl : l.length = sz) (h : ∀ i, i < sz → d i = l.getD i 0) :
    content o = l := by
  apply libsstring.content_eq_of o l (by rw [hv.size_obj, hl])
  intro i hi
  rw [hv.size_obj] at hi
  rw [hv.data_obj, if_pos (by omega), h i hi]

theorem HeapView.data_size {o : Obj} {p sz cap : Nat} {d : Bytes} (hv : HeapView o p sz cap d)
    (hlt : sz < cap) : data o (size o) = d sz := by
  rw [hv.size_obj, hv.data_obj, if_pos hlt]

theorem of_list_apply (l : List Byte) (i : Nat) : of_list l i = l.getD i 0 := rfl

theorem c_length_of_nul_free (s : List Byte) (h : ∀ b ∈ s, b ≠ 0) : c_length s = s.length := by
  unfold c_length
  rw [List.takeWhile_eq_self_iff.mpr]
  intro b hb
  simpa using h b hb

/-! ### Constructors -/

theorem ctor_bytes_small (src : Bytes) (len : Nat) (m : Mem) (hlen : len ≤ 29) :
    ∃ o, ctor_bytes src len m = .ok o ∧ o.mem = m ∧ is_heap o.storage = false ∧
      sso_len o.storage = len ∧ (∀ i, i < len → o.storage i = src i) ∧ o.storage len = 0 := by
  have e : ctor_bytes src len m = .ok
      { storage := blit (set_sso_tag0 (set_sso_len (blit reset_storage 0 len src) len)) len 1
          (fill_src 0), mem := m } := by
    unfold ctor_bytes
    rw [if_pos (by simp [sso_max_size, sso_capacity_bytes, SSO_ReservedBytes]; omega)]
    simp only
    rw [sso_write_eq _ _ _ _ (Or.inr (by omega)), sso_put_eq _ _ _ (by omega)]
  refine ⟨_, e, rfl, ?_, ?_, ?_, ?_⟩
  · show is_heap (blit _ len 1 _) = false
    rw [is_heap_blit _ _ _ _ (Or.inr (by omega)), is_heap_set_sso_tag0]
  · show sso_len (blit _ len 1 _) = len
    rw [sso_len_blit _ _ _ _ (Or.inr (by omega)), sso_len_set_sso_tag0, sso_len_set_sso_len]
    omega
  · intro i hi
    show blit _ len 1 _ i = src i
    rw [blit_of_lt _ _ _ _ _ hi, set_sso_tag0_apply, if_neg (by omega), set_sso_len_apply,
      if_neg (by omega), blit_zero_of_lt _ _ _ _ hi]
  · show blit _ len 1 _ len = 0
    rw [blit_fill_at]

theorem ctor_bytes_small_WF (src : Bytes) (len : Nat) (m : Mem) (hlen : len ≤ 29) (hm : m.OK) :
    ∃ o, ctor_bytes src len m = .ok o ∧ WF o := by
  obtain ⟨o, e, hmem, hs, hl, _, hz⟩ := ctor_bytes_small src len m hlen
  exact ⟨o, e, WF.of_sso (by rw [hmem]; exact hm) hs (by omega) (by rw [hl]; exact hz)⟩

theorem ctor_bytes_large (src : Bytes) (len : Nat) (m : Mem) (hlen : 29 < len) (hm : m.OK)
    (hroom : len + 1 < m.room) :
    ∃ o d, ctor_bytes src len m = .ok o ∧ HeapView o m.next len (len + 1) d ∧ o.mem.OK ∧
      (∀ i, i < len → d i = src i) ∧ d len = 0 := by
  have hlim := hm.arena
  have hr : m.next + (len + 1) < 2 ^ 64 := by unfold Mem.room at hroom; omega
  have hadd : add64 len 1 = len + 1 := by unfold add64; omega
  have e : ctor_bytes src len m = .ok
      (adopt { storage := reset_storage, mem := ((m.grown (len + 1)).set_block m.next
        (some ⟨len + 1, blit (blit m.junk 0 len src) len 1 (fill_src 0)⟩)) }
        m.next len (len + 1)) := by
    unfold ctor_bytes
    rw [if_neg (by simp [sso_max_size, sso_capacity_bytes, SSO_ReservedBytes]; omega), hadd]
    simp only
    rw [allocate_buffer_eq _ _ hroom]
    simp only
    rw [write_put_eq _ _ (len + 1) _ m.junk _ (by simp) (by omega)]
  refine ⟨_, blit (blit m.junk 0 len src) len 1 (fill_src 0), e, ?_, ?_, ?_, ?_⟩
  · apply adopt_view _ _ _ _ _ (by omega) (by omega) (by omega)
    simp
  · exact (hm.after_grown _).after_set_block _ _ (by simp; omega)
  · intro i hi
    rw [blit_of_lt _ _ _ _ _ hi, blit_zero_of_lt _ _ _ _ hi]
  · rw [blit_fill_at]

/-! ### From bytes to lists -/

theorem list_eq_of_getD (l1 l2 : List Byte) (hlen : l1.length = l2.length)
    (h : ∀ i, i < l1.length → l1.getD i 0 = l2.getD i 0) : l1 = l2 := by
  apply List.ext_getElem hlen
  intro i h1 h2
  have := h i h1
  rwa [List.getD_eq_getElem _ _ h1, List.getD_eq_getElem _ _ h2] at this

theorem getD_append (l1 l2 : List Byte) (i : Nat) :
    (l1 ++ l2).getD i 0 = if i < l1.length then l1.getD i 0 else l2.getD (i - l1.length) 0 := by
  by_cases h : i < l1.length
  · rw [if_pos h, List.getD_append _ _ _ _ h]
  · rw [if_neg h, List.getD_append_right _ _ _ _ (by omega)]

theorem getD_take (l : List Byte) (n i : Nat) :
    (l.take n).getD i 0 = if i < n then l.getD i 0 else 0 := by
  simp only [List.getD_eq_getElem?_getD, List.getElem?_take]
  by_cases h : i < n <;> simp [h]

theorem getD_drop (l : List Byte) (n i : Nat) : (l.drop n).getD i 0 = l.getD (n + i) 0 := by
  simp only [List.getD_eq_getElem?_getD, List.getElem?_drop]

theorem getD_map_range (f : Bytes) (n i : Nat) :
    ((List.range n).map f).getD i 0 = if i < n then f i else 0 := by
  rw [List.getD_eq_getElem?_getD, List.getElem?_map]
  by_cases h : i < n
  · rw [List.getElem?_range h, if_pos h]; rfl
  · rw [if_neg h, List.getElem?_eq_none (by simp; omega)]; rfl

theorem map_range_of_list (l : List Byte) : (List.range l.length).map (of_list l) = l := by
  apply list_eq_of_getD _ _ (by simp)
  intro i hi
  simp only [List.length_map, List.length_range] at hi
  rw [getD_map_range, if_pos hi, of_list_apply]

theorem content_getD_lt (o : Obj) (i : Nat) (h : i < size o) : (content o).getD i 0 = data o i := by
  rw [content_getD, if_pos h]

/-- The content after an append, from the bytes of the result. -/
theorem content_append_of (o o2 : Obj) (src : Bytes) (add : Nat) (hsize : size o2 = size o + add)
    (h1 : ∀ i, i < size o → data o2 i = data o i)
    (h2 : ∀ k, k < add → data o2 (size o + k) = src k) :
    content o2 = content o ++ (List.range add).map src := by
  apply list_eq_of_getD _ _ (by simp [content_length, hsize])
  intro i hi
  rw [content_length] at hi
  rw [content_getD_lt o2 i hi, getD_append, content_length]
  by_cases h : i < size o
  · rw [if_pos h, content_getD_lt o i h, h1 i h]
  · rw [if_neg h, getD_map_range, if_pos (by omega)]
    have := h2 (i - size o) (by omega)
    rwa [show size o + (i - size o) = i by omega] at this

/-! ### Append -/

/-- The call `append_bytes` spelled out: with the characters outside the
string, the read after the reallocation finds the bytes the view had at the
call. -/
theorem append_bytes_eq (o : Obj) (src : Bytes) (add : Nat) :
    append_bytes o src add =
      (let cur := size o
       let need := add64 (add64 cur add) 1
       if is_sso o.storage ∧ need ≤ sso_capacity_bytes then
         let o := sso_write o cur add src
         let o := { o with storage := set_sso_len o.storage (add64 cur add) }
         .ok (sso_put o (add64 cur add) 0)
       else
         match make_non_sso_and_reserve o need with
         | .error e => .error e
         | .ok o =>
           let o := heap_write o cur add src
           let o := { o with storage := set_heap_size o.storage (add64 cur add) }
           .ok (heap_put o (heap_size o.storage) 0)) := rfl

/-- The call `insert` spelled out, as `append_bytes_eq`. -/
theorem insert_eq (o : Obj) (pos : Nat) (sv : List Byte) :
    insert o pos sv =
      (if pos > size o then .error (Exn.out_of_range, o)
       else
         let add := sv.length
         let cur := size o
         let need := add64 (add64 cur add) 1
         if is_sso o.storage ∧ need ≤ sso_capacity_bytes then
           let o := sso_write (sso_check o pos (sub64 cur pos)) (add64 pos add) (sub64 cur pos)
                      (shift_src o.storage pos)
           let o := sso_write o pos add (of_list sv)
           let o := { o with storage := set_sso_len o.storage (add64 cur add) }
           .ok (sso_put o (add64 cur add) 0)
         else
           match make_non_sso_and_reserve o need with
           | .error e => .error e
           | .ok o =>
             let o := heap_write (heap_check o pos (sub64 cur pos)) (add64 pos add)
                        (sub64 cur pos) (shift_src (o.mem.load (heap_ptr o.storage)) pos)
             let o := heap_write o pos add (of_list sv)
             let o := { o with storage := set_heap_size o.storage (add64 cur add) }
             .ok (heap_put o (heap_size o.storage) 0)) := rfl


theorem add64_of_lt (a b : Nat) (h : a + b < 2 ^ 64) : add64 a b = a + b := by
  unfold add64; omega

theorem sub64_of_le (a b : Nat) (h : b ≤ a) (ha : a < 2 ^ 64) : sub64 a b = a - b := by
  unfold sub64; omega

theorem Mem.OK.room_bound {m : Mem} (h : m.OK) {n : Nat} (hn : n < m.room) : n < 2 ^ 64 := by
  have := h.arena
  unfold Mem.room at hn
  omega

theorem append_bytes_sso (o : Obj) (src : Bytes) (add : Nat) (hwf : WF o)
    (hs : is_heap o.storage = false) (hfit : size o + add + 1 ≤ 30) :
    ∃ o2, append_bytes o src add = .ok o2 ∧ WF o2 ∧ is_heap o2.storage = false ∧
      size o2 = size o + add ∧
      (∀ i, i < size o → data o2 i = data o i) ∧
      (∀ k, k < add → data o2 (size o + k) = src k) ∧ data o2 (size o2) = 0 := by
  have hsz := size_of_sso hs
  have h1 : add64 (size o) add = size o + add := add64_of_lt _ _ (by omega)
  have h2 : add64 (size o + add) 1 = size o + add + 1 := add64_of_lt _ _ (by omega)
  let o2 : Obj := { o with storage := (blit (set_sso_len (blit o.storage (size o) add src)
    (size o + add)) (size o + add) 1 (fill_src 0)) }
  have hst : o2.storage = blit (set_sso_len (blit o.storage (size o) add src) (size o + add))
    (size o + add) 1 (fill_src 0) := rfl
  have e : append_bytes o src add = .ok o2 := by
    rw [append_bytes_eq]
    simp only [h1, h2]
    rw [if_pos ⟨by rw [is_sso_eq, hs]; rfl, hfit⟩]
    rw [sso_write_eq _ _ _ _ (Or.inr (by omega)), sso_put_eq _ _ _ (by omega)]
  have hs2 : is_heap o2.storage = false := by
    rw [hst, is_heap_blit _ _ _ _ (Or.inr (by omega)), is_heap_set_sso_len,
      is_heap_blit _ _ _ _ (Or.inr (by omega)), hs]
  have hl2 : sso_len o2.storage = size o + add := by
    rw [hst, sso_len_blit _ _ _ _ (Or.inr (by omega)), sso_len_set_sso_len]; omega
  have hsize2 : size o2 = size o + add := by
    rw [size_of_sso hs2]; exact hl2
  refine ⟨o2, e, ?_, hs2, hsize2, ?_, ?_, ?_⟩
  · apply WF.of_sso (o := o2) hwf.mem_ok hs2 (by rw [hl2]; omega)
    rw [hl2, hst, blit_fill_at]
  · intro i hi
    rw [data_of_sso hs2, data_of_sso hs, hst]
    rw [blit_of_lt _ _ _ _ _ (by omega), set_sso_len_apply, if_neg (by omega),
      blit_of_lt _ _ _ _ _ hi]
  · intro k hk
    rw [data_of_sso hs2, hst]
    rw [blit_of_lt _ _ _ _ _ (by omega), set_sso_len_apply, if_neg (by omega), blit_apply,
      if_pos (by omega)]
    congr 1; omega
  · rw [hsize2, data_of_sso hs2, hst]
    rw [blit_fill_at]

theorem append_bytes_grow (o : Obj) (src : Bytes) (add : Nat)
    (hfit : size o + add + 1 < 2 ^ 64)
    (hnot : ¬ (is_sso o.storage = true ∧ size o + add + 1 ≤ 30))
    (hg : GrowsTo o (size o + add + 1)) :
    ∃ o2, append_bytes o src add = .ok o2 ∧ WF o2 ∧ is_heap o2.storage = true ∧
      size o2 = size o + add ∧
      (∀ i, i < size o → data o2 i = data o i) ∧
      (∀ k, k < add → data o2 (size o + k) = src k) ∧ data o2 (size o2) = 0 := by
  have h1 : add64 (size o) add = size o + add := add64_of_lt _ _ (by omega)
  have h2 : add64 (size o + add) 1 = size o + add + 1 := add64_of_lt _ _ (by omega)
  obtain ⟨o1, p, cap, d, e1, hv, hok, hcap, hlt, hd, hz⟩ := hg
  have hv2 := hv.write_view (size o) add src (Or.inr (by omega))
  have hok2 := hv.write_OK hok (size o) add src (Or.inr (by omega))
  have hv3 := hv2.set_size_view (size o + add) (by omega)
  have hv4 := hv3.put_view (size o + add) 0 (by omega)
  have hok4 := hv3.put_OK hok2 (size o + add) 0 (by omega)
  have e : append_bytes o src add = .ok (heap_put
      { heap_write o1 (size o) add src with
        storage := (set_heap_size (heap_write o1 (size o) add src).storage (size o + add)) }
      (size o + add) 0) := by
    rw [append_bytes_eq]
    simp only [h1, h2]
    rw [if_neg (by simpa [sso_capacity_bytes, SSO_ReservedBytes] using hnot), e1]
    simp only
    rw [hv3.size_eq]
  refine ⟨_, e, ?_, hv4.is_heap_eq, hv4.size_obj, ?_, ?_, ?_⟩
  · apply WF.of_heap_view hv4 hok4 (by omega)
    rw [blit_fill_at]
  · intro i hi
    rw [hv4.data_obj, if_pos (by omega), blit_of_lt _ _ _ _ _ (by omega),
      blit_of_lt _ _ _ _ _ hi, hd i hi]
  · intro k hk
    rw [hv4.data_obj, if_pos (by omega), blit_of_lt _ _ _ _ _ (by omega), blit_apply,
      if_pos (by omega)]
    congr 1; omega
  · rw [hv4.data_size (by omega), blit_fill_at]

theorem append_bytes_error (o : Obj) (src : Bytes) (add : Nat)
    (hnot : ¬ (is_sso o.storage = true ∧ size o + add + 1 ≤ 30))
    (hfit : size o + add + 1 < 2 ^ 64)
    (h : make_non_sso_and_reserve o (size o + add + 1) = .error (Exn.bad_alloc, o)) :
    append_bytes o src add = .error (Exn.bad_alloc, o) := by
  have h1 : add64 (size o) add = size o + add := add64_of_lt _ _ (by omega)
  have h2 : add64 (size o + add) 1 = size o + add + 1 := add64_of_lt _ _ (by omega)
  rw [append_bytes_eq]
  simp only [h1, h2]
  rw [if_neg (by simpa [sso_capacity_bytes, SSO_ReservedBytes] using hnot), h]

/-- The effect of `append` on a well-formed object: it returns with the bytes
appended, or throws `bad_alloc` and leaves the object as it was. -/
theorem append_bytes_cases (o : Obj) (src : Bytes) (add : Nat) (hwf : WF o)
    (hfit : size o + add + 1 < 2 ^ 64) :
    (∃ o2, append_bytes o src add = .ok o2 ∧ WF o2 ∧ size o2 = size o + add ∧
      content o2 = content o ++ (List.range add).map src ∧ data o2 (size o2) = 0) ∨
    append_bytes o src add = .error (Exn.bad_alloc, o) := by
  by_cases hc : is_sso o.storage = true ∧ size o + add + 1 ≤ 30
  · left
    have hs : is_heap o.storage = false := by
      have := hc.1; rw [is_sso_eq] at this; simpa using this
    obtain ⟨o2, e, hwf2, _, hsize, hd1, hd2, hz⟩ := append_bytes_sso o src add hwf hs hc.2
    exact ⟨o2, e, hwf2, hsize, content_append_of o o2 src add hsize hd1 hd2, hz⟩
  · rcases make_non_sso_cases o (size o + add + 1) hwf with hg | he
    · left
      obtain ⟨o2, e, hwf2, _, hsize, hd1, hd2, hz⟩ := append_bytes_grow o src add hfit hc hg
      exact ⟨o2, e, hwf2, hsize, content_append_of o o2 src add hsize hd1 hd2, hz⟩
    · right; exact append_bytes_error o src add hc hfit he

/-- The effect of `append` on a well-formed object with room to grow. -/
theorem append_bytes_ok (o : Obj) (src : Bytes) (add : Nat) (hwf : WF o)
    (hroom : max (size o + add + 1) (2 * (capacity o + 1)) < o.mem.room) :
    ∃ o2, append_bytes o src add = .ok o2 ∧ WF o2 ∧ size o2 = size o + add ∧
      content o2 = content o ++ (List.range add).map src ∧ data o2 (size o2) = 0 := by
  have hb := hwf.mem_ok.room_bound hroom
  by_cases hc : is_sso o.storage = true ∧ size o + add + 1 ≤ 30
  · have hs : is_heap o.storage = false := by
      have := hc.1; rw [is_sso_eq] at this; simpa using this
    obtain ⟨o2, e, hwf2, _, hsize, hd1, hd2, hz⟩ := append_bytes_sso o src add hwf hs hc.2
    exact ⟨o2, e, hwf2, hsize, content_append_of o o2 src add hsize hd1 hd2, hz⟩
  · obtain ⟨o2, e, hwf2, _, hsize, hd1, hd2, hz⟩ :=
      append_bytes_grow o src add (by omega) hc (make_non_sso_ok o _ hwf hroom)
    exact ⟨o2, e, hwf2, hsize, content_append_of o o2 src add hsize hd1 hd2, hz⟩

/-! ### Insert -/

/-- The content after an insert, from the bytes of the result. -/
theorem content_insert_of (o o2 : Obj) (pos : Nat) (l : List Byte) (hpos : pos ≤ size o)
    (hsize : size o2 = size o + l.length)
    (h1 : ∀ i, i < pos → data o2 i = data o i)
    (h2 : ∀ k, k < l.length → data o2 (pos + k) = l.getD k 0)
    (h3 : ∀ i, pos ≤ i → i < size o → data o2 (i + l.length) = data o i) :
    content o2 = (content o).take pos ++ l ++ (content o).drop pos := by
  apply list_eq_of_getD _ _ (by simp [content_length, hsize]; omega)
  intro i hi
  rw [content_length] at hi
  have htl : ((content o).take pos).length = pos := by simp [content_length]; omega
  rw [content_getD_lt o2 i hi, getD_append, getD_append, List.length_append, htl, getD_take,
    getD_drop]
  by_cases ha : i < pos
  · rw [if_pos (by omega), if_pos ha, if_pos ha, content_getD_lt o i (by omega), h1 i ha]
  · by_cases hb : i < pos + l.length
    · rw [if_pos hb, if_neg ha]
      have := h2 (i - pos) (by omega)
      rwa [show pos + (i - pos) = i by omega] at this
    · rw [if_neg hb, content_getD_lt o _ (by omega)]
      have := h3 (i - l.length) (by omega) (by omega)
      rw [show i - l.length + l.length = i by omega] at this
      rw [this]; congr 1; omega

theorem shift_src_apply (src : Bytes) (off i : Nat) : shift_src src off i = src (off + i) := rfl

theorem insert_sso (o : Obj) (pos : Nat) (l : List Byte) (hwf : WF o)
    (hs : is_heap o.storage = false) (hpos : pos ≤ size o) (hfit : size o + l.length + 1 ≤ 30) :
    ∃ o2, insert o pos l = .ok o2 ∧ WF o2 ∧ is_heap o2.storage = false ∧
      size o2 = size o + l.length ∧
      (∀ i, i < pos → data o2 i = data o i) ∧
      (∀ k, k < l.length → data o2 (pos + k) = l.getD k 0) ∧
      (∀ i, pos ≤ i → i < size o → data o2 (i + l.length) = data o i) ∧
      data o2 (size o2) = 0 := by
  have h1 : add64 (size o) l.length = size o + l.length := add64_of_lt _ _ (by omega)
  have h2 : add64 (size o + l.length) 1 = size o + l.length + 1 := add64_of_lt _ _ (by omega)
  have h3 : add64 pos l.length = pos + l.length := add64_of_lt _ _ (by omega)
  have h4 : sub64 (size o) pos = size o - pos := sub64_of_le _ _ hpos (by omega)
  let o2 : Obj := { o with storage := (blit (set_sso_len (blit (blit o.storage (pos + l.length)
    (size o - pos) (shift_src o.storage pos)) pos l.length (of_list l)) (size o + l.length))
    (size o + l.length) 1 (fill_src 0)) }
  have hst : o2.storage = blit (set_sso_len (blit (blit o.storage (pos + l.length)
    (size o - pos) (shift_src o.storage pos)) pos l.length (of_list l)) (size o + l.length))
    (size o + l.length) 1 (fill_src 0) := rfl
  have e : insert o pos l = .ok o2 := by
    rw [insert_eq]
    rw [if_neg (by omega)]
    simp only [h1, h2, h3, h4]
    rw [if_pos ⟨by rw [is_sso_eq, hs]; rfl, hfit⟩]
    rw [sso_check_eq _ _ _ (Or.inr (by omega)), sso_write_eq _ _ _ _ (Or.inr (by omega)),
      sso_write_eq _ _ _ _ (Or.inr (by omega)), sso_put_eq _ _ _ (by omega)]
  have hs2 : is_heap o2.storage = false := by
    rw [hst, is_heap_blit _ _ _ _ (Or.inr (by omega)), is_heap_set_sso_len,
      is_heap_blit _ _ _ _ (Or.inr (by omega)), is_heap_blit _ _ _ _ (Or.inr (by omega)), hs]
  have hl2 : sso_len o2.storage = size o + l.length := by
    rw [hst, sso_len_blit _ _ _ _ (Or.inr (by omega)), sso_len_set_sso_len]; omega
  have hsize2 : size o2 = size o + l.length := by
    rw [size_of_sso hs2]; exact hl2
  refine ⟨o2, e, ?_, hs2, hsize2, ?_, ?_, ?_, ?_⟩
  · apply WF.of_sso (o := o2) hwf.mem_ok hs2 (by rw [hl2]; omega)
    rw [hl2, hst, blit_fill_at]
  · intro i hi
    rw [data_of_sso hs2, data_of_sso hs, hst]
    rw [blit_of_lt _ _ _ _ _ (by omega), set_sso_len_apply, if_neg (by omega),
      blit_of_lt _ _ _ _ _ hi, blit_of_lt _ _ _ _ _ (by omega)]
  · intro k hk
    rw [data_of_sso hs2, hst]
    rw [blit_of_lt _ _ _ _ _ (by omega), set_sso_len_apply, if_neg (by omega), blit_apply,
      if_pos (by omega), of_list_apply]
    congr 1; omega
  · intro i hi1 hi2
    rw [data_of_sso hs2, data_of_sso hs, hst]
    rw [blit_of_lt _ _ _ _ _ (by omega), set_sso_len_apply, if_neg (by omega), blit_apply,
      if_neg (by omega), blit_apply, if_pos (by omega), shift_src_apply]
    congr 1; omega
  · rw [hsize2, data_of_sso hs2, hst]
    rw [blit_fill_at]

theorem insert_grow (o : Obj) (pos : Nat) (l : List Byte) (hpos : pos ≤ size o)
    (hfit : size o + l.length + 1 < 2 ^ 64)
    (hnot : ¬ (is_sso o.storage = true ∧ size o + l.length + 1 ≤ 30))
    (hg : GrowsTo o (size o + l.length + 1)) :
    ∃ o2, insert o pos l = .ok o2 ∧ WF o2 ∧ is_heap o2.storage = true ∧
      size o2 = size o + l.length ∧
      (∀ i, i < pos → data o2 i = data o i) ∧
      (∀ k, k < l.length → data o2 (pos + k) = l.getD k 0) ∧
      (∀ i, pos ≤ i → i < size o → data o2 (i + l.length) = data o i) ∧
      data o2 (size o2) = 0 := by
  have h1 : add64 (size o) l.length = size o + l.length := add64_of_lt _ _ (by omega)
  have h2 : add64 (size o + l.length) 1 = size o + l.length + 1 := add64_of_lt _ _ (by omega)
  have h3 : add64 pos l.length = pos + l.length := add64_of_lt _ _ (by omega)
  have h4 : sub64 (size o) pos = size o - pos := sub64_of_le _ _ hpos (by omega)
  obtain ⟨o1, p, cap, d, e1, hv, hok, hcap, hlt, hd, hz⟩ := hg
  have hck := hv.check_eq_self pos (size o - pos) (Or.inr (by omega))
  have hv2 := hv.write_view (pos + l.length) (size o - pos)
    (shift_src (o1.mem.load (heap_ptr o1.storage)) pos) (Or.inr (by omega))
  have hok2 := hv.write_OK hok (pos + l.length) (size o - pos)
    (shift_src (o1.mem.load (heap_ptr o1.storage)) pos) (Or.inr (by omega))
  have hv3 := hv2.write_view pos l.length (of_list l) (Or.inr (by omega))
  have hok3 := hv2.write_OK hok2 pos l.length (of_list l) (Or.inr (by omega))
  have hv4 := hv3.set_size_view (size o + l.length) (by omega)
  have hv5 := hv4.put_view (size o + l.length) 0 (by omega)
  have hok5 := hv4.put_OK hok3 (size o + l.length) 0 (by omega)
  have e : insert o pos l = .ok (heap_put
      { heap_write (heap_write o1 (pos + l.length) (size o - pos)
          (shift_src (o1.mem.load (heap_ptr o1.storage)) pos)) pos l.length (of_list l) with
        storage := (set_heap_size (heap_write (heap_write o1 (pos + l.length) (size o - pos)
          (shift_src (o1.mem.load (heap_ptr o1.storage)) pos)) pos l.length
          (of_list l)).storage (size o + l.length)) }
      (size o + l.length) 0) := by
    rw [insert_eq]
    rw [if_neg (by omega)]
    simp only [h1, h2, h3, h4]
    rw [if_neg (by simpa [sso_capacity_bytes, SSO_ReservedBytes] using hnot), e1]
    simp only
    rw [hck, hv4.size_eq]
  have hsrc : ∀ i, i < cap → o1.mem.load (heap_ptr o1.storage) i = d i := by
    intro i hi
    rw [hv.ptr_eq, Mem.load_of_block _ _ _ _ hv.block_eq, if_pos hi]
  refine ⟨_, e, ?_, hv5.is_heap_eq, hv5.size_obj, ?_, ?_, ?_, ?_⟩
  · apply WF.of_heap_view hv5 hok5 (by omega)
    rw [blit_fill_at]
  · intro i hi
    rw [hv5.data_obj, if_pos (by omega), blit_of_lt _ _ _ _ _ (by omega),
      blit_of_lt _ _ _ _ _ hi, blit_of_lt _ _ _ _ _ (by omega), hd i (by omega)]
  · intro k hk
    rw [hv5.data_obj, if_pos (by omega), blit_of_lt _ _ _ _ _ (by omega), blit_apply,
      if_pos (by omega), of_list_apply]
    congr 1; omega
  · intro i hi1 hi2
    rw [hv5.data_obj, if_pos (by omega), blit_of_lt _ _ _ _ _ (by omega), blit_apply,
      if_neg (by omega), blit_apply, if_pos (by omega), shift_src_apply, hsrc _ (by omega),
      ← hd i hi2]
    congr 1; omega
  · rw [hv5.data_size (by omega), blit_fill_at]

theorem insert_error (o : Obj) (pos : Nat) (l : List Byte) (hpos : pos ≤ size o)
    (hnot : ¬ (is_sso o.storage = true ∧ size o + l.length + 1 ≤ 30))
    (hfit : size o + l.length + 1 < 2 ^ 64)
    (h : make_non_sso_and_reserve o (size o + l.length + 1) = .error (Exn.bad_alloc, o)) :
    insert o pos l = .error (Exn.bad_alloc, o) := by
  have h1 : add64 (size o) l.length = size o + l.length := add64_of_lt _ _ (by omega)
  have h2 : add64 (size o + l.length) 1 = size o + l.length + 1 := add64_of_lt _ _ (by omega)
  rw [insert_eq]
  rw [if_neg (by omega)]
  simp only [h1, h2]
  rw [if_neg (by simpa [sso_capacity_bytes, SSO_ReservedBytes] using hnot), h]

/-- The effect of `insert` on a well-formed object: it returns with the bytes
spliced in, or throws `bad_alloc` and leaves the object as it was. -/
theorem insert_cases (o : Obj) (pos : Nat) (l : List Byte) (hwf : WF o) (hpos : pos ≤ size o)
    (hfit : size o + l.length + 1 < 2 ^ 64) :
    (∃ o2, insert o pos l = .ok o2 ∧ WF o2 ∧ size o2 = size o + l.length ∧
      content o2 = (content o).take pos ++ l ++ (content o).drop pos ∧
      data o2 (size o2) = 0) ∨
    insert o pos l = .error (Exn.bad_alloc, o) := by
  by_cases hc : is_sso o.storage = true ∧ size o + l.length + 1 ≤ 30
  · left
    have hs : is_heap o.storage = false := by
      have := hc.1; rw [is_sso_eq] at this; simpa using this
    obtain ⟨o2, e, hwf2, _, hsize, hd1, hd2, hd3, hz⟩ := insert_sso o pos l hwf hs hpos hc.2
    exact ⟨o2, e, hwf2, hsize, content_insert_of o o2 pos l hpos hsize hd1 hd2 hd3, hz⟩
  · rcases make_non_sso_cases o (size o + l.length + 1) hwf with hg | he
    · left
      obtain ⟨o2, e, hwf2, _, hsize, hd1, hd2, hd3, hz⟩ := insert_grow o pos l hpos hfit hc hg
      exact ⟨o2, e, hwf2, hsize, content_insert_of o o2 pos l hpos hsize hd1 hd2 hd3, hz⟩
    · right; exact insert_error o pos l hpos hc hfit he

/-- The effect of `insert` on a well-formed object with room to grow. -/
theorem insert_ok (o : Obj) (pos : Nat) (l : List Byte) (hwf : WF o) (hpos : pos ≤ size o)
    (hroom : max (size o + l.length + 1) (2 * (capacity o + 1)) < o.mem.room) :
    ∃ o2, insert o pos l = .ok o2 ∧ WF o2 ∧ size o2 = size o + l.length ∧
      content o2 = (content o).take pos ++ l ++ (content o).drop pos ∧
      data o2 (size o2) = 0 := by
  have hb := hwf.mem_ok.room_bound hroom
  rcases insert_cases o pos l hwf hpos (by omega) with h | h
  · exact h
  · exfalso
    have hc : ¬ (is_sso o.storage = true ∧ size o + l.length + 1 ≤ 30) := by
      intro hc
      have hs : is_heap o.storage = false := by
        have := hc.1; rw [is_sso_eq] at this; simpa using this
      obtain ⟨o2, e, _⟩ := insert_sso o pos l hwf hs hpos hc.2
      rw [e] at h; cases h
    obtain ⟨o2, e, _⟩ := insert_grow o pos l hpos (by omega) hc (make_non_sso_ok o _ hwf hroom)
    rw [e] at h; cases h

/-! ### Erase -/

theorem WF.size_lt {o : Obj} (h : WF o) : size o < 2 ^ 64 := by
  cases hs : is_heap o.storage
  · rw [size_of_sso hs]; have := (h.sso hs).1
    simp only [sso_max_size, sso_capacity_bytes, SSO_ReservedBytes] at this; omega
  · unfold size; rw [hs, if_pos rfl]; exact ld64_lt _ _

/-- The content after a truncation, from the bytes of the result. -/
theorem content_take_of (o o2 : Obj) (pos : Nat) (hpos : pos ≤ size o) (hsize : size o2 = pos)
    (h1 : ∀ i, i < pos → data o2 i = data o i) : content o2 = (content o).take pos := by
  apply list_eq_of_getD _ _ (by simp [content_length, hsize]; omega)
  intro i hi
  rw [content_length] at hi
  rw [content_getD_lt o2 i hi, getD_take, if_pos (by omega), content_getD_lt o i (by omega),
    h1 i (by omega)]

/-- The content after an erase, from the bytes of the result. -/
theorem content_erase_of (o o2 : Obj) (pos len : Nat) (hle : pos + len ≤ size o)
    (hsize : size o2 = size o - len)
    (h1 : ∀ i, i < pos → data o2 i = data o i)
    (h2 : ∀ i, pos ≤ i → i < size o - len → data o2 i = data o (i + len)) :
    content o2 = (content o).take pos ++ (content o).drop (pos + len) := by
  apply list_eq_of_getD _ _ (by simp [content_length, hsize]; omega)
  intro i hi
  rw [content_length] at hi
  have htl : ((content o).take pos).length = pos := by simp [content_length]; omega
  rw [content_getD_lt o2 i hi, getD_append, htl, getD_take, getD_drop]
  by_cases ha : i < pos
  · rw [if_pos ha, if_pos ha, content_getD_lt o i (by omega), h1 i ha]
  · rw [if_neg ha, content_getD_lt o _ (by omega), h2 i (by omega) (by omega)]
    congr 1; omega

theorem erase_truncate (o : Obj) (pos len : Nat) (hwf : WF o) (hpos : pos < size o)
    (h : len = npos ∨ add64 pos len ≥ size o) :
    ∃ o2, erase o pos len = .ok o2 ∧ WF o2 ∧ is_heap o2.storage = is_heap o.storage ∧
      size o2 = pos ∧ (∀ i, i < pos → data o2 i = data o i) ∧ data o2 (size o2) = 0 := by
  have hlt := hwf.size_lt
  cases hs : is_heap o.storage
  · have hlen := (hwf.sso hs).1
    simp only [sso_max_size, sso_capacity_bytes, SSO_ReservedBytes] at hlen
    have hsz := size_of_sso hs
    let o2 : Obj := { o with storage := (blit (set_sso_len o.storage pos) pos 1 (fill_src 0)) }
    have hst : o2.storage = blit (set_sso_len o.storage pos) pos 1 (fill_src 0) := rfl
    have e : erase o pos len = .ok o2 := by
      unfold erase
      simp only
      rw [if_neg (by omega), if_pos h, if_pos (by rw [is_sso_eq, hs]; rfl),
        sso_put_eq _ _ _ (by omega)]
    have hs2 : is_heap o2.storage = false := by
      rw [hst, is_heap_blit _ _ _ _ (Or.inr (by omega)), is_heap_set_sso_len, hs]
    have hl2 : sso_len o2.storage = pos := by
      rw [hst, sso_len_blit _ _ _ _ (Or.inr (by omega)), sso_len_set_sso_len]; omega
    have hsize2 : size o2 = pos := by rw [size_of_sso hs2]; exact hl2
    refine ⟨o2, e, ?_, hs2, hsize2, ?_, ?_⟩
    · apply WF.of_sso (o := o2) hwf.mem_ok hs2 (by rw [hl2]; omega)
      rw [hl2, hst, blit_fill_at]
    · intro i hi
      rw [data_of_sso hs2, data_of_sso hs, hst, blit_of_lt _ _ _ _ _ hi, set_sso_len_apply,
        if_neg (by omega)]
    · rw [hsize2, data_of_sso hs2, hst, blit_fill_at]
  · obtain ⟨d, hv, hlt2, hz⟩ := hwf.heap_view hs
    have hsz := hv.size_obj
    have hv2 := hv.set_size_view pos (by omega)
    have hv3 := hv2.put_view pos 0 (by omega)
    have hok3 := hv2.put_OK hwf.mem_ok pos 0 (by omega)
    have e : erase o pos len = .ok
        (heap_put { o with storage := (set_heap_size o.storage pos) } pos 0) := by
      unfold erase
      simp only
      rw [if_neg (by omega), if_pos h, if_neg (by rw [is_sso_eq, hs]; simp)]
    refine ⟨_, e, ?_, hv3.is_heap_eq, hv3.size_obj, ?_, ?_⟩
    · apply WF.of_heap_view hv3 hok3 (by omega)
      rw [blit_fill_at]
    · intro i hi
      rw [hv3.data_obj, if_pos (by omega), blit_of_lt _ _ _ _ _ hi, hv.data_obj,
        if_pos (by omega)]
    · rw [hv3.data_size (by omega), blit_fill_at]

theorem erase_some (o : Obj) (pos len : Nat) (hwf : WF o) (hle : pos + len < size o) :
    ∃ o2, erase o pos len = .ok o2 ∧ WF o2 ∧ is_heap o2.storage = is_heap o.storage ∧
      size o2 = size o - len ∧ (∀ i, i < pos → data o2 i = data o i) ∧
      (∀ i, pos ≤ i → i < size o - len → data o2 i = data o (i + len)) ∧
      data o2 (size o2) = 0 := by
  have hlt := hwf.size_lt
  have h1 : add64 pos len = pos + len := add64_of_lt _ _ (by omega)
  have h2 : sub64 (size o) (pos + len) = size o - (pos + len) :=
    sub64_of_le _ _ (by omega) (by omega)
  have h3 : add64 pos (size o - (pos + len)) = size o - len := by
    rw [add64_of_lt _ _ (by omega)]; omega
  have hnp : ¬ (len = npos ∨ pos + len ≥ size o) := by unfold npos; omega
  cases hs : is_heap o.storage
  · have hlen := (hwf.sso hs).1
    simp only [sso_max_size, sso_capacity_bytes, SSO_ReservedBytes] at hlen
    have hsz := size_of_sso hs
    let o2 : Obj := { o with storage := (blit (set_sso_len (blit o.storage pos
      (size o - (pos + len)) (shift_src o.storage (pos + len))) (size o - len))
      (size o - len) 1 (fill_src 0)) }
    have hst : o2.storage = blit (set_sso_len (blit o.storage pos
      (size o - (pos + len)) (shift_src o.storage (pos + len))) (size o - len))
      (size o - len) 1 (fill_src 0) := rfl
    have e : erase o pos len = .ok o2 := by
      unfold erase
      simp only [h1, h2, h3]
      rw [if_neg (by omega), if_neg hnp, if_pos (by rw [is_sso_eq, hs]; rfl),
        sso_check_eq _ _ _ (Or.inr (by omega)), sso_write_eq _ _ _ _ (Or.inr (by omega)),
        sso_put_eq _ _ _ (by omega)]
    have hs2 : is_heap o2.storage = false := by
      rw [hst, is_heap_blit _ _ _ _ (Or.inr (by omega)), is_heap_set_sso_len,
        is_heap_blit _ _ _ _ (Or.inr (by omega)), hs]
    have hl2 : sso_len o2.storage = size o - len := by
      rw [hst, sso_len_blit _ _ _ _ (Or.inr (by omega)), sso_len_set_sso_len]; omega
    have hsize2 : size o2 = size o - len := by rw [size_of_sso hs2]; exact hl2
    refine ⟨o2, e, ?_, hs2, hsize2, ?_, ?_, ?_⟩
    · apply WF.of_sso (o := o2) hwf.mem_ok hs2 (by rw [hl2]; omega)
      rw [hl2, hst, blit_fill_at]
    · intro i hi
      rw [data_of_sso hs2, data_of_sso hs, hst, blit_of_lt _ _ _ _ _ (by omega),
        set_sso_len_apply, if_neg (by omega), blit_of_lt _ _ _ _ _ hi]
    · intro i hi1 hi2
      rw [data_of_sso hs2, data_of_sso hs, hst, blit_of_lt _ _ _ _ _ (by omega),
        set_sso_len_apply, if_neg (by omega), blit_apply, if_pos (by omega), shift_src_apply]
      congr 1; omega
    · rw [hsize2, data_of_sso hs2, hst, blit_fill_at]
  · obtain ⟨d, hv, hlt2, hz⟩ := hwf.heap_view hs
    have hsz := hv.size_obj
    have hck := hv.check_eq_self (pos + len) (size o - (pos + len)) (Or.inr (by omega))
    have hv2 := hv.write_view pos (size o - (pos + len))
      (shift_src (o.mem.load (heap_ptr o.storage)) (pos + len)) (Or.inr (by omega))
    have hok2 := hv.write_OK hwf.mem_ok pos (size o - (pos + len))
      (shift_src (o.mem.load (heap_ptr o.storage)) (pos + len)) (Or.inr (by omega))
    have hv3 := hv2.set_size_view (size o - len) (by omega)
    have hv4 := hv3.put_view (size o - len) 0 (by omega)
    have hok4 := hv3.put_OK hok2 (size o - len) 0 (by omega)
    have e : erase o pos len = .ok (heap_put
        { heap_write o pos (size o - (pos + len))
            (shift_src (o.mem.load (heap_ptr o.storage)) (pos + len)) with
          storage := (set_heap_size (heap_write o pos (size o - (pos + len))
            (shift_src (o.mem.load (heap_ptr o.storage)) (pos + len))).storage
            (size o - len)) }
        (size o - len) 0) := by
      unfold erase
      simp only [h1, h2, h3]
      rw [if_neg (by omega), if_neg hnp, if_neg (by rw [is_sso_eq, hs]; simp), hck,
        hv3.size_eq]
    have hsrc : ∀ i, i < heap_capacity_raw o.storage →
        o.mem.load (heap_ptr o.storage) i = d i := by
      intro i hi
      rw [Mem.load_of_block _ _ _ _ hv.block_eq, if_pos hi]
    refine ⟨_, e, ?_, hv4.is_heap_eq, hv4.size_obj, ?_, ?_, ?_⟩
    · apply WF.of_heap_view hv4 hok4 (by omega)
      rw [blit_fill_at]
    · intro i hi
      rw [hv4.data_obj, if_pos (by omega), blit_of_lt _ _ _ _ _ (by omega),
        blit_of_lt _ _ _ _ _ hi, hv.data_obj, if_pos (by omega)]
    · intro i hi1 hi2
      rw [hv4.data_obj, if_pos (by omega), blit_of_lt _ _ _ _ _ (by omega), blit_apply,
        if_pos (by omega), shift_src_apply, hsrc _ (by omega), hv.data_obj, if_pos (by omega)]
      congr 1; omega
    · rw [hv4.data_size (by omega), blit_fill_at]

/-! ### Sample objects and thrown exceptions -/

theorem mem0_OK : mem0.OK := Mem.init_OK _ _ _ (by decide)

theorem ctor_sv_WF (s : List Byte) (m : Mem) (hm : m.OK) (hroom : s.length + 1 < m.room) :
    WF (outcome (ctor_sv s m)) := by
  unfold ctor_sv
  by_cases h : s.length ≤ 29
  · obtain ⟨o, e, hwf⟩ := ctor_bytes_small_WF (of_list s) s.length m h hm
    rw [e]; exact hwf
  · obtain ⟨o, d, e, hv, hok, _, hz⟩ := ctor_bytes_large (of_list s) s.length m (by omega) hm hroom
    rw [e]; exact WF.of_heap_view hv hok (by omega) hz

theorem str_abcde_WF : WF str_abcde := ctor_sv_WF abcde mem0 mem0_OK (by decide)
theorem str_abcdef_WF : WF str_abcdef := ctor_sv_WF abcdef mem0 mem0_OK (by decide)
theorem str_digits_WF : WF str_digits := ctor_sv_WF digits mem0 mem0_OK (by decide)
theorem str_forty_x_WF : WF str_forty_x := ctor_sv_WF forty_x mem0 mem0_OK (by decide)
theorem str_twenty_nine_x_WF : WF str_twenty_nine_x :=
  ctor_sv_WF twenty_nine_x mem0 mem0_OK (by decide)

theorem allocate_buffer_error (o : Obj) (cap : Nat) (e : Exn) (o2 : Obj)
    (h : allocate_buffer o cap = .error (e, o2)) : e = Exn.bad_alloc ∧ o2 = o := by
  unfold allocate_buffer at h
  split at h
  · cases h
  · cases h; exact ⟨rfl, rfl⟩

theorem make_non_sso_error (o : Obj) (n : Nat) (e : Exn) (o2 : Obj)
    (h : make_non_sso_and_reserve o n = .error (e, o2)) : e = Exn.bad_alloc ∧ o2 = o := by
  unfold make_non_sso_and_reserve at h
  split at h
  · simp only at h
    split at h
    · next e2 he => cases h; exact allocate_buffer_error _ _ _ _ he
    · cases h
  · simp only at h
    split at h
    · cases h
    · split at h
      · next e2 he => cases h; exact allocate_buffer_error _ _ _ _ he
      · cases h

/-! ### Observations on the constructors -/

theorem ctor_bytes_small_obs (l : List Byte) (len : Nat) (m : Mem) (hlen : len ≤ 29)
    (hl : l.length = len) :
    ∃ o, ctor_bytes (of_list l) len m = .ok o ∧ is_heap o.storage = false ∧ size o = len ∧
      content o = l ∧ data o (size o) = 0 := by
  obtain ⟨o, e, _, hs, hsz, hd, hz⟩ := ctor_bytes_small (of_list l) len m hlen
  have hsize : size o = len := by rw [size_of_sso hs, hsz]
  refine ⟨o, e, hs, hsize, ?_, ?_⟩
  · apply content_eq_of o l (by rw [hsize, hl])
    intro i hi
    rw [hsize] at hi
    rw [data_of_sso hs, hd i hi, of_list_apply]
  · rw [hsize, data_of_sso hs, hz]

theorem ctor_bytes_large_obs (l : List Byte) (len : Nat) (m : Mem) (hm : m.OK) (hlen : 29 < len)
    (hroom : len + 1 < m.room) (hl : l.length = len) :
    ∃ o, ctor_bytes (of_list l) len m = .ok o ∧ is_heap o.storage = true ∧ size o = len ∧
      content o = l ∧ data o (size o) = 0 ∧ len ≤ capacity o := by
  obtain ⟨o, d, e, hv, _, hd, hz⟩ := ctor_bytes_large (of_list l) len m hlen hm hroom
  refine ⟨o, e, hv.is_heap_eq, hv.size_obj, ?_, ?_, ?_⟩
  · apply hv.content_of (by omega) l hl
    intro i hi
    rw [hd i hi, of_list_apply]
  · rw [hv.data_size (by omega), hz]
  · rw [hv.capacity_obj]
    have hlim := hm.arena
    unfold Mem.room at hroom
    unfold sub64
    omega

/-! ### Push back -/

theorem HeapView.capacity_succ {o : Obj} {p sz cap : Nat} {d : Bytes}
    (hv : HeapView o p sz cap d) (h : 0 < cap) : capacity o + 1 = cap := by
  rw [hv.capacity_obj]
  have hc : cap < 2 ^ 64 := by rw [← hv.cap_eq]; exact ld64_lt _ _
  unfold sub64
  omega

theorem map_range_one (ch : Byte) : (List.range 1).map (fill_src ch) = [ch] := rfl

theorem push_back_sso (o : Obj) (ch : Byte) (hwf : WF o) (hs : is_heap o.storage = false)
    (hlt : size o < 29) :
    ∃ o2, push_back o ch = .ok o2 ∧ WF o2 ∧ is_heap o2.storage = false ∧
      size o2 = size o + 1 ∧ (∀ i, i < size o → data o2 i = data o i) ∧
      data o2 (size o) = ch ∧ data o2 (size o2) = 0 := by
  have h1 : add64 (size o) 1 = size o + 1 := add64_of_lt _ _ (by omega)
  let o2 : Obj := { o with storage := (set_sso_len (blit (blit o.storage (size o) 1 (fill_src ch))
    (size o + 1) 1 (fill_src 0)) (size o + 1)) }
  have hst : o2.storage = set_sso_len (blit (blit o.storage (size o) 1 (fill_src ch))
    (size o + 1) 1 (fill_src 0)) (size o + 1) := rfl
  have e : push_back o ch = .ok o2 := by
    unfold push_back
    simp only [h1]
    rw [if_pos ⟨by rw [is_sso_eq, hs]; rfl, hlt⟩]
    rw [sso_put_eq _ _ _ (by omega), sso_put_eq _ _ _ (by omega)]
  have hs2 : is_heap o2.storage = false := by
    rw [hst, is_heap_set_sso_len, is_heap_blit _ _ _ _ (Or.inr (by omega)),
      is_heap_blit _ _ _ _ (Or.inr (by omega)), hs]
  have hl2 : sso_len o2.storage = size o + 1 := by
    rw [hst, sso_len_set_sso_len]; omega
  have hsize2 : size o2 = size o + 1 := by rw [size_of_sso hs2]; exact hl2
  refine ⟨o2, e, ?_, hs2, hsize2, ?_, ?_, ?_⟩
  · apply WF.of_sso (o := o2) hwf.mem_ok hs2 (by rw [hl2]; omega)
    rw [hl2, hst, set_sso_len_apply, if_neg (by omega), blit_fill_at]
  · intro i hi
    rw [data_of_sso hs2, data_of_sso hs, hst, set_sso_len_apply, if_neg (by omega),
      blit_of_lt _ _ _ _ _ (by omega), blit_of_lt _ _ _ _ _ hi]
  · rw [data_of_sso hs2, hst, set_sso_len_apply, if_neg (by omega),
      blit_of_lt _ _ _ _ _ (by omega), blit_fill_at]
  · rw [hsize2, data_of_sso hs2, hst, set_sso_len_apply, if_neg (by omega), blit_fill_at]

theorem push_back_grow (o : Obj) (ch : Byte) (hfit : size o + 2 < 2 ^ 64)
    (hnot : ¬ (is_sso o.storage = true ∧ size o < 29)) (hg : GrowsTo o (size o + 2)) :
    ∃ o2, push_back o ch = .ok o2 ∧ WF o2 ∧ is_heap o2.storage = true ∧
      size o2 = size o + 1 ∧ (∀ i, i < size o → data o2 i = data o i) ∧
      data o2 (size o) = ch ∧ data o2 (size o2) = 0 ∧ size o + 1 ≤ capacity o2 := by
  have h1 : add64 (size o) 1 = size o + 1 := add64_of_lt _ _ (by omega)
  have h2 : add64 (size o) 2 = size o + 2 := add64_of_lt _ _ (by omega)
  obtain ⟨o1, p, cap, d, e1, hv, hok, hcap, hlt, hd, hz⟩ := hg
  have hv2 := hv.put_view (size o) ch (by omega)
  have hok2 := hv.put_OK hok (size o) ch (by omega)
  have hv3 := hv2.put_view (size o + 1) 0 (by omega)
  have hok3 := hv2.put_OK hok2 (size o + 1) 0 (by omega)
  let o2 : Obj := { heap_put (heap_put o1 (size o) ch) (size o + 1) 0 with
    storage := (set_heap_size (heap_put (heap_put o1 (size o) ch) (size o + 1) 0).storage
      (size o + 1)) }
  have hv4 : HeapView o2 p (size o + 1) cap _ := hv3.set_size_view (size o + 1) (by omega)
  have e : push_back o ch = .ok o2 := by
    unfold push_back
    simp only [h1, h2]
    rw [if_neg (by simpa [sso_max_size, sso_capacity_bytes, SSO_ReservedBytes] using hnot), e1]
  refine ⟨o2, e, ?_, hv4.is_heap_eq, hv4.size_obj, ?_, ?_, ?_, ?_⟩
  · apply WF.of_heap_view hv4 hok3 (by omega)
    rw [blit_fill_at]
  · intro i hi
    rw [hv4.data_obj, if_pos (by omega), blit_of_lt _ _ _ _ _ (by omega),
      blit_of_lt _ _ _ _ _ hi, hd i hi]
  · rw [hv4.data_obj, if_pos (by omega), blit_of_lt _ _ _ _ _ (by omega), blit_fill_at]
  · rw [hv4.data_size (by omega), blit_fill_at]
  · have := hv4.capacity_succ (by omega)
    omega

theorem push_back_error (o : Obj) (ch : Byte) (hfit : size o + 2 < 2 ^ 64)
    (hnot : ¬ (is_sso o.storage = true ∧ size o < 29))
    (h : make_non_sso_and_reserve o (size o + 2) = .error (Exn.bad_alloc, o)) :
    push_back o ch = .error (Exn.bad_alloc, o) := by
  have h2 : add64 (size o) 2 = size o + 2 := add64_of_lt _ _ (by omega)
  unfold push_back
  simp only [h2]
  rw [if_neg (by simpa [sso_max_size, sso_capacity_bytes, SSO_ReservedBytes] using hnot), h]

/-- The effect of `push_back` on a well-formed object: it returns with the
byte appended, or throws `bad_alloc` and leaves the object as it was. -/
theorem push_back_cases (o : Obj) (ch : Byte) (hwf : WF o) (hfit : size o + 2 < 2 ^ 64) :
    (∃ o2, push_back o ch = .ok o2 ∧ WF o2 ∧ size o2 = size o + 1 ∧
      content o2 = content o ++ [ch] ∧ data o2 (size o2) = 0 ∧
      (is_heap o2.storage = false → is_heap o.storage = false ∧ size o < 29) ∧
      (is_heap o2.storage = true → size o + 1 ≤ capacity o2)) ∨
    push_back o ch = .error (Exn.bad_alloc, o) := by
  have hcontent : ∀ o2, size o2 = size o + 1 → (∀ i, i < size o → data o2 i = data o i) →
      data o2 (size o) = ch → content o2 = content o ++ [ch] := by
    intro o2 hsize hd hc
    rw [← map_range_one ch]
    apply content_append_of o o2 (fill_src ch) 1 hsize hd
    intro k hk
    have : k = 0 := by omega
    subst this
    exact hc
  by_cases hc : is_sso o.storage = true ∧ size o < 29
  · left
    have hs : is_heap o.storage = false := by
      have := hc.1; rw [is_sso_eq] at this; simpa using this
    obtain ⟨o2, e, hwf2, hs2, hsize, hd, hch, hz⟩ := push_back_sso o ch hwf hs hc.2
    refine ⟨o2, e, hwf2, hsize, hcontent o2 hsize hd hch, hz, fun _ => ⟨hs, hc.2⟩, ?_⟩
    intro h; rw [hs2] at h; cases h
  · rcases make_non_sso_cases o (size o + 2) hwf with hg | he
    · left
      obtain ⟨o2, e, hwf2, hs2, hsize, hd, hch, hz, hcap⟩ := push_back_grow o ch hfit hc hg
      refine ⟨o2, e, hwf2, hsize, hcontent o2 hsize hd hch, hz, ?_, fun _ => hcap⟩
      intro h; rw [hs2] at h; cases h
    · right; exact push_back_error o ch hfit hc he

/-- The effect of `push_back` on a well-formed object with room to grow. -/
theorem push_back_ok (o : Obj) (ch : Byte) (hwf : WF o)
    (hroom : max (size o + 2) (2 * (capacity o + 1)) < o.mem.room) :
    ∃ o2, push_back o ch = .ok o2 := by
  have hb := hwf.mem_ok.room_bound hroom
  rcases push_back_cases o ch hwf (by omega) with ⟨o2, e, _⟩ | h
  · exact ⟨o2, e⟩
  · exfalso
    have hc : ¬ (is_sso o.storage = true ∧ size o < 29) := by
      intro hc
      have hs : is_heap o.storage = false := by
        have := hc.1; rw [is_sso_eq] at this; simpa using this
      obtain ⟨o2, e, _⟩ := push_back_sso o ch hwf hs hc.2
      rw [e] at h; cases h
    obtain ⟨o2, e, _⟩ := push_back_grow o ch (by omega) hc (make_non_sso_ok o _ hwf hroom)
    rw [e] at h; cases h

/-! ### Reserve -/

theorem content_congr (o o2 : Obj) (hsize : size o2 = size o)
    (h : ∀ i, i < size o → data o2 i = data o i) : content o2 = content o := by
  apply list_eq_of_getD _ _ (by rw [content_length, content_length, hsize])
  intro i hi
  rw [content_length] at hi
  rw [content_getD_lt o2 i hi, content_getD_lt o i (by omega), h i (by omega)]

theorem WF.terminated {o : Obj} (h : WF o) : data o (size o) = 0 := by
  cases hs : is_heap o.storage
  · rw [data_of_sso hs, size_of_sso hs]; exact (h.sso hs).2
  · obtain ⟨d, hv, hlt, hz⟩ := h.heap_view hs
    rw [hv.data_size hlt, hz]

theorem GrowsTo.facts {o : Obj} {n : Nat} (hg : GrowsTo o n) :
    ∃ o1, make_non_sso_and_reserve o n = .ok o1 ∧ WF o1 ∧ is_heap o1.storage = true ∧
      size o1 = size o ∧ content o1 = content o ∧ data o1 (size o1) = 0 ∧
      n ≤ capacity o1 + 1 ∧ n ≤ heap_capacity_raw o1.storage := by
  obtain ⟨o1, p, cap, d, e1, hv, hok, hcap, hlt, hd, hz⟩ := hg
  have hwf1 : WF o1 := WF.of_heap_view hv hok hlt hz
  refine ⟨o1, e1, hwf1, hv.is_heap_eq, hv.size_obj, ?_, hwf1.terminated, ?_, ?_⟩
  · apply content_congr o o1 hv.size_obj
    intro i hi
    rw [hv.data_obj, if_pos (by omega), hd i hi]
  · rw [hv.capacity_succ (by omega)]; exact hcap
  · rw [hv.cap_eq]; exact hcap

/-- The effect of `reserve` on a well-formed object: it returns with room for
`n` bytes and the same content, or throws `bad_alloc` and leaves the object
as it was. -/
theorem reserve_cases (o : Obj) (n : Nat) (hwf : WF o) (hn : n + 1 < 2 ^ 64) :
    (∃ o2, reserve o n = .ok o2 ∧ WF o2 ∧ size o2 = size o ∧ content o2 = content o ∧
      data o2 (size o2) = 0 ∧ n ≤ capacity o2 ∧ (n ≤ capacity o → o2 = o)) ∨
    reserve o n = .error (Exn.bad_alloc, o) := by
  have h1 : add64 n 1 = n + 1 := add64_of_lt _ _ hn
  cases hs : is_heap o.storage
  · have hcap := capacity_of_sso hs
    by_cases hfit : n + 1 ≤ 30
    · left
      refine ⟨o, ?_, hwf, rfl, rfl, hwf.terminated, by omega, fun _ => rfl⟩
      unfold reserve
      simp only [h1]
      rw [is_sso_eq, hs]
      simp only [Bool.not_false, if_true]
      rw [if_pos (by simpa [sso_capacity_bytes, SSO_ReservedBytes] using hfit)]
    · have e : reserve o n = make_non_sso_and_reserve o (n + 1) := by
        unfold reserve
        simp only [h1]
        rw [is_sso_eq, hs]
        simp only [Bool.not_false, if_true]
        rw [if_neg (by simpa [sso_capacity_bytes, SSO_ReservedBytes] using hfit)]
      rcases make_non_sso_cases o (n + 1) hwf with hg | he
      · left
        obtain ⟨o1, e1, hwf1, _, hsize, hc, hz, hcap1, _⟩ := hg.facts
        exact ⟨o1, by rw [e, e1], hwf1, hsize, hc, hz, by omega, fun h => by omega⟩
      · right; rw [e, he]
  · obtain ⟨d, hv, hlt, hz⟩ := hwf.heap_view hs
    have hcap := hv.capacity_succ (by omega)
    by_cases hfit : heap_capacity_raw o.storage ≥ n + 1
    · left
      refine ⟨o, ?_, hwf, rfl, rfl, hwf.terminated, by omega, fun _ => rfl⟩
      unfold reserve
      simp only [h1]
      rw [is_sso_eq, hs]
      simp only [Bool.not_true, Bool.false_eq_true, if_false]
      rw [if_pos hfit]
    · have e : reserve o n = make_non_sso_and_reserve o (n + 1) := by
        unfold reserve
        simp only [h1]
        rw [is_sso_eq, hs]
        simp only [Bool.not_true, Bool.false_eq_true, if_false]
        rw [if_neg hfit]
      rcases make_non_sso_cases o (n + 1) hwf with hg | he
      · left
        obtain ⟨o1, e1, hwf1, _, hsize, hc, hz, hcap1, _⟩ := hg.facts
        exact ⟨o1, by rw [e, e1], hwf1, hsize, hc, hz, by omega, fun h => by omega⟩
      · right; rw [e, he]

/-- The effect of `reserve` on a well-formed object with room to grow. -/
theorem reserve_ok (o : Obj) (n : Nat) (hwf : WF o)
    (hroom : max (n + 1) (2 * (capacity o + 1)) < o.mem.room) :
    ∃ o2, reserve o n = .ok o2 := by
  have hb := hwf.mem_ok.room_bound hroom
  have h1 : add64 n 1 = n + 1 := add64_of_lt _ _ (by omega)
  rcases reserve_cases o n hwf (by omega) with ⟨o2, e, _⟩ | h
  · exact ⟨o2, e⟩
  · exfalso
    obtain ⟨o1, e1, _⟩ := (make_non_sso_ok o (n + 1) hwf hroom).facts
    unfold reserve at h
    simp only [h1] at h
    split at h
    · split at h
      · cases h
      · rw [e1] at h; cases h
    · split at h
      · cases h
      · rw [e1] at h; cases h

/-! ### Resize -/

theorem map_range_fill (ch : Byte) (k : Nat) :
    (List.range k).map (fill_src ch) = List.replicate k ch := by
  apply List.ext_getElem (by simp)
  intro i h1 h2
  simp [fill_src]

theorem resize_same (o : Obj) (ch : Byte) : resize o (size o) ch = .ok o := by
  unfold resize
  simp

theorem resize_shrink_eq (o : Obj) (n : Nat) (ch : Byte) (hlt : n < size o) :
    resize o n ch = erase o n npos := by
  unfold resize erase
  simp only
  have h1 : ¬ n = size o := by omega
  have h2 : ¬ n ≥ size o := by omega
  have h3 : True ∨ add64 n npos ≥ size o := Or.inl trivial
  rw [if_neg h1, if_pos hlt, if_neg h2, if_pos h3]
  cases hs : is_heap o.storage
  · simp [is_sso_eq, hs, is_heap_set_sso_len]
  · simp [is_sso_eq, hs, is_heap_set_heap_size]

theorem resize_grow (o : Obj) (n : Nat) (ch : Byte) (hfit : n + 1 < 2 ^ 64) (hgt : size o < n)
    (hg : GrowsTo o (n + 1)) :
    ∃ o2, resize o n ch = .ok o2 ∧ WF o2 ∧ is_heap o2.storage = true ∧ size o2 = n ∧
      (∀ i, i < size o → data o2 i = data o i) ∧
      (∀ k, k < n - size o → data o2 (size o + k) = ch) ∧ data o2 (size o2) = 0 := by
  have h1 : add64 n 1 = n + 1 := add64_of_lt _ _ hfit
  have h2 : sub64 n (size o) = n - size o := sub64_of_le _ _ (by omega) (by omega)
  obtain ⟨o1, p, cap, d, e1, hv, hok, hcap, hlt, hd, hz⟩ := hg
  have hv2 := hv.write_view (size o) (n - size o) (fill_src ch) (Or.inr (by omega))
  have hok2 := hv.write_OK hok (size o) (n - size o) (fill_src ch) (Or.inr (by omega))
  have hv3 := hv2.set_size_view n (by omega)
  let o2 : Obj := heap_put
    { heap_write o1 (size o) (n - size o) (fill_src ch) with
      storage := (set_heap_size (heap_write o1 (size o) (n - size o) (fill_src ch)).storage n) }
    n 0
  have hv4 : HeapView o2 p n cap _ := hv3.put_view n 0 (by omega)
  have hok4 : o2.mem.OK := hv3.put_OK hok2 n 0 (by omega)
  have e : resize o n ch = .ok o2 := by
    unfold resize
    simp only [h1, h2]
    rw [if_neg (by omega), if_neg (by omega), e1]
  refine ⟨o2, e, ?_, hv4.is_heap_eq, hv4.size_obj, ?_, ?_, ?_⟩
  · apply WF.of_heap_view hv4 hok4 (by omega)
    rw [blit_fill_at]
  · intro i hi
    rw [hv4.data_obj, if_pos (by omega), blit_of_lt _ _ _ _ _ (by omega),
      blit_of_lt _ _ _ _ _ hi, hd i hi]
  · intro k hk
    rw [hv4.data_obj, if_pos (by omega), blit_of_lt _ _ _ _ _ (by omega), blit_apply,
      if_pos (by omega)]
    rfl
  · rw [hv4.data_size (by omega), blit_fill_at]

theorem resize_error (o : Obj) (n : Nat) (ch : Byte) (e : Exn) (o2 : Obj)
    (h : resize o n ch = .error (e, o2)) : e = Exn.bad_alloc ∧ o2 = o := by
  unfold resize at h
  simp only at h
  split at h
  · cases h
  · split at h
    · cases h
    · split at h
      · next e2 he => cases h; exact make_non_sso_error _ _ _ _ he
      · cases h

/-- The effect of `resize` on a well-formed object, for a new size whose
successor is representable: it returns with the size set, or throws
`bad_alloc` and leaves the object as it was. -/
theorem resize_cases (o : Obj) (n : Nat) (ch : Byte) (hwf : WF o) (hfit : n + 1 < 2 ^ 64) :
    (∃ o2, resize o n ch = .ok o2 ∧ WF o2 ∧ size o2 = n ∧
      content o2 = (content o).take n ++ List.replicate (n - size o) ch ∧
      data o2 (size o2) = 0 ∧ (size o < n → is_heap o2.storage = true) ∧
      (n ≤ size o → is_heap o2.storage = is_heap o.storage)) ∨
    resize o n ch = .error (Exn.bad_alloc, o) := by
  rcases Nat.lt_trichotomy n (size o) with hlt | heq | hgt
  · left
    obtain ⟨o2, e, hwf2, hmode, hsize, hd, hz⟩ :=
      erase_truncate o n npos hwf hlt (Or.inl rfl)
    refine ⟨o2, by rw [resize_shrink_eq o n ch hlt, e], hwf2, hsize, ?_, hz,
      fun h => by omega, fun _ => hmode⟩
    rw [content_take_of o o2 n (by omega) hsize hd, show n - size o = 0 by omega]
    simp
  · left
    subst heq
    refine ⟨o, resize_same o ch, hwf, rfl, ?_, hwf.terminated, fun h => by omega, fun _ => rfl⟩
    rw [← content_length o, List.take_length]
    simp
  · rcases make_non_sso_cases o (n + 1) hwf with hg | he
    · left
      obtain ⟨o2, e, hwf2, hmode, hsize, hd1, hd2, hz⟩ := resize_grow o n ch hfit hgt hg
      refine ⟨o2, e, hwf2, hsize, ?_, hz, fun _ => hmode, fun h => by omega⟩
      rw [List.take_of_length_le (by rw [content_length]; omega), ← map_range_fill]
      apply content_append_of o o2 (fill_src ch) (n - size o) (by omega) hd1
      intro k hk
      exact hd2 k hk
    · right
      have h1 : add64 n 1 = n + 1 := add64_of_lt _ _ hfit
      unfold resize
      simp only [h1]
      rw [if_neg (by omega), if_neg (by omega), he]

/-- The effect of `resize` on a well-formed object with room to grow. -/
theorem resize_ok (o : Obj) (n : Nat) (ch : Byte) (hwf : WF o)
    (hroom : max (n + 1) (2 * (capacity o + 1)) < o.mem.room) :
    ∃ o2, resize o n ch = .ok o2 ∧ o2.mem.fault = false := by
  have hb := hwf.mem_ok.room_bound hroom
  rcases resize_cases o n ch hwf (by omega) with ⟨o2, e, hwf2, _⟩ | h
  · exact ⟨o2, e, hwf2.mem_ok.no_fault⟩
  · exfalso
    have h1 : add64 n 1 = n + 1 := add64_of_lt _ _ (by omega)
    obtain ⟨o1, e1, _⟩ := (make_non_sso_ok o (n + 1) hwf hroom).facts
    unfold resize at h
    simp only [h1] at h
    split at h
    · cases h
    · split at h
      · cases h
      · rw [e1] at h; cases h

theorem WF.succ_size_lt {o : Obj} (h : WF o) : size o + 1 < 2 ^ 64 := by
  cases hs : is_heap o.storage
  · rw [size_of_sso hs]; have := (h.sso hs).1
    simp only [sso_max_size, sso_capacity_bytes, SSO_ReservedBytes] at this; omega
  · obtain ⟨b, _, _, hlt, _⟩ := h.heap hs
    have : heap_capacity_raw o.storage < 2 ^ 64 := ld64_lt _ _
    unfold size; rw [hs, if_pos rfl]; omega

theorem Mem.write_block (m : Mem) (p off n : Nat) (src : Bytes) (b : Block)
    (hb : m.blocks p = some b) :
    (m.write p off n src).blocks p = some ⟨b.size, blit b.bytes off n src⟩ := by
  unfold Mem.write
  rw [hb]
  simp [Mem.set_block]

theorem Mem.write_faults (m : Mem) (p off n : Nat) (src : Bytes) (b : Block)
    (hb : m.blocks p = some b) (hn : n ≠ 0) (h : b.size < off + n) :
    (m.write p off n src).fault = true := by
  unfold Mem.write
  rw [hb]
  have : m.in_bounds p off n = false := by
    unfold Mem.in_bounds
    rw [hb]
    simp only [Bool.or_eq_false_iff, beq_eq_false_iff_ne, ne_eq, decide_eq_false_iff_not]
    exact ⟨hn, by omega⟩
  simp [Mem.set_block, Mem.check, this]

/-- A returning `resize(npos, ch)` has written outside its buffer: the
capacity it asks for, `npos + 1`, wraps to 0, and no allocation has the
`npos + 1` bytes the fill and the terminator need. -/
theorem resize_npos_faults (o : Obj) (ch : Byte) (hwf : WF o) (o2 : Obj)
    (h : resize o npos ch = .ok o2) : o2.mem.fault = true := by
  have hs := hwf.succ_size_lt
  have hnp : npos = 2 ^ 64 - 1 := rfl
  have h1 : add64 npos 1 = 0 := by decide
  have h2 : ¬ npos = size o := by omega
  have h3 : ¬ npos < size o := by omega
  unfold resize at h
  simp only [h1] at h
  rw [if_neg h2, if_neg h3] at h
  rcases make_non_sso_cases o 0 hwf with hg | he
  · obtain ⟨o1, p, cap, d, e1, hv, hok, hcap, hlt, hd, hz⟩ := hg
    rw [e1] at h
    simp only [Except.ok.injEq] at h
    subst h
    have hc : cap < 2 ^ 64 := by rw [← hv.cap_eq]; exact ld64_lt _ _
    have hb := Mem.write_block o1.mem p (size o) (sub64 npos (size o)) (fill_src ch) _ hv.block_eq
    unfold heap_put heap_write
    simp only [heap_ptr_set_heap_size, hv.ptr_eq]
    exact Mem.write_faults _ p npos 1 _ _ hb (by omega) (by simp only; omega)
  · rw [he] at h
    cases h

/-! ### Shrink to fit -/

theorem shrink_of_sso (o : Obj) (hs : is_heap o.storage = false) : shrink_to_fit o = .ok o := by
  unfold shrink_to_fit
  rw [is_sso_eq, hs]
  rfl

theorem deallocate_buffer_storage (o : Obj) (p c : Nat) :
    (deallocate_buffer o p c).storage = o.storage := rfl

/-- The heap-to-inline branch of `shrink_to_fit`, on the fields of the
string. -/
theorem shrink_to_inline (o : Obj) (q sz c : Nat) (d : Bytes) (hv : HeapView o q sz c d)
    (hlt : sz < c) (hsz : sz ≤ 29) :
    ∃ o2, shrink_to_fit o = .ok o2 ∧ is_heap o2.storage = false ∧ sso_len o2.storage = sz ∧
      (∀ i, i < sz → o2.storage i = d i) ∧ o2.storage sz = 0 := by
  unfold shrink_to_fit
  rw [is_sso_eq, hv.is_heap_eq]
  simp only [Bool.not_true, Bool.false_eq_true, if_false]
  rw [hv.size_eq, if_pos (by simp only [sso_max_size, sso_capacity_bytes, SSO_ReservedBytes]; omega),
    hv.check_eq_self 0 sz (Or.inr (by omega)), sso_write_eq _ _ _ _ (Or.inr (by omega))]
  simp only
  rw [sso_put_eq _ _ _ (by omega)]
  simp only [deallocate_buffer_storage]
  refine ⟨_, rfl, ?_, ?_, ?_, ?_⟩
  · exact is_heap_set_sso_tag0 _
  · show sso_len (set_sso_tag0 _) = sz
    rw [sso_len_set_sso_tag0, sso_len_blit _ _ _ _ (Or.inr (by omega)), sso_len_set_sso_len]
    omega
  · intro i hi
    show set_sso_tag0 _ i = d i
    rw [set_sso_tag0_apply, if_neg (by omega), blit_of_lt _ _ _ _ _ hi, set_sso_len_apply,
      if_neg (by omega), blit_apply, if_pos (by omega), hv.ptr_eq,
      Mem.load_of_block _ _ _ _ hv.block_eq, if_pos (by omega)]
    simp
  · show set_sso_tag0 _ sz = 0
    rw [set_sso_tag0_apply, if_neg (by omega), blit_fill_at]

theorem shrink_tight (o : Obj) (q sz c : Nat) (d : Bytes) (hv : HeapView o q sz c d)
    (hlt : sz < c) (hsz : 29 < sz) (hc : c ≤ sz + 1) : shrink_to_fit o = .ok o := by
  have hcl : c < 2 ^ 64 := by rw [← hv.cap_eq]; exact ld64_lt _ _
  have hadd : ¬ add64 sz 1 < c := by
    rw [add64_of_lt _ _ (by omega)]; omega
  unfold shrink_to_fit
  rw [is_sso_eq, hv.is_heap_eq]
  simp only [Bool.not_true, Bool.false_eq_true, if_false]
  rw [hv.size_eq, hv.cap_eq,
    if_neg (by simp only [sso_max_size, sso_capacity_bytes, SSO_ReservedBytes]; omega),
    if_neg hadd]

theorem shrink_fail (o : Obj) (q sz c : Nat) (d : Bytes) (hv : HeapView o q sz c d)
    (hsz : 29 < sz) (hc : sz + 1 < c) (hroom : ¬ sz + 1 < o.mem.room) :
    shrink_to_fit o = .error (Exn.bad_alloc, o) := by
  have hcl : c < 2 ^ 64 := by rw [← hv.cap_eq]; exact ld64_lt _ _
  have hadd : add64 sz 1 = sz + 1 := add64_of_lt _ _ (by omega)
  unfold shrink_to_fit
  rw [is_sso_eq, hv.is_heap_eq]
  simp only [Bool.not_true, Bool.false_eq_true, if_false]
  rw [hv.size_eq, hv.cap_eq,
    if_neg (by simp only [sso_max_size, sso_capacity_bytes, SSO_ReservedBytes]; omega),
    hadd, if_pos hc, allocate_buffer_fail o _ hroom]

/-- The reallocating branch of `shrink_to_fit`. -/
theorem shrink_realloc (o : Obj) (q sz c : Nat) (d : Bytes) (hv : HeapView o q sz c d)
    (hok : o.mem.OK) (hsz : 29 < sz) (hc : sz + 1 < c) (hroom : sz + 1 < o.mem.room) :
    ∃ o2 p d2, shrink_to_fit o = .ok o2 ∧ HeapView o2 p sz (sz + 1) d2 ∧ o2.mem.OK ∧
      (∀ i, i < sz → d2 i = d i) ∧ d2 sz = 0 := by
  have hcl : c < 2 ^ 64 := by rw [← hv.cap_eq]; exact ld64_lt _ _
  have hadd : add64 sz 1 = sz + 1 := add64_of_lt _ _ (by omega)
  have hlim := hok.arena
  have hq := hok.lt_next hv.block_eq
  have hr : o.mem.next + (sz + 1) < 2 ^ 64 := by unfold Mem.room at hroom; omega
  have hb1 : (o.mem.grown (sz + 1)).blocks q = some ⟨c, d⟩ := by
    rw [Mem.grown_blocks_ne _ _ _ (by omega)]; exact hv.block_eq
  have hv1 : HeapView { o with mem := o.mem.grown (sz + 1) } q sz c d :=
    ⟨hv.is_heap_eq, hv.ptr_eq, hv.size_eq, hv.cap_eq, hb1⟩
  have e : shrink_to_fit o = .ok
      { storage := set_heap_flag (set_heap_cap (set_heap_ptr o.storage o.mem.next) (sz + 1)),
        mem := { (((o.mem.grown (sz + 1)).set_block o.mem.next
          (some ⟨sz + 1, blit (blit o.mem.junk 0 sz ((o.mem.grown (sz + 1)).load q)) sz 1
            (fill_src 0)⟩)).set_block q none) with
          freed := (q, c) :: o.mem.freed } } := by
    unfold shrink_to_fit
    rw [is_sso_eq, hv.is_heap_eq]
    simp only [Bool.not_true, Bool.false_eq_true, if_false]
    rw [hv.size_eq, hv.cap_eq,
      if_neg (by simp only [sso_max_size, sso_capacity_bytes, SSO_ReservedBytes]; omega),
      hadd, if_pos hc, allocate_buffer_eq o _ hroom]
    simp only
    rw [hv.ptr_eq, hv1.check_eq_self 0 sz (Or.inr (by omega))]
    rw [write_put_eq _ _ (sz + 1) _ o.mem.junk _ (by simp) (by omega)]
    unfold deallocate_buffer
    simp only
    rw [hv.ptr_eq, Mem.deallocate_eq _ q c d
      (by rw [Mem.set_block_blocks_ne _ _ _ _ (by omega)]; exact hb1)]
    rfl
  refine ⟨_, o.mem.next, blit (blit o.mem.junk 0 sz ((o.mem.grown (sz + 1)).load q)) sz 1
    (fill_src 0), e, ⟨?_, ?_, ?_, ?_, ?_⟩, ?_, ?_, ?_⟩
  · exact is_heap_set_heap_flag _
  · simp only [heap_ptr_set_heap_flag, heap_ptr_set_heap_cap, heap_ptr_set_heap_ptr]; omega
  · simp only [heap_size_set_heap_flag, heap_size_set_heap_cap, heap_size_set_heap_ptr]
    exact hv.size_eq
  · simp only [heap_cap_set_heap_flag, heap_cap_set_heap_cap]; omega
  · show (Mem.set_block _ q none).blocks o.mem.next = _
    rw [Mem.set_block_blocks_ne _ _ _ _ (by omega)]
    simp
  · refine ⟨hok.no_fault, hlim, ?_⟩
    intro a ha
    have ha2 : o.mem.next + (sz + 1) + 1 ≤ a := ha
    show (Mem.set_block _ q none).blocks a = none
    rw [Mem.set_block_blocks_ne _ _ _ _ (by omega), Mem.set_block_blocks_ne _ _ _ _ (by omega),
      Mem.grown_blocks_ne _ _ _ (by omega)]
    exact hok.fresh a (by omega)
  · intro i hi
    rw [blit_of_lt _ _ _ _ _ hi, blit_apply, if_pos (by omega),
      Mem.load_of_block _ _ _ _ hb1, if_pos (by omega)]
    simp
  · rw [blit_fill_at]


/-- The effect of `shrink_to_fit` on a well-formed object: it returns with
size, content and terminator kept, in the mode and with the capacity the three
branches give, or throws `bad_alloc` and leaves the object as it was. -/
theorem shrink_cases (o : Obj) (hwf : WF o) :
    (∃ o2, shrink_to_fit o = .ok o2 ∧ size o2 = size o ∧ content o2 = content o ∧
      data o2 (size o2) = 0 ∧
      (is_heap o.storage = false → o2 = o) ∧
      (is_heap o.storage = true → size o ≤ 29 → is_heap o2.storage = false) ∧
      (is_heap o.storage = true → 29 < size o →
        WF o2 ∧ is_heap o2.storage = true ∧ heap_capacity_raw o2.storage = size o + 1)) ∨
    (shrink_to_fit o = .error (Exn.bad_alloc, o) ∧ ¬ size o + 1 < o.mem.room) := by
  cases hs : is_heap o.storage
  · left
    exact ⟨o, shrink_of_sso o hs, rfl, rfl, hwf.terminated, fun _ => rfl,
      fun h => (by cases h), fun h => (by cases h)⟩
  · obtain ⟨d, hv, hlt, hz⟩ := hwf.heap_view hs
    have hsize : size o = heap_size o.storage := hv.size_obj
    by_cases hsz : heap_size o.storage ≤ 29
    · left
      obtain ⟨o2, e, hm, hlen, hd, hz2⟩ := shrink_to_inline o _ _ _ d hv hlt hsz
      have hsize2 : size o2 = size o := by rw [size_of_sso hm, hlen, hsize]
      refine ⟨o2, e, hsize2, ?_, ?_, fun h => (by cases h), fun _ _ => hm, fun _ h => (by omega)⟩
      · apply content_congr o o2 hsize2
        intro i hi
        rw [data_of_sso hm, hd i (by omega), hv.data_obj, if_pos (by omega)]
      · rw [data_of_sso hm, hsize2, hsize, hz2]
    · by_cases hc : heap_size o.storage + 1 < heap_capacity_raw o.storage
      · by_cases hroom : heap_size o.storage + 1 < o.mem.room
        · left
          obtain ⟨o2, p, d2, e, hv2, hok2, hd, hz2⟩ :=
            shrink_realloc o _ _ _ d hv hwf.mem_ok (by omega) hc hroom
          have hsize2 : size o2 = size o := by rw [hv2.size_obj, hsize]
          have hwf2 : WF o2 := WF.of_heap_view hv2 hok2 (by omega) hz2
          refine ⟨o2, e, hsize2, ?_, hwf2.terminated, ?_, fun _ h => (by omega),
            fun _ _ => ⟨hwf2, hv2.is_heap_eq, by rw [hv2.cap_eq, hsize]⟩⟩
          · apply content_congr o o2 hsize2
            intro i hi
            rw [hv2.data_obj, if_pos (by omega), hd i (by omega), hv.data_obj, if_pos (by omega)]
          · intro h; cases h
        · right
          exact ⟨shrink_fail o _ _ _ d hv (by omega) hc hroom, by rw [hsize]; exact hroom⟩
      · left
        refine ⟨o, shrink_tight o _ _ _ d hv hlt (by omega) (by omega), rfl, rfl,
          hwf.terminated, fun _ => rfl, fun _ h => (by omega),
          fun _ _ => ⟨hwf, hs, by rw [hsize]; omega⟩⟩

theorem shrink_error (o : Obj) (e : Exn) (o2 : Obj) (h : shrink_to_fit o = .error (e, o2)) :
    e = Exn.bad_alloc ∧ o2 = o := by
  unfold shrink_to_fit at h
  split at h
  · cases h
  · simp only at h
    split at h
    · cases h
    · split at h
      · split at h
        · next e2 he => cases h; exact allocate_buffer_error _ _ _ _ he
        · cases h
      · cases h

theorem allocate_buffer_storage (o : Obj) (cap p : Nat) (o1 : Obj)
    (h : allocate_buffer o cap = .ok (p, o1)) : o1.storage = o.storage := by
  unfold allocate_buffer at h
  split at h
  · cases h; rfl
  · cases h

/-- A second `shrink_to_fit` changes nothing: the result of a first call is
either inline or a heap string whose raw capacity is not above `size + 1`. -/
theorem shrink_twice (o o2 : Obj) (h : shrink_to_fit o = .ok o2) : shrink_to_fit o2 = .ok o2 := by
  unfold shrink_to_fit at h
  split at h
  · next h1 =>
    cases h
    unfold shrink_to_fit
    rw [if_pos h1]
  · next h1 =>
    simp only at h
    split at h
    · cases h
      exact shrink_of_sso _ (is_heap_set_sso_tag0 _)
    · next h2 =>
      split at h
      · split at h
        · cases h
        · next p o1 he =>
          cases h
          have hst := allocate_buffer_storage _ _ _ _ he
          have hlt : add64 (heap_size o.storage) 1 < 2 ^ 64 := Nat.mod_lt _ (by norm_num)
          unfold shrink_to_fit
          simp only [deallocate_buffer_storage, ptr_put, ptr_write, heap_check, hst,
            is_sso_eq, is_heap_set_heap_flag, heap_size_set_heap_flag, heap_size_set_heap_cap,
            heap_size_set_heap_ptr, heap_cap_set_heap_flag, heap_cap_set_heap_cap,
            Nat.mod_eq_of_lt hlt, Bool.not_true, Bool.false_eq_true, if_false, if_neg h2,
            lt_self_iff_false]
      · next h3 =>
        cases h
        unfold shrink_to_fit
        rw [if_neg h1]
        simp only
        rw [if_neg h2, if_neg h3]

theorem shrink_ok (o : Obj) (hwf : WF o) (hroom : size o + 1 < o.mem.room) :
    ∃ o2, shrink_to_fit o = .ok o2 := by
  rcases shrink_cases o hwf with ⟨o2, e, _⟩ | ⟨_, h⟩
  · exact ⟨o2, e⟩
  · exact absurd hroom h


theorem str_forty_x_reserved_WF : WF str_forty_x_reserved := by
  rcases reserve_cases str_forty_x 100 str_forty_x_WF (by decide) with ⟨o2, e, hwf, _⟩ | he
  · have : str_forty_x_reserved = o2 := by unfold str_forty_x_reserved; rw [e]; rfl
    rw [this]; exact hwf
  · have h : reserve str_forty_x 100 = .ok (outcome (reserve str_forty_x 100)) := by rfl
    rw [h] at he; cases he

theorem str_forty_x_resized_WF : WF str_forty_x_resized := by
  rcases resize_cases str_forty_x 3 0 str_forty_x_WF (by decide) with ⟨o2, e, hwf, _⟩ | he
  · have : str_forty_x_resized = o2 := by unfold str_forty_x_resized; rw [e]; rfl
    rw [this]; exact hwf
  · have h : resize str_forty_x 3 0 = .ok (outcome (resize str_forty_x 3 0)) := by rfl
    rw [h] at he; cases he

/-! ### Comparison -/

theorem mismatch_none (a b : Bytes) (len c : Nat) :
    mismatch a b c len = none ↔ ∀ i, c ≤ i → i < c + len → a i = b i := by
  induction len generalizing c with
  | zero =>
    simp only [mismatch, true_iff]
    intro i h1 h2; omega
  | succ len ih =>
    unfold mismatch
    by_cases h : a c = b c
    · rw [if_neg (by simpa using h), ih]
      constructor
      · intro hh i h1 h2
        rcases Nat.eq_or_lt_of_le h1 with he | hl
        · rw [← he]; exact h
        · exact hh i hl (by omega)
      · intro hh i h1 h2
        exact hh i (by omega) (by omega)
    · rw [if_pos h]
      simp only [reduceCtorEq, false_iff]
      intro hh
      exact h (hh c (le_refl _) (by omega))

theorem mismatch_some (a b : Bytes) (len c k : Nat) :
    mismatch a b c len = some k ↔
      c ≤ k ∧ k < c + len ∧ a k ≠ b k ∧ ∀ i, c ≤ i → i < k → a i = b i := by
  induction len generalizing c with
  | zero =>
    simp only [mismatch, reduceCtorEq, false_iff]
    intro h; omega
  | succ len ih =>
    unfold mismatch
    by_cases h : a c = b c
    · rw [if_neg (by simpa using h), ih]
      constructor
      · rintro ⟨h1, h2, h3, h4⟩
        refine ⟨by omega, by omega, h3, ?_⟩
        intro i hi1 hi2
        rcases Nat.eq_or_lt_of_le hi1 with he | hl
        · rw [← he]; exact h
        · exact h4 i hl hi2
      · rintro ⟨h1, h2, h3, h4⟩
        have hne : c ≠ k := by
          intro he; rw [he] at h; exact h3 h
        exact ⟨by omega, by omega, h3, fun i hi1 hi2 => h4 i (by omega) hi2⟩
    · rw [if_pos h]
      simp only [Option.some.injEq]
      constructor
      · intro he
        subst he
        exact ⟨le_refl _, by omega, h, fun i h1 h2 => by omega⟩
      · rintro ⟨h1, h2, h3, h4⟩
        rcases Nat.eq_or_lt_of_le h1 with he | hl
        · exact he
        · exact absurd (h4 c (le_refl _) hl) h

/-- The byte-difference `memcmp` is a `memcmp` of the C standard. -/
theorem memcmp_diff_spec : MemcmpSpec memcmp_diff := by
  intro a b n
  unfold memcmp_diff
  constructor
  · intro h; rw [h]
  · intro k h
    rw [h]
    simp only
    constructor
    · intro hlt
      have : (a k).val < (b k).val := hlt
      omega
    · intro hlt
      have : (b k).val < (a k).val := hlt
      omega

theorem compare_of_differ (memcmp : Bytes → Bytes → Nat → Int) (o : Obj) (sv : List Byte)
    (h : memcmp (data o) (of_list sv) (min (size o) sv.length) ≠ 0) :
    compare memcmp o sv = memcmp (data o) (of_list sv) (min (size o) sv.length) := by
  unfold compare
  simp only
  rw [if_pos h]

theorem compare_of_agree (memcmp : Bytes → Bytes → Nat → Int) (o : Obj) (sv : List Byte)
    (h : memcmp (data o) (of_list sv) (min (size o) sv.length) = 0) :
    compare memcmp o sv =
      if size o < sv.length then -1 else if size o = sv.length then 0 else 1 := by
  unfold compare
  simp only
  rw [if_neg (by simpa using h)]
  by_cases h1 : size o < sv.length
  · rw [if_pos h1, if_pos h1]
  · rw [if_neg h1, if_neg h1]
    by_cases h2 : size o = sv.length
    · rw [if_neg (by omega), if_pos h2]
    · rw [if_pos (by omega), if_neg h2]


/-! ### Search -/

theorem memchr_none (d : Bytes) (b : Byte) (len c : Nat) :
    memchr d b c len = none ↔ ∀ i, c ≤ i → i < c + len → d i ≠ b := by
  induction len generalizing c with
  | zero =>
    simp only [memchr, true_iff]
    intro i h1 h2; omega
  | succ len ih =>
    unfold memchr
    by_cases h : d c = b
    · rw [if_pos h]
      simp only [reduceCtorEq, false_iff]
      intro hh
      exact hh c (le_refl _) (by omega) h
    · rw [if_neg h, ih]
      constructor
      · intro hh i h1 h2
        rcases Nat.eq_or_lt_of_le h1 with he | hl
        · rw [← he]; exact h
        · exact hh i hl (by omega)
      · intro hh i h1 h2
        exact hh i (by omega) (by omega)

theorem memchr_some (d : Bytes) (b : Byte) (len c k : Nat) :
    memchr d b c len = some k ↔
      c ≤ k ∧ k < c + len ∧ d k = b ∧ ∀ i, c ≤ i → i < k → d i ≠ b := by
  induction len generalizing c with
  | zero =>
    simp only [memchr, reduceCtorEq, false_iff]
    intro h; omega
  | succ len ih =>
    unfold memchr
    by_cases h : d c = b
    · rw [if_pos h]
      simp only [Option.some.injEq]
      constructor
      · intro he
        subst he
        exact ⟨le_refl _, by omega, h, fun i h1 h2 => by omega⟩
      · rintro ⟨h1, h2, h3, h4⟩
        rcases Nat.eq_or_lt_of_le h1 with he | hl
        · exact he
        · exact absurd h (h4 c (le_refl _) hl)
    · rw [if_neg h, ih]
      constructor
      · rintro ⟨h1, h2, h3, h4⟩
        refine ⟨by omega, by omega, h3, ?_⟩
        intro i hi1 hi2
        rcases Nat.eq_or_lt_of_le hi1 with he | hl
        · rw [← he]; exact h
        · exact h4 i hl hi2
      · rintro ⟨h1, h2, h3, h4⟩
        have hne : c ≠ k := by
          intro he; rw [he] at h; exact h h3
        exact ⟨by omega, by omega, h3, fun i hi1 hi2 => h4 i (by omega) hi2⟩

theorem traits_compare_eq_iff (d : Bytes) (i : Nat) (needle : Bytes) (m : Nat) :
    traits_compare_eq d i needle m = true ↔ ∀ j, j < m → d (i + j) = needle j := by
  unfold traits_compare_eq
  simp [List.all_eq_true, List.mem_range]

/-- The loop of `find`, started at `c < e` with at least `e - c` iterations
allowed, ends, and it returns the least index in `[c, e)` at which the needle
matches, or `npos` when there is none. -/
theorem find_loop_spec (d needle : Bytes) (m e : Nat) (hm : 0 < m) (fuel c : Nat) (hc : c < e)
    (hf : e - c ≤ fuel) :
    ∃ r, find_loop d needle m e fuel c = some r ∧
      ((c ≤ r ∧ r < e ∧ (∀ j, j < m → d (r + j) = needle j) ∧
          ∀ i, c ≤ i → i < e → (∀ j, j < m → d (i + j) = needle j) → r ≤ i) ∨
        (r = npos ∧ ∀ i, c ≤ i → i < e → ¬ ∀ j, j < m → d (i + j) = needle j)) := by
  induction fuel generalizing c with
  | zero => omega
  | succ fuel ih =>
    unfold find_loop
    cases hmc : memchr d (needle 0) c (e - c) with
    | none =>
      rw [memchr_none] at hmc
      refine ⟨npos, rfl, Or.inr ⟨rfl, ?_⟩⟩
      intro i h1 h2 hM
      exact hmc i h1 (by omega) (hM 0 hm)
    | some k =>
      rw [memchr_some] at hmc
      obtain ⟨hk1, hk2, hk3, hk4⟩ := hmc
      have hfirst : ∀ i, c ≤ i → i < e → (∀ j, j < m → d (i + j) = needle j) → k ≤ i := by
        intro i h1 h2 hM
        by_contra hlt
        exact hk4 i h1 (by omega) (hM 0 hm)
      simp only
      by_cases ht : traits_compare_eq d k needle m = true
      · rw [if_pos ht]
        rw [traits_compare_eq_iff] at ht
        exact ⟨k, rfl, Or.inl ⟨hk1, by omega, ht, hfirst⟩⟩
      · rw [if_neg ht]
        rw [traits_compare_eq_iff] at ht
        by_cases hke : k + 1 ≥ e
        · rw [if_pos hke]
          refine ⟨npos, rfl, Or.inr ⟨rfl, ?_⟩⟩
          intro i h1 h2 hM
          have := hfirst i h1 h2 hM
          have : i = k := by omega
          subst this
          exact ht hM
        · rw [if_neg hke]
          obtain ⟨r, e1, hr⟩ := ih (k + 1) (by omega) (by omega)
          refine ⟨r, e1, ?_⟩
          have hnext : ∀ i, c ≤ i → i < e → (∀ j, j < m → d (i + j) = needle j) → k + 1 ≤ i := by
            intro i h1 h2 hM
            have := hfirst i h1 h2 hM
            rcases Nat.eq_or_lt_of_le this with he | hl
            · subst he; exact absurd hM ht
            · exact hl
          rcases hr with ⟨h1, h2, h3, h4⟩ | ⟨h1, h2⟩
          · exact Or.inl ⟨by omega, h2, h3, fun i hi1 hi2 hM => h4 i (hnext i hi1 hi2 hM) hi2 hM⟩
          · exact Or.inr ⟨h1, fun i hi1 hi2 hM => h2 i (hnext i hi1 hi2 hM) hi2 hM⟩

theorem occurs_iff (X : Obj) (p : List Byte) (start i : Nat) :
    Occurs X p start i ↔
      start ≤ i ∧ i + p.length ≤ size X ∧ ∀ j, j < p.length → data X (i + j) = of_list p j := by
  unfold Occurs
  constructor
  · rintro ⟨h1, h2, h3⟩
    refine ⟨h1, h2, ?_⟩
    intro j hj
    have := congrArg (fun l => l.getD j 0) h3
    simp only [getD_take, if_pos hj, getD_drop] at this
    rw [content_getD_lt X (i + j) (by omega)] at this
    exact this
  · rintro ⟨h1, h2, h3⟩
    refine ⟨h1, h2, ?_⟩
    apply list_eq_of_getD
    · rw [List.length_take, List.length_drop, content_length]; omega
    · intro j hj
      rw [List.length_take, List.length_drop, content_length] at hj
      rw [getD_take, if_pos (by omega), getD_drop, content_getD_lt X (i + j) (by omega)]
      exact h3 j (by omega)

/-- The result of `find`: the loop ends, and the value returned is the least
occurrence at or after `start`, or `npos` when there is none. -/
theorem find_spec (X : Obj) (p : List Byte) (start : Nat) :
    ∃ r, find X p start = some r ∧
      ((Occurs X p start r ∧ ∀ i, Occurs X p start i → r ≤ i) ∨
        (r = npos ∧ ∀ i, ¬ Occurs X p start i)) := by
  unfold find
  simp only
  by_cases h1 : start > size X
  · rw [if_pos h1]
    refine ⟨npos, rfl, Or.inr ⟨rfl, ?_⟩⟩
    rintro i ⟨a, b, _⟩
    omega
  · rw [if_neg h1]
    by_cases h2 : p.length = 0
    · rw [if_pos h2]
      refine ⟨start, rfl, Or.inl ⟨⟨le_refl _, by omega, ?_⟩, fun i hi => hi.1⟩⟩
      rw [h2, List.take_zero]
      exact (List.length_eq_zero.mp h2).symm
    · rw [if_neg h2]
      by_cases h3 : p.length > size X - start
      · rw [if_pos h3]
        refine ⟨npos, rfl, Or.inr ⟨rfl, ?_⟩⟩
        rintro i ⟨a, b, _⟩
        omega
      · rw [if_neg h3]
        obtain ⟨r, e1, hr⟩ := find_loop_spec (data X) (of_list p) p.length
          (start + (size X - start - p.length + 1)) (by omega)
          (size X - start - p.length + 1) start (by omega) (by omega)
        refine ⟨r, e1, ?_⟩
        rcases hr with ⟨a1, a2, a3, a4⟩ | ⟨a1, a2⟩
        · left
          refine ⟨(occurs_iff X p start r).mpr ⟨a1, by omega, a3⟩, ?_⟩
          intro i hi
          obtain ⟨b1, b2, b3⟩ := (occurs_iff X p start i).mp hi
          exact a4 i b1 (by omega) b3
        · right
          refine ⟨a1, ?_⟩
          intro i hi
          obtain ⟨b1, b2, b3⟩ := (occurs_iff X p start i).mp hi
          exact a2 i b1 (by omega) b3

/-! ### What a throwing call leaves behind -/

theorem push_back_throws (o : Obj) (ch : Byte) (e : Exn) (o2 : Obj)
    (h : push_back o ch = .error (e, o2)) : e = Exn.bad_alloc ∧ o2 = o := by
  unfold push_back at h
  simp only at h
  split at h
  · cases h
  · split at h
    · next e2 he => cases h; exact make_non_sso_error _ _ _ _ he
    · cases h

theorem append_bytes_throws (o : Obj) (src : Bytes) (add : Nat) (e : Exn) (o2 : Obj)
    (h : append_bytes o src add = .error (e, o2)) : e = Exn.bad_alloc ∧ o2 = o := by
  rw [append_bytes_eq] at h
  simp only at h
  split at h
  · cases h
  · split at h
    · next e2 he => cases h; exact make_non_sso_error _ _ _ _ he
    · cases h

theorem insert_throws (o : Obj) (pos : Nat) (sv : List Byte) (e : Exn) (o2 : Obj)
    (h : insert o pos sv = .error (e, o2)) :
    o2 = o ∧ ((e = Exn.out_of_range ∧ size o < pos) ∨ (e = Exn.bad_alloc ∧ pos ≤ size o)) := by
  rw [insert_eq] at h
  split at h
  · next hp => cases h; exact ⟨rfl, Or.inl ⟨rfl, hp⟩⟩
  · next hp =>
    simp only at h
    split at h
    · cases h
    · split at h
      · next e2 he =>
        cases h
        obtain ⟨h1, h2⟩ := make_non_sso_error _ _ _ _ he
        exact ⟨h2, Or.inr ⟨h1, by omega⟩⟩
      · cases h

theorem reserve_throws (o : Obj) (n : Nat) (e : Exn) (o2 : Obj)
    (h : reserve o n = .error (e, o2)) : e = Exn.bad_alloc ∧ o2 = o := by
  unfold reserve at h
  simp only at h
  split at h
  · split at h
    · cases h
    · exact make_non_sso_error _ _ _ _ h
  · split at h
    · cases h
    · exact make_non_sso_error _ _ _ _ h


theorem append_cases (o : Obj) (l : List Byte) (hwf : WF o) (hfit : size o + l.length + 1 < 2 ^ 64) :
    (∃ o2, append o l = .ok o2 ∧ WF o2 ∧ size o2 = size o + l.length ∧
      content o2 = content o ++ l ∧ data o2 (size o2) = 0) ∨
    append o l = .error (Exn.bad_alloc, o) := by
  have h := append_bytes_cases o (of_list l) l.length hwf hfit
  rw [map_range_of_list] at h
  exact h

theorem append_ok (o : Obj) (l : List Byte) (hwf : WF o)
    (hroom : max (size o + l.length + 1) (2 * (capacity o + 1)) < o.mem.room) :
    ∃ o2, append o l = .ok o2 ∧ WF o2 ∧ size o2 = size o + l.length ∧
      content o2 = content o ++ l ∧ data o2 (size o2) = 0 := by
  have h := append_bytes_ok o (of_list l) l.length hwf hroom
  rw [map_range_of_list] at h
  exact h

/-- The content and the well-formedness of what a returning `append` leaves. -/
theorem append_returns (o o2 : Obj) (l : List Byte) (hwf : WF o)
    (hfit : size o + l.length + 1 < 2 ^ 64) (h : append o l = .ok o2) :
    WF o2 ∧ size o2 = size o + l.length ∧ content o2 = content o ++ l := by
  rcases append_cases o l hwf hfit with ⟨o3, e, hwf3, hsize, hc, _⟩ | he
  · rw [h] at e; cases e
    exact ⟨hwf3, hsize, hc⟩
  · rw [h] at he; cases he

/-! ### Several strings on one free store -/

@[simp] theorem World.obj_storage (w : World) (a : Nat) : (w.obj a).storage = w.objs a := rfl
@[simp] theorem World.obj_mem (w : World) (a : Nat) : (w.obj a).mem = w.mem := rfl
@[simp] theorem World.set_mem (w : World) (a : Nat) (s : Storage) : (w.set a s).mem = w.mem := rfl
@[simp] theorem World.put_mem (w : World) (a : Nat) (o : Obj) : (w.put a o).mem = o.mem := rfl

theorem World.set_objs_same (w : World) (a : Nat) (s : Storage) : (w.set a s).objs a = s := by
  simp [World.set]

theorem World.set_objs_ne (w : World) (a : Nat) (s : Storage) (x : Nat) (h : x ≠ a) :
    (w.set a s).objs x = w.objs x := by
  simp [World.set, h]

theorem World.put_objs_same (w : World) (a : Nat) (o : Obj) : (w.put a o).objs a = o.storage := by
  simp [World.put]

theorem World.put_objs_ne (w : World) (a : Nat) (o : Obj) (x : Nat) (h : x ≠ a) :
    (w.put a o).objs x = w.objs x := by
  simp [World.put, h]

theorem World.put_obj_same (w : World) (a : Nat) (o : Obj) : (w.put a o).obj a = o := by
  unfold World.obj
  rw [World.put_objs_same]
  rfl

/-- What is observed of a string depends on its storage block and, in the heap
shape, on the allocation its pointer addresses. -/
theorem observe_congr (o o2 : Obj) (hs : o2.storage = o.storage)
    (hb : is_heap o.storage = true →
      o2.mem.blocks (heap_ptr o.storage) = o.mem.blocks (heap_ptr o.storage)) :
    size o2 = size o ∧ capacity o2 = capacity o ∧ data o2 = data o ∧ content o2 = content o := by
  have hsize : size o2 = size o := by unfold size; rw [hs]
  have hcap : capacity o2 = capacity o := by unfold capacity; rw [hs]
  have hdata : data o2 = data o := by
    unfold data
    rw [hs]
    cases hh : is_heap o.storage
    · rfl
    · simp only [if_true]
      funext i
      unfold Mem.load
      rw [hb hh]
  refine ⟨hsize, hcap, hdata, ?_⟩
  unfold content
  rw [hsize, hdata]

theorem WF.transfer {o o2 : Obj} (hwf : WF o) (hs : o2.storage = o.storage)
    (hb : is_heap o.storage = true →
      o2.mem.blocks (heap_ptr o.storage) = o.mem.blocks (heap_ptr o.storage))
    (hok : o2.mem.OK) : WF o2 := by
  refine ⟨hok, ?_, ?_⟩
  · intro hh
    rw [hs] at hh ⊢
    exact hwf.sso hh
  · intro hh
    rw [hs] at hh ⊢
    rw [hb hh]
    exact hwf.heap hh

theorem is_heap_reset (o : Obj) (h : o.storage = reset_storage) :
    is_heap o.storage = false ∧ size o = 0 ∧ content o = [] ∧ data o (size o) = 0 := by
  have hh : is_heap o.storage = false := by rw [h]; exact is_heap_reset_storage
  have hsz : size o = 0 := by
    rw [size_of_sso hh, h]; rfl
  refine ⟨hh, hsz, ?_, ?_⟩
  · unfold content; rw [hsz]; rfl
  · rw [data_of_sso hh, hsz, h]; rfl

theorem WF.of_reset (o : Obj) (h : o.storage = reset_storage) (hok : o.mem.OK) : WF o := by
  have hh : is_heap o.storage = false := by rw [h]; exact is_heap_reset_storage
  apply WF.of_sso hok hh
  · rw [h]; decide
  · rw [h]; rfl

/-! ### Equality -/

theorem content_eq_iff (a b : Obj) :
    content a = content b ↔ size a = size b ∧ ∀ i, i < size a → data a i = data b i := by
  constructor
  · intro h
    have hsz : size a = size b := by rw [← content_length a, ← content_length b, h]
    refine ⟨hsz, ?_⟩
    intro i hi
    have := congrArg (fun l => l.getD i 0) h
    simp only at this
    rw [content_getD_lt a i hi, content_getD_lt b i (by omega)] at this
    exact this
  · rintro ⟨hsz, hd⟩
    apply list_eq_of_getD _ _ (by rw [content_length, content_length, hsz])
    intro i hi
    rw [content_length] at hi
    rw [content_getD_lt a i hi, content_getD_lt b i (by omega), hd i hi]

theorem operator_eq_iff (w : World) (a b : Nat) :
    operator_eq w a b = true ↔
      size (w.obj a) = size (w.obj b) ∧ content (w.obj a) = content (w.obj b) := by
  unfold operator_eq
  rw [Bool.and_eq_true, decide_eq_true_iff, traits_compare_eq_iff, content_eq_iff]
  constructor
  · rintro ⟨h1, h2⟩
    exact ⟨h1, h1, fun i hi => by have := h2 i hi; rwa [Nat.zero_add] at this⟩
  · rintro ⟨h1, _, h2⟩
    exact ⟨h1, fun i hi => by rw [Nat.zero_add]; exact h2 i hi⟩

/-! ### Swap -/

theorem swap_self (w : World) (a : Nat) : swap w a a = w := by
  unfold swap
  rw [if_pos rfl]

theorem swap_obj_this (w : World) (a b : Nat) (h : a ≠ b) : (swap w a b).obj a = w.obj b := by
  unfold swap copy_storage World.obj World.set
  rw [if_neg h]
  simp [h]

theorem swap_obj_other (w : World) (a b : Nat) (h : a ≠ b) : (swap w a b).obj b = w.obj a := by
  unfold swap copy_storage World.obj World.set
  rw [if_neg h]
  simp

theorem swap_obj_else (w : World) (a b x : Nat) (ha : x ≠ a) (hb : x ≠ b) :
    (swap w a b).obj x = w.obj x := by
  unfold swap copy_storage World.obj World.set
  by_cases h : a = b
  · rw [if_pos h]
  · rw [if_neg h]
    simp [ha, hb]

theorem swap_swap (w : World) (a b : Nat) : swap (swap w a b) a b = w := by
  by_cases h : a = b
  · subst h; rw [swap_self, swap_self]
  · have e : (swap (swap w a b) a b).objs = w.objs := by
      funext x
      by_cases hxa : x = a
      · subst hxa
        have := congrArg Obj.storage (swap_obj_this (swap w x b) x b h)
        simp only [World.obj_storage] at this
        rw [this]
        have := congrArg Obj.storage (swap_obj_other w x b h)
        simpa using this
      · by_cases hxb : x = b
        · subst hxb
          have := congrArg Obj.storage (swap_obj_other (swap w a x) a x h)
          simp only [World.obj_storage] at this
          rw [this]
          have := congrArg Obj.storage (swap_obj_this w a x h)
          simpa using this
        · have h1 := congrArg Obj.storage (swap_obj_else (swap w a b) a b x hxa hxb)
          have h2 := congrArg Obj.storage (swap_obj_else w a b x hxa hxb)
          simp only [World.obj_storage] at h1 h2
          rw [h1, h2]
    have em : (swap (swap w a b) a b).mem = w.mem := by
      unfold swap copy_storage
      rw [if_neg h]
      simp only [World.set_mem]
      rw [if_neg h]
      simp only [World.set_mem]
    cases w with
    | mk objs mem =>
      cases hw : swap (swap ⟨objs, mem⟩ a b) a b with
      | mk objs2 mem2 =>
        rw [hw] at e em
        simp only at e em
        rw [e, em]

/-! ### Move -/

theorem Mem.deallocate_blocks_ne (m : Mem) (p n a : Nat) (h : a ≠ p) :
    (m.deallocate p n).blocks a = m.blocks a := by
  unfold Mem.deallocate
  cases m.owns p n
  · rfl
  · show (m.set_block p none).blocks a = m.blocks a
    exact Mem.set_block_blocks_ne _ _ _ _ h

theorem Mem.OK.after_deallocate {m : Mem} (h : m.OK) {p n : Nat} {d : Bytes}
    (hb : m.blocks p = some ⟨n, d⟩) : (m.deallocate p n).OK := by
  rw [Mem.deallocate_eq m p n d hb]
  have hp := h.lt_next hb
  refine ⟨h.no_fault, h.arena, ?_⟩
  intro a ha
  have ha2 : m.next ≤ a := ha
  show (m.set_block p none).blocks a = none
  rw [Mem.set_block_blocks_ne _ _ _ _ (by omega)]
  exact h.fresh a ha2

/-- The free store after the string `o` has released its buffer, if it has
one. -/
theorem release_facts (o : Obj) (hwf : WF o) :
    (if is_heap o.storage then o.mem.deallocate (heap_ptr o.storage) (heap_capacity_raw o.storage)
      else o.mem).OK ∧
    ∀ a, (is_heap o.storage = true → a ≠ heap_ptr o.storage) →
      (if is_heap o.storage then
        o.mem.deallocate (heap_ptr o.storage) (heap_capacity_raw o.storage)
      else o.mem).blocks a = o.mem.blocks a := by
  cases hh : is_heap o.storage
  · exact ⟨hwf.mem_ok, fun _ _ => rfl⟩
  · obtain ⟨d, hv, _, _⟩ := hwf.heap_view hh
    simp only [if_true]
    exact ⟨hwf.mem_ok.after_deallocate hv.block_eq,
      fun a ha => Mem.deallocate_blocks_ne _ _ _ _ (ha trivial)⟩

theorem move_ctor_objs_this (w : World) (this other : Nat) (h : this ≠ other) :
    (move_ctor w this other).objs this = w.objs other := by
  simp [move_ctor, steal_storage, copy_storage, World.set, h, Ne.symm h]

theorem move_ctor_objs_other (w : World) (this other : Nat) :
    (move_ctor w this other).objs other = reset_storage := by
  simp [move_ctor, steal_storage, copy_storage, World.set]

theorem move_ctor_mem (w : World) (this other : Nat) : (move_ctor w this other).mem = w.mem := rfl

theorem move_assign_self (w : World) (a : Nat) : move_assign w a a = w := by
  unfold move_assign
  rw [if_pos rfl]

theorem move_assign_objs_this (w : World) (this rhs : Nat) (h : this ≠ rhs) :
    (move_assign w this rhs).objs this = w.objs rhs := by
  unfold move_assign
  rw [if_neg h]
  simp only [ite_self]
  cases is_heap (w.obj this).storage <;>
    simp [steal_storage, copy_storage, World.set, World.put, h, Ne.symm h]

theorem move_assign_objs_rhs (w : World) (this rhs : Nat) (h : this ≠ rhs) :
    (move_assign w this rhs).objs rhs = reset_storage := by
  unfold move_assign
  rw [if_neg h]
  simp only [ite_self]
  simp [steal_storage, copy_storage, World.set]

theorem move_assign_mem (w : World) (this rhs : Nat) (h : this ≠ rhs) :
    (move_assign w this rhs).mem =
      if is_heap (w.objs this) then
        w.mem.deallocate (heap_ptr (w.objs this)) (heap_capacity_raw (w.objs this))
      else w.mem := by
  unfold move_assign
  rw [if_neg h]
  simp only [ite_self]
  cases hh : is_heap (w.objs this) <;>
    simp [steal_storage, copy_storage, World.set, World.put, deallocate_buffer, hh]

/-- Move assignment between two distinct well-formed strings that share no
buffer: the destination is the source as it was, the source is the empty
inline string, and the free store is sound. -/
theorem move_assign_spec (w : World) (this rhs : Nat) (h : this ≠ rhs)
    (hdst : WF (w.obj this)) (hsrc : WF (w.obj rhs))
    (hna : NoAlias (w.obj this) (w.obj rhs)) :
    WF ((move_assign w this rhs).obj this) ∧
    ((move_assign w this rhs).obj this).storage = (w.obj rhs).storage ∧
    size ((move_assign w this rhs).obj this) = size (w.obj rhs) ∧
    capacity ((move_assign w this rhs).obj this) = capacity (w.obj rhs) ∧
    content ((move_assign w this rhs).obj this) = content (w.obj rhs) ∧
    WF ((move_assign w this rhs).obj rhs) ∧
    ((move_assign w this rhs).obj rhs).storage = reset_storage := by
  obtain ⟨hok, hblocks⟩ := release_facts (w.obj this) hdst
  simp only [World.obj_storage, World.obj_mem] at hok hblocks
  have hs : ((move_assign w this rhs).obj this).storage = (w.obj rhs).storage :=
    move_assign_objs_this w this rhs h
  have hb : is_heap (w.obj rhs).storage = true →
      ((move_assign w this rhs).obj this).mem.blocks (heap_ptr (w.obj rhs).storage) =
        (w.obj rhs).mem.blocks (heap_ptr (w.obj rhs).storage) := by
    intro hh
    simp only [World.obj_mem, World.obj_storage]
    rw [move_assign_mem w this rhs h]
    exact hblocks _ (fun hd => Ne.symm (hna hd hh))
  have hok2 : ((move_assign w this rhs).obj this).mem.OK := by
    simp only [World.obj_mem]
    rw [move_assign_mem w this rhs h]
    exact hok
  obtain ⟨h1, h2, _, h4⟩ := observe_congr (w.obj rhs) _ hs hb
  refine ⟨hsrc.transfer hs hb hok2, hs, h1, h2, h4, ?_, move_assign_objs_rhs w this rhs h⟩
  exact WF.of_reset _ (move_assign_objs_rhs w this rhs h) hok2


theorem world_ab_WF : WF (world_ab.obj addr_a) ∧ WF (world_ab.obj addr_b) := by
  have ha : WF (outcome (ctor_sv abcde mem0)) := ctor_sv_WF abcde mem0 mem0_OK (by decide)
  have hb : WF (outcome (ctor_sv forty_x (outcome (ctor_sv abcde mem0)).mem)) :=
    ctor_sv_WF forty_x _ ha.mem_ok (by decide)
  have eb : world_ab.obj addr_b = outcome (ctor_sv forty_x (outcome (ctor_sv abcde mem0)).mem) := by
    rfl
  refine ⟨?_, by rw [eb]; exact hb⟩
  have hs : (world_ab.obj addr_a).storage = (outcome (ctor_sv abcde mem0)).storage := by rfl
  have hm : (world_ab.obj addr_a).mem = (world_ab.obj addr_b).mem := rfl
  apply ha.transfer hs
  · intro hh
    have : is_heap (outcome (ctor_sv abcde mem0)).storage = false := by decide
    rw [this] at hh; cases hh
  · rw [hm, eb]; exact hb.mem_ok

theorem world_ab_NoAlias : NoAlias (world_ab.obj addr_a) (world_ab.obj addr_b) ∧
    NoAlias (world_ab.obj addr_b) (world_ab.obj addr_a) := by
  have : is_heap (world_ab.obj addr_a).storage = false := by decide
  constructor
  · intro h; rw [this] at h; cases h
  · intro _ h; rw [this] at h; cases h

/-! ### Copy -/

theorem copy_heap_throws (o : Obj) (rhs : Storage) (e : Exn) (o2 : Obj)
    (h : copy_heap o rhs = .error (e, o2)) : e = Exn.bad_alloc ∧ o2 = o := by
  unfold copy_heap at h
  simp only at h
  split at h
  · next e2 he => cases h; exact allocate_buffer_error _ _ _ _ he
  · cases h

theorem copy_heap_fail (o : Obj) (rhs : Storage) (hroom : ¬ heap_capacity_raw rhs < o.mem.room) :
    copy_heap o rhs = .error (Exn.bad_alloc, o) := by
  unfold copy_heap
  simp only
  rw [allocate_buffer_fail o _ hroom]

/-- The copy of a heap string into a fresh buffer: the buffer has the raw
capacity of the source and holds its bytes and a terminator, and no other
allocation is touched. -/
theorem copy_heap_ok (o : Obj) (rhs : Storage) (q sz c : Nat) (d : Bytes)
    (hq : heap_ptr rhs = q) (hsz : heap_size rhs = sz) (hc : heap_capacity_raw rhs = c)
    (hb : o.mem.blocks q = some ⟨c, d⟩) (hok : o.mem.OK) (hlt : sz < c)
    (hroom : c < o.mem.room) :
    ∃ o2 d2, copy_heap o rhs = .ok o2 ∧ HeapView o2 o.mem.next sz c d2 ∧ o2.mem.OK ∧
      (∀ i, i < sz → d2 i = d i) ∧ d2 sz = 0 ∧
      (∀ a, a ≠ o.mem.next → o2.mem.blocks a = o.mem.blocks a) := by
  have hlim := hok.arena
  have hqn := hok.lt_next hb
  have hr : o.mem.next + c < 2 ^ 64 := by unfold Mem.room at hroom; omega
  have hb1 : (o.mem.grown c).blocks q = some ⟨c, d⟩ := by
    rw [Mem.grown_blocks_ne _ _ _ (by omega)]; exact hb
  let m2 : Mem := (o.mem.grown c).set_block o.mem.next
    (some ⟨c, blit (blit o.mem.junk 0 sz ((o.mem.grown c).load q)) sz 1 (fill_src 0)⟩)
  have e : copy_heap o rhs = .ok (adopt { storage := o.storage, mem := m2 } o.mem.next sz c) := by
    unfold copy_heap
    simp only
    rw [hc, hsz, hq, allocate_buffer_eq o _ hroom]
    simp only
    have hck : ptr_check { storage := o.storage, mem := o.mem.grown c } q 0 sz =
        { storage := o.storage, mem := o.mem.grown c } := by
      unfold ptr_check
      simp only
      rw [Mem.check_eq _ _ _ _ (Mem.in_bounds_of_block _ _ _ _ _ _ hb1 (Or.inr (by omega)))]
    rw [hck, write_put_eq _ _ c _ o.mem.junk _ (by simp) hlt]
  have hblk : m2.blocks o.mem.next =
      some ⟨c, blit (blit o.mem.junk 0 sz ((o.mem.grown c).load q)) sz 1 (fill_src 0)⟩ := by
    simp [m2]
  have hsz64 : sz < 2 ^ 64 := by omega
  refine ⟨_, _, e, adopt_view _ _ _ _ _ (by omega) hsz64 (by omega) hblk, ?_, ?_, ?_, ?_⟩
  · show m2.OK
    exact (hok.after_grown c).after_set_block _ _ (by rw [Mem.grown_next]; omega)
  · intro i hi
    rw [blit_of_lt _ _ _ _ _ hi, blit_apply, if_pos (by omega),
      Mem.load_of_block _ _ _ _ hb1, if_pos (by omega)]
    simp
  · rw [blit_fill_at]
  · intro a ha
    show m2.blocks a = o.mem.blocks a
    simp only [m2]
    rw [Mem.set_block_blocks_ne _ _ _ _ ha, Mem.grown_blocks_ne _ _ _ ha]


theorem World.put_obj_self (w : World) (a : Nat) : w.put a (w.obj a) = w := by
  cases w with
  | mk objs mem =>
    unfold World.put World.obj
    simp only
    congr 1
    funext x
    by_cases h : x = a
    · rw [if_pos h, h]
    · rw [if_neg h]

/-- The effect of the statement shared by copy construction and copy
assignment, for a well-formed source `rhs` and another object `this`: it
returns with `this` a well-formed copy in the mode and with the capacity of
the source, in a buffer of its own, and nothing else changed; or the source
is a heap string, the allocator lacks room for its raw capacity, and
`bad_alloc` is thrown from the world as it was. -/
theorem copy_from_cases (w : World) (this rhs : Nat) (hsrc : WF (w.obj rhs)) :
    (∃ w1, copy_from w this rhs = .ok w1 ∧ w1.mem.OK ∧
      (∀ a, a ≠ this → w1.objs a = w.objs a) ∧
      (∀ q, q < w.mem.next → w1.mem.blocks q = w.mem.blocks q) ∧
      WF (w1.obj this) ∧
      is_heap (w1.objs this) = is_heap (w.objs rhs) ∧
      size (w1.obj this) = size (w.obj rhs) ∧
      capacity (w1.obj this) = capacity (w.obj rhs) ∧
      content (w1.obj this) = content (w.obj rhs) ∧
      (is_heap (w.objs rhs) = true →
        heap_ptr (w1.objs this) = w.mem.next ∧
        heap_capacity_raw (w1.objs this) = heap_capacity_raw (w.objs rhs))) ∨
    (copy_from w this rhs = .error (Exn.bad_alloc, w) ∧ is_heap (w.objs rhs) = true ∧
      ¬ heap_capacity_raw (w.objs rhs) < w.mem.room) := by
  cases hh : is_heap (w.objs rhs)
  · left
    have e : copy_from w this rhs = .ok (copy_storage w this rhs) := by
      unfold copy_from
      rw [is_sso_eq, hh]
      rfl
    have hobj : (copy_storage w this rhs).obj this = w.obj rhs := by
      unfold copy_storage World.obj
      rw [World.set_objs_same]
      rfl
    have hst : (copy_storage w this rhs).objs this = w.objs rhs := World.set_objs_same _ _ _
    refine ⟨_, e, hsrc.mem_ok, fun a ha => World.set_objs_ne _ _ _ _ ha, fun _ _ => rfl, ?_, ?_,
      ?_, ?_, ?_, fun h => by cases h⟩
    · rw [hobj]; exact hsrc
    · rw [hst, hh]
    · rw [hobj]
    · rw [hobj]
    · rw [hobj]
  · obtain ⟨d, hv, hlt, hz⟩ := hsrc.heap_view hh
    simp only [World.obj_storage] at hv hlt hz
    have hblk : (w.obj this).mem.blocks (heap_ptr (w.objs rhs)) =
        some ⟨heap_capacity_raw (w.objs rhs), d⟩ := hv.block_eq
    by_cases hroom : heap_capacity_raw (w.objs rhs) < w.mem.room
    · left
      obtain ⟨o2, d2, e2, hv2, hok2, hd, hz2, hkeep⟩ :=
        copy_heap_ok (w.obj this) (w.objs rhs) _ _ _ d rfl rfl rfl hblk hsrc.mem_ok hlt hroom
      simp only [World.obj_mem] at hv2 hkeep
      have e : copy_from w this rhs = .ok (w.put this o2) := by
        unfold copy_from
        rw [is_sso_eq, hh, e2]
        rfl
      have hobj : (w.put this o2).obj this = o2 := World.put_obj_same w this o2
      have hwf2 : WF o2 := WF.of_heap_view hv2 hok2 hlt hz2
      have hsize : size o2 = size (w.obj rhs) := by rw [hv2.size_obj, hv.size_obj]
      refine ⟨_, e, hok2, fun a ha => World.put_objs_ne _ _ _ _ ha, ?_, ?_, ?_, ?_, ?_, ?_, ?_⟩
      · intro q hq
        exact hkeep q (by omega)
      · rw [hobj]; exact hwf2
      · rw [World.put_objs_same, hv2.is_heap_eq]
      · rw [hobj]; exact hsize
      · rw [hobj, hv2.capacity_obj, hv.capacity_obj]
      · rw [hobj]
        rw [content_eq_iff]
        refine ⟨hsize, ?_⟩
        intro i hi
        rw [hv2.size_obj] at hi
        rw [hv2.data_obj, if_pos (by omega), hd i hi, hv.data_obj, if_pos (by omega)]
      · intro _
        rw [World.put_objs_same]
        exact ⟨hv2.ptr_eq, hv2.cap_eq⟩
    · right
      refine ⟨?_, rfl, hroom⟩
      unfold copy_from
      rw [is_sso_eq, hh, copy_heap_fail (w.obj this) (w.objs rhs) hroom]
      simp only [Bool.not_true, Bool.false_eq_true, if_false]
      rw [World.put_obj_self]

/-- The source of a copy after the copy: the string it was. -/
theorem copy_source_kept (w w1 : World) (rhs : Nat) (hsrc : WF (w.obj rhs))
    (hobjs : w1.objs rhs = w.objs rhs) (hok : w1.mem.OK)
    (hkeep : ∀ q, q < w.mem.next → w1.mem.blocks q = w.mem.blocks q) :
    WF (w1.obj rhs) ∧ size (w1.obj rhs) = size (w.obj rhs) ∧
      capacity (w1.obj rhs) = capacity (w.obj rhs) ∧
      content (w1.obj rhs) = content (w.obj rhs) := by
  have hb : is_heap (w.obj rhs).storage = true →
      (w1.obj rhs).mem.blocks (heap_ptr (w.obj rhs).storage) =
        (w.obj rhs).mem.blocks (heap_ptr (w.obj rhs).storage) := by
    intro hh
    obtain ⟨d, hv, _, _⟩ := hsrc.heap_view hh
    exact hkeep _ (hsrc.mem_ok.lt_next hv.block_eq)
  obtain ⟨h1, h2, _, h4⟩ := observe_congr (w.obj rhs) (w1.obj rhs) hobjs hb
  exact ⟨hsrc.transfer hobjs hb hok, h1, h2, h4⟩


theorem copied_of_copy_from (w0 w1 : World) (this rhs : Nat) (hne : this ≠ rhs)
    (hsrc : WF (w0.obj rhs)) (hok : w1.mem.OK)
    (hobjs : ∀ a, a ≠ this → w1.objs a = w0.objs a)
    (hkeep : ∀ q, q < w0.mem.next → w1.mem.blocks q = w0.mem.blocks q)
    (hwf : WF (w1.obj this))
    (hmode : is_heap (w1.objs this) = is_heap (w0.objs rhs))
    (hsize : size (w1.obj this) = size (w0.obj rhs))
    (hcap : capacity (w1.obj this) = capacity (w0.obj rhs))
    (hc : content (w1.obj this) = content (w0.obj rhs))
    (hptr : is_heap (w0.objs rhs) = true → heap_ptr (w1.objs this) = w0.mem.next) :
    Copied w0 w1 this rhs := by
  have hr := hobjs rhs (Ne.symm hne)
  obtain ⟨k1, k2, _, k4⟩ := copy_source_kept w0 w1 rhs hsrc hr hok hkeep
  refine ⟨hwf, k1, hr, k2, k4, hmode, hsize, hcap, hc, ?_⟩
  intro _ hh
  simp only [World.obj_storage] at hh ⊢
  rw [hr] at hh ⊢
  obtain ⟨d, hv, _, _⟩ := hsrc.heap_view hh
  have := hsrc.mem_ok.lt_next hv.block_eq
  simp only [World.obj_storage, World.obj_mem] at this
  rw [hptr hh]
  omega

/-- The effect of copy construction from a well-formed source. -/
theorem copy_ctor_cases (w : World) (this other : Nat) (hne : this ≠ other)
    (hsrc : WF (w.obj other)) :
    (∃ w1, copy_ctor w this other = .ok w1 ∧ Copied w w1 this other) ∨
    (copy_ctor w this other = .error (Exn.bad_alloc, w.set this reset_storage) ∧
      is_heap (w.objs other) = true ∧ ¬ heap_capacity_raw (w.objs other) < w.mem.room) := by
  have ho : (w.set this reset_storage).obj other = w.obj other := by
    unfold World.obj
    rw [World.set_objs_ne _ _ _ _ (Ne.symm hne)]
    rfl
  have hos : (w.set this reset_storage).objs other = w.objs other :=
    World.set_objs_ne _ _ _ _ (Ne.symm hne)
  have hsrc0 : WF ((w.set this reset_storage).obj other) := by rw [ho]; exact hsrc
  unfold copy_ctor
  rcases copy_from_cases (w.set this reset_storage) this other hsrc0 with
    ⟨w1, e, hok, hobjs, hkeep, hwf, hmode, hsize, hcap, hc, hptr⟩ | ⟨e, hh, hroom⟩
  · left
    have hcp := copied_of_copy_from _ w1 this other hne hsrc0 hok hobjs hkeep hwf hmode hsize
      hcap hc (fun h => (hptr h).1)
    refine ⟨w1, e, ?_⟩
    obtain ⟨a1, a2, a3, a4, a5, a6, a7, a8, a9, a10⟩ := hcp
    rw [ho] at a4 a5 a7 a8 a9
    rw [hos] at a3 a6
    exact ⟨a1, a2, a3, a4, a5, a6, a7, a8, a9, a10⟩
  · right
    rw [hos] at hh hroom
    exact ⟨e, hh, hroom⟩

theorem Mem.deallocate_next (m : Mem) (p n : Nat) : (m.deallocate p n).next = m.next := by
  unfold Mem.deallocate
  cases m.owns p n <;> rfl

theorem Mem.deallocate_limit (m : Mem) (p n : Nat) : (m.deallocate p n).limit = m.limit := by
  unfold Mem.deallocate
  cases m.owns p n <;> rfl


theorem copy_assign_eq (w : World) (this rhs : Nat) (hne : this ≠ rhs) :
    copy_assign w this rhs = copy_from (released w this) this rhs := by
  unfold copy_assign released
  rw [if_neg hne]

theorem copy_assign_self (w : World) (a : Nat) : copy_assign w a a = .ok w := by
  unfold copy_assign
  rw [if_pos rfl]

theorem released_objs (w : World) (this : Nat) : (released w this).objs = w.objs := by
  funext x
  unfold released World.put
  simp only
  by_cases h : x = this
  · rw [if_pos h, h]
    cases is_heap (w.obj this).storage <;> rfl
  · rw [if_neg h]

theorem released_mem (w : World) (this : Nat) :
    (released w this).mem =
      if is_heap (w.obj this).storage then
        (w.obj this).mem.deallocate (heap_ptr (w.obj this).storage)
          (heap_capacity_raw (w.obj this).storage)
      else (w.obj this).mem := by
  unfold released
  rw [World.put_mem]
  cases is_heap (w.obj this).storage <;> rfl

theorem released_next (w : World) (this : Nat) : (released w this).mem.next = w.mem.next := by
  rw [released_mem]
  cases is_heap (w.obj this).storage
  · rfl
  · simp only [if_true]
    rw [Mem.deallocate_next]
    rfl

theorem released_room (w : World) (this : Nat) : (released w this).mem.room = w.mem.room := by
  have h1 := released_next w this
  have h2 : (released w this).mem.limit = w.mem.limit := by
    rw [released_mem]
    cases is_heap (w.obj this).storage
    · rfl
    · simp only [if_true]
      rw [Mem.deallocate_limit]
      rfl
  unfold Mem.room
  rw [h1, h2]

/-- The source of a copy assignment, once the destination has released its
buffer: the string it was. -/
theorem released_source (w : World) (this rhs : Nat) (hdst : WF (w.obj this))
    (hsrc : WF (w.obj rhs)) (hna : NoAlias (w.obj this) (w.obj rhs)) :
    WF ((released w this).obj rhs) ∧ (released w this).objs rhs = w.objs rhs ∧
      size ((released w this).obj rhs) = size (w.obj rhs) ∧
      capacity ((released w this).obj rhs) = capacity (w.obj rhs) ∧
      content ((released w this).obj rhs) = content (w.obj rhs) := by
  obtain ⟨hok, hblocks⟩ := release_facts (w.obj this) hdst
  rw [← released_mem] at hok hblocks
  have hs : ((released w this).obj rhs).storage = (w.obj rhs).storage := by
    simp only [World.obj_storage]
    rw [released_objs]
  have hb : is_heap (w.obj rhs).storage = true →
      ((released w this).obj rhs).mem.blocks (heap_ptr (w.obj rhs).storage) =
        (w.obj rhs).mem.blocks (heap_ptr (w.obj rhs).storage) := by
    intro hh
    exact hblocks _ (fun hd => Ne.symm (hna hd hh))
  obtain ⟨h1, h2, _, h4⟩ := observe_congr (w.obj rhs) _ hs hb
  exact ⟨hsrc.transfer hs hb hok, by rw [released_objs], h1, h2, h4⟩

/-- The effect of copy assignment between two distinct well-formed strings
that share no buffer. -/
theorem copy_assign_cases (w : World) (this rhs : Nat) (hne : this ≠ rhs)
    (hdst : WF (w.obj this)) (hsrc : WF (w.obj rhs))
    (hna : NoAlias (w.obj this) (w.obj rhs)) :
    (∃ w1, copy_assign w this rhs = .ok w1 ∧ Copied w w1 this rhs) ∨
    (copy_assign w this rhs = .error (Exn.bad_alloc, released w this) ∧
      is_heap (w.objs rhs) = true ∧ ¬ heap_capacity_raw (w.objs rhs) < w.mem.room) := by
  obtain ⟨hsrc0, hos, hsz0, hcap0, hc0⟩ := released_source w this rhs hdst hsrc hna
  rw [copy_assign_eq w this rhs hne]
  rcases copy_from_cases (released w this) this rhs hsrc0 with
    ⟨w1, e, hok, hobjs, hkeep, hwf, hmode, hsize, hcap, hc, hptr⟩ | ⟨e, hh, hroom⟩
  · left
    have hcp := copied_of_copy_from _ w1 this rhs hne hsrc0 hok hobjs hkeep hwf hmode hsize
      hcap hc (fun h => (hptr h).1)
    refine ⟨w1, e, ?_⟩
    obtain ⟨a1, a2, a3, a4, a5, a6, a7, a8, a9, a10⟩ := hcp
    rw [hsz0] at a4 a7
    rw [hc0] at a5 a9
    rw [hcap0] at a8
    rw [hos] at a3 a6
    exact ⟨a1, a2, a3, a4, a5, a6, a7, a8, a9, a10⟩
  · right
    rw [hos, released_room] at hroom
    rw [hos] at hh
    exact ⟨e, hh, hroom⟩


theorem Copied.copy_facts {w w1 : World} {this rhs : Nat} (h : Copied w w1 this rhs) :
    operator_eq w1 this rhs = true ∧ size (w1.obj this) = size (w.obj rhs) ∧
      content (w1.obj this) = content (w.obj rhs) ∧
      data (w1.obj this) (size (w1.obj this)) = 0 ∧
      w1.objs rhs = w.objs rhs ∧ size (w1.obj rhs) = size (w.obj rhs) ∧
      content (w1.obj rhs) = content (w.obj rhs) := by
  refine ⟨?_, h.size_eq, h.content_eq, h.dest_wf.terminated, h.source_kept, h.source_size,
    h.source_content⟩
  rw [operator_eq_iff]
  exact ⟨by rw [h.size_eq, h.source_size], by rw [h.content_eq, h.source_content]⟩

theorem Copied.mode_facts {w w1 : World} {this rhs : Nat} (h : Copied w w1 this rhs)
    (hsrc : WF (w.obj rhs)) :
    is_heap (w1.obj this).storage = is_heap (w.obj rhs).storage ∧
      capacity (w1.obj this) = capacity (w.obj rhs) ∧
      (SSO_ReservedBytes - 1 < size (w.obj rhs) → is_heap (w1.obj this).storage = true) ∧
      (is_heap (w.obj rhs).storage = false →
        is_heap (w1.obj this).storage = false ∧ size (w.obj rhs) ≤ SSO_ReservedBytes - 1) ∧
      NoAlias (w1.obj this) (w1.obj rhs) := by
  have hm : is_heap (w1.obj this).storage = is_heap (w.obj rhs).storage := h.mode_eq
  have hinl : is_heap (w.obj rhs).storage = false → size (w.obj rhs) ≤ SSO_ReservedBytes - 1 := by
    intro hh
    rw [size_of_sso hh]
    exact (hsrc.sso hh).1
  refine ⟨hm, h.capacity_eq, ?_, ?_, h.own_buffer⟩
  · intro hs
    rw [hm]
    cases hh : is_heap (w.obj rhs).storage
    · have := hinl hh; omega
    · rfl
  · intro hh
    exact ⟨by rw [hm, hh], hinl hh⟩

theorem world_short_heap_WF :
    WF (world_short_heap.obj addr_a) ∧ WF (world_short_heap.obj addr_b) ∧
      NoAlias (world_short_heap.obj addr_b) (world_short_heap.obj addr_a) := by
  have ea : world_short_heap.obj addr_a = str_forty_x_resized := by rfl
  have hb : WF (outcome (ctor_sv [120, 120, 120] str_forty_x_resized.mem)) := by
    obtain ⟨o, e, hwf⟩ := ctor_bytes_small_WF (of_list [120, 120, 120]) 3 str_forty_x_resized.mem
      (by omega) str_forty_x_resized_WF.mem_ok
    unfold ctor_sv
    rw [show ([120, 120, 120] : List Byte).length = 3 from rfl, e]
    exact hwf
  have eb : world_short_heap.obj addr_b =
      outcome (ctor_sv [120, 120, 120] str_forty_x_resized.mem) := by rfl
  refine ⟨by rw [ea]; exact str_forty_x_resized_WF, by rw [eb]; exact hb, ?_⟩
  intro h
  have : is_heap (world_short_heap.obj addr_b).storage = false := by decide
  rw [this] at h; cases h

theorem mem_tight_OK : mem_tight.OK := Mem.init_OK _ _ _ (by decide)

theorem world_tight_WF :
    WF (world_tight.obj addr_a) ∧ WF (world_tight.obj addr_b) ∧
      NoAlias (world_tight.obj addr_a) (world_tight.obj addr_b) := by
  have ha : WF (outcome (ctor_sv forty_x mem_tight)) :=
    ctor_sv_WF forty_x mem_tight mem_tight_OK (by decide)
  have hb : WF (outcome (ctor_sv (List.replicate 40 121) (outcome (ctor_sv forty_x mem_tight)).mem)) :=
    ctor_sv_WF _ _ ha.mem_ok (by decide)
  have eb : world_tight.obj addr_b =
      outcome (ctor_sv (List.replicate 40 121) (outcome (ctor_sv forty_x mem_tight)).mem) := by rfl
  have hs : (world_tight.obj addr_a).storage = (outcome (ctor_sv forty_x mem_tight)).storage := by
    rfl
  have hm : (world_tight.obj addr_a).mem = (world_tight.obj addr_b).mem := rfl
  refine ⟨?_, by rw [eb]; exact hb, ?_⟩
  · apply ha.transfer hs
    · intro _; rfl
    · rw [hm, eb]; exact hb.mem_ok
  · intro _ _
    decide

/-! ### Substring -/

theorem ctor_sv_alloc_eq (src : Bytes) (len : Nat) (m : Mem) :
    ctor_sv_alloc src len m = ctor_bytes src len m := by
  unfold ctor_sv_alloc ctor_bytes
  by_cases h : len ≤ sso_max_size
  · have h29 : len ≤ 29 := by
      simpa [sso_max_size, sso_capacity_bytes, SSO_ReservedBytes] using h
    rw [if_pos h, if_pos h]
    simp only
    rw [sso_write_eq _ _ _ _ (Or.inr (by omega)), sso_put_eq _ _ _ (by omega),
      sso_put_eq _ _ _ (by omega)]
    simp only
    congr 2
    funext i
    rw [set_sso_tag0_apply, blit_apply, blit_apply, set_sso_tag0_apply]
    by_cases h31 : i = 31
    · subst h31
      rw [if_pos rfl, if_neg (by omega), if_pos rfl]
    · rw [if_neg h31, if_neg h31]
  · rw [if_neg h, if_neg h]

theorem ctor_bytes_throws (src : Bytes) (len : Nat) (m : Mem) (e : Exn) (o : Obj)
    (h : ctor_bytes src len m = .error (e, o)) : e = Exn.bad_alloc := by
  unfold ctor_bytes at h
  simp only at h
  split at h
  · cases h
  · split at h
    · next e2 he => cases h; exact (allocate_buffer_error _ _ _ _ he).1
    · cases h

theorem ctor_bytes_fail (src : Bytes) (len : Nat) (m : Mem) (hlen : 29 < len)
    (hfit : len + 1 < 2 ^ 64) (hroom : ¬ len + 1 < m.room) :
    ctor_bytes src len m = .error (Exn.bad_alloc, ⟨reset_storage, m⟩) := by
  have hadd : add64 len 1 = len + 1 := add64_of_lt _ _ hfit
  unfold ctor_bytes
  rw [if_neg (by simp [sso_max_size, sso_capacity_bytes, SSO_ReservedBytes]; omega), hadd]
  simp only
  rw [allocate_buffer_fail _ _ hroom]

/-- Construction of a heap string leaves every other allocation as it was. -/
theorem ctor_bytes_large_keeps (src : Bytes) (len : Nat) (m : Mem) (hlen : 29 < len) (hm : m.OK)
    (hroom : len + 1 < m.room) :
    ∃ o d, ctor_bytes src len m = .ok o ∧ HeapView o m.next len (len + 1) d ∧ o.mem.OK ∧
      (∀ i, i < len → d i = src i) ∧ d len = 0 ∧
      (∀ a, a ≠ m.next → o.mem.blocks a = m.blocks a) := by
  have hlim := hm.arena
  have hr : m.next + (len + 1) < 2 ^ 64 := by unfold Mem.room at hroom; omega
  have hadd : add64 len 1 = len + 1 := by unfold add64; omega
  have e : ctor_bytes src len m = .ok
      (adopt { storage := reset_storage, mem := ((m.grown (len + 1)).set_block m.next
        (some ⟨len + 1, blit (blit m.junk 0 len src) len 1 (fill_src 0)⟩)) }
        m.next len (len + 1)) := by
    unfold ctor_bytes
    rw [if_neg (by simp [sso_max_size, sso_capacity_bytes, SSO_ReservedBytes]; omega), hadd]
    simp only
    rw [allocate_buffer_eq _ _ hroom]
    simp only
    rw [write_put_eq _ _ (len + 1) _ m.junk _ (by simp) (by omega)]
  refine ⟨_, blit (blit m.junk 0 len src) len 1 (fill_src 0), e, ?_, ?_, ?_, ?_, ?_⟩
  · apply adopt_view _ _ _ _ _ (by omega) (by omega) (by omega)
    simp
  · exact (hm.after_grown _).after_set_block _ _ (by simp; omega)
  · intro i hi
    rw [blit_of_lt _ _ _ _ _ hi, blit_zero_of_lt _ _ _ _ hi]
  · rw [blit_fill_at]
  · intro a ha
    show (Mem.set_block _ m.next _).blocks a = m.blocks a
    rw [Mem.set_block_blocks_ne _ _ _ _ ha, Mem.grown_blocks_ne _ _ _ ha]

theorem shift_src_zero (src : Bytes) : shift_src src 0 = src := by
  funext i
  rw [shift_src_apply, Nat.zero_add]

/-- The effect of `substr(0, size())` on a well-formed string: the string
returned is a well-formed string with the same content, the receiver is the
string it was, and no access is outside a buffer; or the allocator lacks
room for `size() + 1` bytes and `bad_alloc` is thrown from the world as it
was. -/
theorem substr_whole_cases (w : World) (this ret : Nat) (hne : ret ≠ this)
    (hwf : WF (w.obj this)) :
    (∃ w1, substr w this ret 0 (size (w.obj this)) = .ok w1 ∧ WF (w1.obj ret) ∧
      WF (w1.obj this) ∧ w1.objs this = w.objs this ∧
      size (w1.obj ret) = size (w.obj this) ∧
      content (w1.obj ret) = content (w.obj this) ∧
      size (w1.obj this) = size (w.obj this) ∧
      content (w1.obj this) = content (w.obj this)) ∨
    (substr w this ret 0 (size (w.obj this)) = .error (Exn.bad_alloc, w) ∧
      29 < size (w.obj this) ∧ ¬ size (w.obj this) + 1 < w.mem.room) := by
  have hs := hwf.succ_size_lt
  have hnp : npos = 2 ^ 64 - 1 := rfl
  have hadd : add64 0 (size (w.obj this)) = size (w.obj this) := by
    rw [add64_of_lt _ _ (by omega)]; omega
  have hcount : ¬ (size (w.obj this) = npos ∨ add64 0 (size (w.obj this)) > size (w.obj this)) := by
    rw [hadd]; omega
  have e0 : substr w this ret 0 (size (w.obj this)) =
      match ctor_bytes (data (w.obj this)) (size (w.obj this)) w.mem with
      | .error e => .error (e.1, w)
      | .ok r => .ok (w.put ret (data_check r (w.obj this).storage 0 (size (w.obj this)))) := by
    unfold substr
    simp only
    rw [if_neg (by omega), if_neg hcount, shift_src_zero, ctor_sv_alloc_eq]
  rw [e0]
  -- the read of the receiver's bytes is inside its buffer, in any free store that keeps it
  have hread : ∀ r : Obj, (is_heap (w.objs this) = true →
      r.mem.blocks (heap_ptr (w.objs this)) = w.mem.blocks (heap_ptr (w.objs this))) →
      data_check r (w.obj this).storage 0 (size (w.obj this)) = r := by
    intro r hr
    unfold data_check
    cases hh : is_heap (w.obj this).storage
    · have := (hwf.sso hh).1
      simp only [sso_max_size, sso_capacity_bytes, SSO_ReservedBytes] at this
      rw [size_of_sso hh]
      exact sso_check_eq r 0 _ (Or.inr (by omega))
    · obtain ⟨d, hv, hlt, _⟩ := hwf.heap_view hh
      simp only [if_true]
      unfold ptr_check
      have hb : r.mem.blocks (heap_ptr (w.obj this).storage) =
          some ⟨heap_capacity_raw (w.obj this).storage, d⟩ := by
        rw [World.obj_storage, hr hh]; exact hv.block_eq
      rw [Mem.check_eq _ _ _ _ (Mem.in_bounds_of_block _ _ _ _ _ _ hb
        (Or.inr (by rw [hv.size_obj]; omega)))]
  have hkept : ∀ r : Obj, r.mem.OK → (∀ q, q < w.mem.next → r.mem.blocks q = w.mem.blocks q) →
      WF ((w.put ret r).obj this) ∧ (w.put ret r).objs this = w.objs this ∧
      size ((w.put ret r).obj this) = size (w.obj this) ∧
      content ((w.put ret r).obj this) = content (w.obj this) := by
    intro r hok hq
    have ho : (w.put ret r).objs this = w.objs this := World.put_objs_ne _ _ _ _ (Ne.symm hne)
    obtain ⟨k1, k2, _, k4⟩ := copy_source_kept w (w.put ret r) this hwf ho hok hq
    exact ⟨k1, ho, k2, k4⟩
  by_cases hsmall : size (w.obj this) ≤ 29
  · left
    obtain ⟨r, e, hmem, hm, hl, hd, hz⟩ :=
      ctor_bytes_small (data (w.obj this)) (size (w.obj this)) w.mem hsmall
    rw [e]
    simp only
    rw [hread r (fun _ => by rw [hmem])]
    have hsz : size r = size (w.obj this) := by rw [size_of_sso hm, hl]
    obtain ⟨k1, k2, k3, k4⟩ := hkept r (by rw [hmem]; exact hwf.mem_ok) (fun q _ => by rw [hmem])
    refine ⟨_, rfl, ?_, k1, k2, ?_, ?_, k3, k4⟩
    · rw [World.put_obj_same]
      exact WF.of_sso (by rw [hmem]; exact hwf.mem_ok) hm (by omega) (by rw [hl]; exact hz)
    · rw [World.put_obj_same]; exact hsz
    · rw [World.put_obj_same, content_eq_iff]
      refine ⟨hsz, ?_⟩
      intro i hi
      rw [data_of_sso hm, hd i (by omega)]
  · by_cases hroom : size (w.obj this) + 1 < w.mem.room
    · left
      obtain ⟨r, d, e, hv, hok, hd, hz, hkeep⟩ :=
        ctor_bytes_large_keeps (data (w.obj this)) (size (w.obj this)) w.mem (by omega)
          hwf.mem_ok hroom
      rw [e]
      simp only
      have hq : ∀ q, q < w.mem.next → r.mem.blocks q = w.mem.blocks q :=
        fun q hq => hkeep q (by omega)
      have hrd : data_check r (w.obj this).storage 0 (size (w.obj this)) = r := by
        apply hread r
        intro hh
        obtain ⟨d0, hv0, _, _⟩ := hwf.heap_view hh
        exact hq _ (hwf.mem_ok.lt_next hv0.block_eq)
      rw [hrd]
      obtain ⟨k1, k2, k3, k4⟩ := hkept r hok hq
      have hsz : size r = size (w.obj this) := hv.size_obj
      refine ⟨_, rfl, ?_, k1, k2, ?_, ?_, k3, k4⟩
      · rw [World.put_obj_same]
        exact WF.of_heap_view hv hok (by omega) hz
      · rw [World.put_obj_same]; exact hsz
      · rw [World.put_obj_same, content_eq_iff]
        refine ⟨hsz, ?_⟩
        intro i hi
        rw [hsz] at hi
        rw [hv.data_obj, if_pos (by omega), hd i hi]
    · right
      rw [ctor_bytes_fail _ _ _ (by omega) hs hroom]
      exact ⟨rfl, by omega, hroom⟩

/-! ### Trimming -/

theorem ltrim_loop_spec (d : Bytes) (sz : Nat) (cs : List Byte) (fuel i : Nat) (hi : i ≤ sz)
    (hf : sz - i ≤ fuel) :
    i ≤ ltrim_loop d sz cs fuel i ∧ ltrim_loop d sz cs fuel i ≤ sz ∧
      (∀ j, i ≤ j → j < ltrim_loop d sz cs fuel i → d j ∈ cs) ∧
      (ltrim_loop d sz cs fuel i < sz → d (ltrim_loop d sz cs fuel i) ∉ cs) := by
  induction fuel generalizing i with
  | zero =>
    have : i = sz := by omega
    subst this
    unfold ltrim_loop
    exact ⟨le_refl _, le_refl _, fun j h1 h2 => by omega, fun h => by omega⟩
  | succ fuel ih =>
    unfold ltrim_loop
    by_cases hc : i < sz ∧ d i ∈ cs
    · rw [if_pos hc]
      obtain ⟨h1, h2, h3, h4⟩ := ih (i + 1) (by omega) (by omega)
      refine ⟨by omega, h2, ?_, h4⟩
      intro j hj1 hj2
      rcases Nat.eq_or_lt_of_le hj1 with he | hl
      · rw [← he]; exact hc.2
      · exact h3 j hl hj2
    · rw [if_neg hc]
      refine ⟨le_refl _, hi, fun j h1 h2 => by omega, ?_⟩
      intro hlt hm
      exact hc ⟨hlt, hm⟩

theorem rtrim_loop_spec (d : Bytes) (cs : List Byte) (n : Nat) :
    rtrim_loop d cs n ≤ n ∧
      (∀ j, rtrim_loop d cs n ≤ j → j < n → d j ∈ cs) ∧
      (0 < rtrim_loop d cs n → d (rtrim_loop d cs n - 1) ∉ cs) := by
  induction n with
  | zero =>
    unfold rtrim_loop
    exact ⟨le_refl _, fun j h1 h2 => by omega, fun h => by omega⟩
  | succ n ih =>
    unfold rtrim_loop
    by_cases hc : d n ∈ cs
    · rw [if_pos hc]
      obtain ⟨h1, h2, h3⟩ := ih
      refine ⟨by omega, ?_, h3⟩
      intro j hj1 hj2
      rcases Nat.eq_or_lt_of_le (Nat.le_of_lt_succ hj2) with he | hl
      · rw [he]; exact hc
      · exact h2 j hj1 hl
    · rw [if_neg hc]
      exact ⟨le_refl _, fun j h1 h2 => by omega, fun _ => hc⟩

theorem dropWhile_eq_drop (p : Byte → Bool) (l : List Byte) (r : Nat) (hr : r ≤ l.length)
    (h1 : ∀ j, j < r → p (l.getD j 0) = true) (h2 : r < l.length → p (l.getD r 0) = false) :
    l.dropWhile p = l.drop r := by
  induction l generalizing r with
  | nil =>
    have : r = 0 := by simpa using hr
    subst this
    rfl
  | cons a t ih =>
    cases r with
    | zero =>
      have := h2 (by simp)
      simp only [List.getD_cons_zero] at this
      rw [List.dropWhile_cons_of_neg (by simp [this]), List.drop_zero]
    | succ r =>
      have := h1 0 (by omega)
      simp only [List.getD_cons_zero] at this
      rw [List.dropWhile_cons_of_pos this, List.drop_succ_cons]
      apply ih r (by simpa using hr)
      · intro j hj
        have := h1 (j + 1) (by omega)
        simpa using this
      · intro hlt
        have := h2 (by simpa using hlt)
        simpa using this

theorem rdropWhile_eq_take (p : Byte → Bool) (l : List Byte) (r : Nat) (hr : r ≤ l.length)
    (h1 : ∀ j, r ≤ j → j < l.length → p (l.getD j 0) = true)
    (h2 : 0 < r → p (l.getD (r - 1) 0) = false) :
    l.rdropWhile p = l.take r := by
  induction l using List.reverseRecOn generalizing r with
  | nil =>
    have : r = 0 := by simpa using hr
    subst this
    simp
  | append_singleton l x ih =>
    have hlen : (l ++ [x]).length = l.length + 1 := by simp
    have hx : (l ++ [x]).getD l.length 0 = x := by
      rw [getD_append, if_neg (by omega), Nat.sub_self]; rfl
    rw [hlen] at hr h1
    by_cases hfull : r = l.length + 1
    · subst hfull
      have := h2 (by omega)
      rw [Nat.add_sub_cancel, hx] at this
      rw [List.rdropWhile_concat_neg _ _ _ (by simp [this]), List.take_of_length_le (by omega)]
    · have hpx := h1 l.length (by omega) (by omega)
      rw [hx] at hpx
      rw [List.rdropWhile_concat_pos _ _ _ hpx, List.take_append_of_le_length (by omega)]
      apply ih r (by omega)
      · intro j hj1 hj2
        have := h1 j hj1 (by omega)
        rw [getD_append, if_pos hj2] at this
        exact this
      · intro hpos
        have := h2 hpos
        rw [getD_append, if_pos (by omega)] at this
        exact this

theorem c_view_of_nul_free (cs : List Byte) (h : ∀ b ∈ cs, b ≠ 0) : c_view cs = cs := by
  unfold c_view
  rw [List.takeWhile_eq_self_iff]
  intro b hb
  simpa using h b hb


/-- The effect of `ltrim` on a well-formed string: it returns, with the
maximal prefix of bytes of the set removed. -/
theorem ltrim_spec (o : Obj) (chars : List Byte) (hwf : WF o) :
    ∃ o2, ltrim o chars = .ok o2 ∧ WF o2 ∧
      content o2 = (content o).dropWhile (fun b => decide (b ∈ c_view chars)) := by
  obtain ⟨_, h2, h3, h4⟩ :=
    ltrim_loop_spec (data o) (size o) (c_view chars) (size o) 0 (Nat.zero_le _) (by omega)
  have hs := hwf.succ_size_lt
  have hdrop : (content o).dropWhile (fun b => decide (b ∈ c_view chars)) =
      (content o).drop (ltrim_loop (data o) (size o) (c_view chars) (size o) 0) := by
    apply dropWhile_eq_drop _ _ _ (by rw [content_length]; exact h2)
    · intro j hj
      rw [content_getD_lt o j (by omega)]
      simpa using h3 j (Nat.zero_le _) hj
    · intro hlt
      rw [content_length] at hlt
      rw [content_getD_lt o _ hlt]
      simpa using h4 hlt
  rw [hdrop]
  unfold ltrim
  simp only
  generalize ltrim_loop (data o) (size o) (c_view chars) (size o) 0 = i at h2 h3 h4 hdrop
  by_cases hi : i > 0
  · rw [if_pos hi]
    by_cases hall : i = size o
    · obtain ⟨o2, e, hwf2, _, hsize, hd, _⟩ :=
        erase_truncate o 0 i hwf (by omega) (Or.inr (by rw [add64_of_lt _ _ (by omega)]; omega))
      refine ⟨o2, e, hwf2, ?_⟩
      rw [content_take_of o o2 0 (by omega) hsize hd, hall, List.take_zero,
        List.drop_of_length_le (by rw [content_length])]
    · obtain ⟨o2, e, hwf2, _, hsize, hd1, hd2, _⟩ := erase_some o 0 i hwf (by omega)
      refine ⟨o2, e, hwf2, ?_⟩
      rw [content_erase_of o o2 0 i (by omega) hsize hd1 hd2, List.take_zero, List.nil_append,
        Nat.zero_add]
  · rw [if_neg hi]
    have : i = 0 := by omega
    subst this
    exact ⟨o, rfl, hwf, rfl⟩

/-- The effect of `rtrim` on a well-formed string: it returns, with the
maximal suffix of bytes of the set removed. -/
theorem rtrim_spec (o : Obj) (chars : List Byte) (hwf : WF o) :
    ∃ o2, rtrim o chars = .ok o2 ∧ WF o2 ∧
      content o2 = (content o).rdropWhile (fun b => decide (b ∈ c_view chars)) := by
  obtain ⟨h1, h2, h3⟩ := rtrim_loop_spec (data o) (c_view chars) (size o)
  have hs := hwf.succ_size_lt
  have htake : (content o).rdropWhile (fun b => decide (b ∈ c_view chars)) =
      (content o).take (rtrim_loop (data o) (c_view chars) (size o)) := by
    apply rdropWhile_eq_take _ _ _ (by rw [content_length]; exact h1)
    · intro j hj1 hj2
      rw [content_length] at hj2
      rw [content_getD_lt o j hj2]
      simpa using h2 j hj1 hj2
    · intro hpos
      rw [content_getD_lt o _ (by omega)]
      simpa using h3 hpos
  rw [htake]
  unfold rtrim
  simp only
  generalize rtrim_loop (data o) (c_view chars) (size o) = i at h1 h2 h3 htake
  by_cases hi : i < size o
  · rw [if_pos hi]
    have hsub : sub64 (size o) i = size o - i := sub64_of_le _ _ (by omega) (by omega)
    obtain ⟨o2, e, hwf2, _, hsize, hd, _⟩ :=
      erase_truncate o i (sub64 (size o) i) hwf hi
        (Or.inr (by rw [hsub, add64_of_lt _ _ (by omega)]; omega))
    exact ⟨o2, e, hwf2, content_take_of o o2 i (by omega) hsize hd⟩
  · rw [if_neg hi]
    refine ⟨o, rfl, hwf, ?_⟩
    rw [List.take_of_length_le (by rw [content_length]; omega)]

/-- The effect of `trim` on a well-formed string. -/
theorem trim_spec (o : Obj) (chars : List Byte) (hwf : WF o) :
    ∃ o2, trim o chars = .ok o2 ∧ WF o2 ∧
      content o2 = ((content o).dropWhile (fun b => decide (b ∈ c_view chars))).rdropWhile
        (fun b => decide (b ∈ c_view chars)) := by
  obtain ⟨o1, e1, hwf1, hc1⟩ := ltrim_spec o chars hwf
  obtain ⟨o2, e2, hwf2, hc2⟩ := rtrim_spec o1 chars hwf1
  refine ⟨o2, ?_, hwf2, by rw [hc2, hc1]⟩
  unfold trim
  rw [e1]
  exact e2

theorem str_pad_padded_WF : WF str_pad_padded := ctor_sv_WF pad_padded mem0 mem0_OK (by decide)

theorem blank_tab_nul_free : ∀ b ∈ blank_tab, b ≠ 0 := by
  intro b hb
  simp only [blank_tab, List.mem_cons, List.mem_singleton, List.not_mem_nil, or_false] at hb
  rcases hb with h | h <;> subst h <;> decide

/-! ### Element access -/

theorem size_lt_pow (o : Obj) : size o < 2 ^ 64 := by
  unfold size
  cases is_heap o.storage
  · have := (o.storage 30).isLt
    simp only [Bool.false_eq_true, if_false]
    unfold sso_len
    omega
  · simp only [if_true]
    exact ld64_lt _ _

theorem at_index_of_lt (o : Obj) (idx : Nat) (h : idx < size o) :
    at_index o idx = .ok (data o idx) := by
  unfold at_index
  rw [if_neg (by omega)]

theorem at_index_of_ge (o : Obj) (idx : Nat) (h : size o ≤ idx) :
    at_index o idx = .error (Exn.out_of_range, o) := by
  unfold at_index
  rw [if_pos h]

theorem sub64_zero_one : sub64 0 1 = npos := by decide

theorem str_empty_WF : WF str_empty := by
  have hs : is_heap str_empty.storage = false := by decide
  exact WF.of_sso mem0_OK hs (by decide) (by decide)

/-! ### The heap flag under the mutating operations -/

theorem is_heap_of_not_sso {s : Storage} (h : ¬ is_sso s = true) : is_heap s = true := by
  rw [is_sso_eq] at h
  cases hh : is_heap s
  · rw [hh] at h; exact absurd rfl h
  · rfl

theorem is_sso_false_of_heap {s : Storage} (h : is_heap s = true) : ¬ is_sso s = true := by
  rw [is_sso_eq, h]; simp

/-- Whatever `make_non_sso_and_reserve` returns is in heap mode. -/
theorem make_non_sso_result_heap (o : Obj) (n : Nat) (o1 : Obj)
    (h : make_non_sso_and_reserve o n = .ok o1) : is_heap o1.storage = true := by
  unfold make_non_sso_and_reserve at h
  split at h
  · simp only at h
    split at h
    · cases h
    · cases h
      exact is_heap_set_heap_flag _
  · next hs =>
    simp only at h
    split at h
    · cases h
      exact is_heap_of_not_sso hs
    · split at h
      · cases h
      · cases h
        exact is_heap_set_heap_flag _

theorem mul64_two_of_lt (c : Nat) (h : 2 * c < 2 ^ 64) : mul64 c 2 = 2 * c := by
  unfold mul64
  rw [Nat.mod_eq_of_lt (by omega)]
  omega

/-- The raw capacity after a growth of a heap buffer. -/
theorem make_non_sso_cap_heap (o : Obj) (n : Nat) (o2 : Obj) (hh : is_heap o.storage = true)
    (hlt : heap_capacity_raw o.storage < n) (hn : n < 2 ^ 64)
    (h : make_non_sso_and_reserve o n = .ok o2) :
    heap_capacity_raw o2.storage = max n (mul64 (heap_capacity_raw o.storage) 2) := by
  have hm : mul64 (heap_capacity_raw o.storage) 2 < 2 ^ 64 := Nat.mod_lt _ (by norm_num)
  unfold make_non_sso_and_reserve at h
  rw [if_neg (is_sso_false_of_heap hh)] at h
  simp only at h
  rw [if_neg (by omega)] at h
  split at h
  · cases h
  · cases h
    simp only [heap_cap_set_heap_flag, heap_cap_set_heap_cap]
    rw [Nat.mod_eq_of_lt (by omega)]

/-- The raw capacity after the conversion of an inline string. -/
theorem make_non_sso_cap_sso (o : Obj) (n : Nat) (o2 : Obj) (hs : is_heap o.storage = false)
    (hn : n < 2 ^ 64) (h : make_non_sso_and_reserve o n = .ok o2) :
    heap_capacity_raw o2.storage = max n (add64 (sso_len o.storage) 1) := by
  have hm : add64 (sso_len o.storage) 1 < 2 ^ 64 := Nat.mod_lt _ (by norm_num)
  have hsso : is_sso o.storage = true := by rw [is_sso_eq, hs]; rfl
  unfold make_non_sso_and_reserve at h
  rw [if_pos hsso] at h
  simp only at h
  split at h
  · cases h
  · cases h
    unfold adopt
    simp only [heap_cap_set_heap_flag, heap_cap_set_heap_cap]
    rw [Nat.mod_eq_of_lt (by omega)]

/-! ### The structural invariant -/

theorem WF.structural {o : Obj} (h : WF o) : Structural o := by
  constructor
  · intro hs
    rw [size_of_sso hs]
    exact h.sso hs
  · intro hh
    have hsz : size o = heap_size o.storage := by unfold size; rw [hh]; rfl
    rw [hsz]
    exact h.heap hh

theorem WF.of_structural {o : Obj} (h : Structural o) (hok : o.mem.OK) : WF o := by
  refine ⟨hok, ?_, ?_⟩
  · intro hs
    have := h.1 hs
    rw [size_of_sso hs] at this
    exact this
  · intro hh
    have hsz : size o = heap_size o.storage := by unfold size; rw [hh]; rfl
    have := h.2 hh
    rw [hsz] at this
    exact this

/-- Truncation of an inline string at `pos <= size()`: the two assignments
`storage.sso.len = pos; storage.sso.buf[pos] = 0`. -/
theorem truncate_sso (o : Obj) (pos : Nat) (hwf : WF o) (hs : is_heap o.storage = false)
    (hpos : pos ≤ size o) :
    WF (sso_put { o with storage := set_sso_len o.storage pos } pos 0) ∧
    is_heap (sso_put { o with storage := set_sso_len o.storage pos } pos 0).storage = false ∧
    size (sso_put { o with storage := set_sso_len o.storage pos } pos 0) = pos ∧
    (∀ i, i < pos →
      data (sso_put { o with storage := set_sso_len o.storage pos } pos 0) i = data o i) := by
  have hlen := (hwf.sso hs).1
  simp only [sso_max_size, sso_capacity_bytes, SSO_ReservedBytes] at hlen
  have hsz := size_of_sso hs
  let o2 : Obj := { o with storage := (blit (set_sso_len o.storage pos) pos 1 (fill_src 0)) }
  have hst : o2.storage = blit (set_sso_len o.storage pos) pos 1 (fill_src 0) := rfl
  have e : sso_put { o with storage := set_sso_len o.storage pos } pos 0 = o2 :=
    sso_put_eq _ _ _ (by omega)
  rw [e]
  have hs2 : is_heap o2.storage = false := by
    rw [hst, is_heap_blit _ _ _ _ (Or.inr (by omega)), is_heap_set_sso_len, hs]
  have hl2 : sso_len o2.storage = pos := by
    rw [hst, sso_len_blit _ _ _ _ (Or.inr (by omega)), sso_len_set_sso_len]; omega
  have hsize2 : size o2 = pos := by rw [size_of_sso hs2]; exact hl2
  refine ⟨?_, hs2, hsize2, ?_⟩
  · apply WF.of_sso (o := o2) hwf.mem_ok hs2 (by rw [hl2]; omega)
    rw [hl2, hst, blit_fill_at]
  · intro i hi
    rw [data_of_sso hs2, data_of_sso hs, hst, blit_of_lt _ _ _ _ _ hi, set_sso_len_apply,
      if_neg (by omega)]

/-- Truncation of a heap string at `pos <= size()`: the two assignments
`storage.heap.size = pos; storage.heap.ptr[pos] = 0`. -/
theorem truncate_heap (o : Obj) (pos : Nat) (hwf : WF o) (hh : is_heap o.storage = true)
    (hpos : pos ≤ size o) :
    WF (heap_put { o with storage := set_heap_size o.storage pos } pos 0) ∧
    is_heap (heap_put { o with storage := set_heap_size o.storage pos } pos 0).storage = true ∧
    size (heap_put { o with storage := set_heap_size o.storage pos } pos 0) = pos ∧
    (∀ i, i < pos →
      data (heap_put { o with storage := set_heap_size o.storage pos } pos 0) i = data o i) := by
  have hlt := hwf.size_lt
  obtain ⟨d, hv, hlt2, hz⟩ := hwf.heap_view hh
  have hsz := hv.size_obj
  have hv2 := hv.set_size_view pos (by omega)
  have hv3 := hv2.put_view pos 0 (by omega)
  have hok3 := hv2.put_OK hwf.mem_ok pos 0 (by omega)
  refine ⟨?_, hv3.is_heap_eq, hv3.size_obj, ?_⟩
  · apply WF.of_heap_view hv3 hok3 (by omega)
    rw [blit_fill_at]
  · intro i hi
    rw [hv3.data_obj, if_pos (by omega), blit_of_lt _ _ _ _ _ hi, hv.data_obj,
      if_pos (by omega)]

/-- The effect of `pop_back` on a well-formed string. -/
theorem pop_back_spec (o : Obj) (hwf : WF o) :
    WF (pop_back o) ∧ is_heap (pop_back o).storage = is_heap o.storage ∧
      size (pop_back o) = size o - 1 ∧ content (pop_back o) = (content o).take (size o - 1) := by
  have hlt := hwf.size_lt
  by_cases h0 : size o = 0
  · have e : pop_back o = o := by
      unfold pop_back
      simp only
      rw [if_pos h0]
    rw [e]
    refine ⟨hwf, rfl, by omega, ?_⟩
    rw [List.take_of_length_le]
    rw [content_length]; omega
  · have hs1 : sub64 (size o) 1 = size o - 1 := sub64_of_le _ _ (by omega) hlt
    cases hs : is_heap o.storage
    · have e : pop_back o =
          sso_put { o with storage := set_sso_len o.storage (size o - 1) } (size o - 1) 0 := by
        unfold pop_back
        simp only
        rw [if_neg h0, if_pos (by rw [is_sso_eq, hs]; rfl), hs1]
      obtain ⟨h1, h2, h3, h4⟩ := truncate_sso o (size o - 1) hwf hs (by omega)
      rw [e]
      exact ⟨h1, h2, h3, content_take_of o _ _ (by omega) h3 h4⟩
    · have e : pop_back o =
          heap_put { o with storage := set_heap_size o.storage (size o - 1) } (size o - 1) 0 := by
        unfold pop_back
        simp only
        rw [if_neg h0, if_neg (is_sso_false_of_heap hs), hs1]
      obtain ⟨h1, h2, h3, h4⟩ := truncate_heap o (size o - 1) hwf hs (by omega)
      rw [e]
      exact ⟨h1, h2, h3, content_take_of o _ _ (by omega) h3 h4⟩

/-- The effect of `clear` on a well-formed string. -/
theorem clear_spec (o : Obj) (hwf : WF o) :
    WF (clear o) ∧ is_heap (clear o).storage = is_heap o.storage ∧ size (clear o) = 0 ∧
      content (clear o) = [] := by
  cases hs : is_heap o.storage
  · have e : clear o = sso_put { o with storage := set_sso_len o.storage 0 } 0 0 := by
      unfold clear
      rw [hs]
      rfl
    obtain ⟨h1, h2, h3, _⟩ := truncate_sso o 0 hwf hs (Nat.zero_le _)
    rw [e]
    refine ⟨h1, h2, h3, ?_⟩
    unfold content
    rw [h3]
    rfl
  · have e : clear o = heap_put { o with storage := set_heap_size o.storage 0 } 0 0 := by
      unfold clear
      rw [hs]
      rfl
    obtain ⟨h1, h2, h3, _⟩ := truncate_heap o 0 hwf hs (Nat.zero_le _)
    rw [e]
    refine ⟨h1, h2, h3, ?_⟩
    unfold content
    rw [h3]
    rfl


theorem reserve_npos (o : Obj) : reserve o npos = .ok o := by
  have h1 : add64 npos 1 = 0 := by decide
  unfold reserve
  simp only [h1]
  split
  · rw [if_pos (Nat.zero_le _)]
  · rw [if_pos (Nat.zero_le _)]

theorem reserve_keeps_WF (o : Obj) (n : Nat) (hwf : WF o) (hn : n < 2 ^ 64) (o2 : Obj)
    (h : reserve o n = .ok o2) : WF o2 := by
  by_cases hfit : n + 1 < 2 ^ 64
  · rcases reserve_cases o n hwf hfit with ⟨o3, e, hwf3, _⟩ | he
    · rw [h] at e; cases e; exact hwf3
    · rw [h] at he; cases he
  · have : n = npos := by unfold npos; omega
    subst this
    rw [reserve_npos] at h
    cases h
    exact hwf

theorem resize_keeps_WF (o : Obj) (n : Nat) (ch : Byte) (hwf : WF o) (hn : n < 2 ^ 64) (o2 : Obj)
    (h : resize o n ch = .ok o2) (hf : o2.mem.fault = false) : WF o2 := by
  by_cases hfit : n + 1 < 2 ^ 64
  · rcases resize_cases o n ch hwf hfit with ⟨o3, e, hwf3, _⟩ | he
    · rw [h] at e; cases e; exact hwf3
    · rw [h] at he; cases he
  · exfalso
    have : n = npos := by unfold npos; omega
    subst this
    rw [resize_npos_faults o ch hwf o2 h] at hf
    cases hf

theorem erase_keeps_WF (o : Obj) (pos len : Nat) (hwf : WF o) (hpos : pos < size o)
    (hfit : pos + len < 2 ^ 64) (o2 : Obj) (h : erase o pos len = .ok o2) : WF o2 := by
  by_cases hcut : pos + len ≥ size o
  · obtain ⟨o3, e, hwf3, _⟩ :=
      erase_truncate o pos len hwf hpos (Or.inr (by rw [add64_of_lt _ _ hfit]; exact hcut))
    rw [h] at e; cases e; exact hwf3
  · obtain ⟨o3, e, hwf3, _⟩ := erase_some o pos len hwf (by omega)
    rw [h] at e; cases e; exact hwf3

theorem shrink_keeps_structural (o : Obj) (hwf : WF o) (o2 : Obj)
    (h : shrink_to_fit o = .ok o2) : Structural o2 := by
  rcases shrink_cases o hwf with ⟨o3, e, hsize, _, hz, h1, h2, h3⟩ | ⟨he, _⟩
  · rw [h] at e; cases e
    cases hh : is_heap o.storage
    · rw [h1 hh]; exact hwf.structural
    · by_cases hsz : size o ≤ 29
      · have hm := h2 hh hsz
        constructor
        · intro _
          rw [hsize]
          refine ⟨by simpa [SSO_ReservedBytes] using hsz, ?_⟩
          rw [data_of_sso hm, hsize] at hz
          exact hz
        · intro hc
          rw [hm] at hc; cases hc
      · exact (h3 hh (by omega)).1.structural
  · rw [h] at he; cases he

/-! ### The legacy search -/

/-- The result of the loop of `std::search`: the least offset from `i` at
which the needle occurs wholly before `last`, or `last` when there is
none. -/
theorem search_loop_spec (d needle : Bytes) (m last fuel i : Nat) (hf : last + 1 - i ≤ fuel) :
    (i ≤ search_loop d needle m last fuel i ∧ search_loop d needle m last fuel i + m ≤ last ∧
      (∀ j, j < m → d (search_loop d needle m last fuel i + j) = needle j) ∧
      ∀ k, i ≤ k → k + m ≤ last → (∀ j, j < m → d (k + j) = needle j) →
        search_loop d needle m last fuel i ≤ k) ∨
    (search_loop d needle m last fuel i = last ∧
      ∀ k, i ≤ k → k + m ≤ last → ¬ ∀ j, j < m → d (k + j) = needle j) := by
  induction fuel generalizing i with
  | zero =>
    right
    unfold search_loop
    exact ⟨rfl, fun k h1 h2 => by omega⟩
  | succ fuel ih =>
    unfold search_loop
    by_cases h1 : i + m > last
    · rw [if_pos h1]
      right
      exact ⟨rfl, fun k hk1 hk2 => by omega⟩
    · rw [if_neg h1]
      by_cases ht : traits_compare_eq d i needle m = true
      · rw [if_pos ht]
        rw [traits_compare_eq_iff] at ht
        left
        exact ⟨le_refl _, by omega, ht, fun k hk _ _ => hk⟩
      · rw [if_neg ht]
        rw [traits_compare_eq_iff] at ht
        have hnext : ∀ k, i ≤ k → (∀ j, j < m → d (k + j) = needle j) → i + 1 ≤ k := by
          intro k hk hM
          rcases Nat.eq_or_lt_of_le hk with he | hl
          · subst he; exact absurd hM ht
          · exact hl
        rcases ih (i + 1) (by omega) with ⟨a1, a2, a3, a4⟩ | ⟨a1, a2⟩
        · left
          exact ⟨by omega, a2, a3, fun k hk1 hk2 hM => a4 k (hnext k hk1 hM) hk2 hM⟩
        · right
          exact ⟨a1, fun k hk1 hk2 hM => a2 k (hnext k hk1 hM) hk2 hM⟩

/-- The result of `find_legacy`: the least occurrence at or after `start` when
it is not `size()` itself, and `npos` otherwise. -/
theorem find_legacy_spec (X : Obj) (p : List Byte) (start : Nat) :
    (Occurs X p start (find_legacy X p start) ∧ find_legacy X p start ≠ size X ∧
      ∀ i, Occurs X p start i → find_legacy X p start ≤ i) ∨
    (find_legacy X p start = npos ∧
      ((∀ i, ¬ Occurs X p start i) ∨ (p = [] ∧ start = size X))) := by
  have hlt := size_lt_pow X
  unfold find_legacy
  by_cases h1 : start > size X
  · rw [if_pos h1]
    right
    refine ⟨rfl, Or.inl ?_⟩
    rintro i ⟨a, b, _⟩
    omega
  · rw [if_neg h1]
    have hsub : sub64 (size X) start = size X - start := sub64_of_le _ _ (by omega) hlt
    simp only [hsub]
    have hlast : start + (size X - start) = size X := by omega
    rw [hlast]
    unfold std_search
    rcases search_loop_spec (data X) (of_list p) p.length (size X) (size X - start + 1) start
      (by omega) with ⟨a1, a2, a3, a4⟩ | ⟨a1, a2⟩
    · by_cases hend : search_loop (data X) (of_list p) p.length (size X)
          (size X - start + 1) start = size X
      · rw [if_pos hend]
        right
        refine ⟨rfl, Or.inr ?_⟩
        have hm : p.length = 0 := by omega
        have hp : p = [] := List.length_eq_zero.mp hm
        refine ⟨hp, ?_⟩
        have := a4 start (le_refl _) (by omega) (fun j hj => by omega)
        omega
      · rw [if_neg hend]
        left
        refine ⟨(occurs_iff X p start _).mpr ⟨a1, a2, a3⟩, hend, ?_⟩
        intro i hi
        obtain ⟨b1, b2, b3⟩ := (occurs_iff X p start i).mp hi
        exact a4 i b1 b2 b3
    · rw [if_pos a1]
      right
      refine ⟨rfl, Or.inl ?_⟩
      intro i hi
      obtain ⟨b1, b2, b3⟩ := (occurs_iff X p start i).mp hi
      exact a2 i b1 b2 b3

/-- Away from the empty pattern at `pos == size()`, the two searches agree. -/
theorem find_legacy_agrees (X : Obj) (p : List Byte) (start : Nat)
    (h : ¬ (p = [] ∧ start = size X)) : find X p start = some (find_legacy X p start) := by
  obtain ⟨r, e, hr⟩ := find_spec X p start
  rw [e]
  congr 1
  rcases find_legacy_spec X p start with ⟨b1, _, b3⟩ | ⟨b1, b2⟩
  · rcases hr with ⟨a1, a2⟩ | ⟨_, a2⟩
    · exact Nat.le_antisymm (a2 _ b1) (b3 _ a1)
    · exact absurd b1 (a2 _)
  · rcases b2 with b2 | b2
    · rcases hr with ⟨a1, _⟩ | ⟨a1, _⟩
      · exact absurd a1 (b2 _)
      · rw [a1, b1]
    · exact absurd b2 h

/-- At the empty pattern and `pos == size()` of a well-formed string, `find`
returns `pos` and `find_legacy` returns `npos`. -/
theorem find_legacy_differs (X : Obj) (hwf : WF X) :
    find X [] (size X) = some (size X) ∧ find_legacy X [] (size X) = npos ∧ size X ≠ npos := by
  have hs := hwf.succ_size_lt
  refine ⟨?_, ?_, by unfold npos; omega⟩
  · obtain ⟨r, e, hr⟩ := find_spec X [] (size X)
    rw [e]
    congr 1
    have hocc : Occurs X [] (size X) (size X) := ⟨le_refl _, by simp, by simp⟩
    rcases hr with ⟨a1, a2⟩ | ⟨_, a2⟩
    · exact Nat.le_antisymm (a2 _ hocc) a1.1
    · exact absurd hocc (a2 _)
  · rcases find_legacy_spec X [] (size X) with ⟨b1, b2, b3⟩ | ⟨b1, _⟩
    · exfalso
      have hocc : Occurs X [] (size X) (size X) := ⟨le_refl _, by simp, by simp⟩
      have h1 := b3 _ hocc
      have h2 := b1.1
      exact b2 (Nat.le_antisymm h1 h2)
    · exact b1

/-- A property of the object before a call, kept by every returning call,
holds of the outcome of a call that leaves the object as it was when it
throws. -/
theorem outcome_keeps (P : Obj → Prop) (r : Res) (X : Obj) (hX : P X)
    (hok : ∀ X2, r = .ok X2 → P X2) (herr : ∀ e X2, r = .error (e, X2) → X2 = X) :
    P (outcome r) := by
  cases r with
  | ok o => exact hok o rfl
  | error e =>
    obtain ⟨e1, o⟩ := e
    have := herr e1 o rfl
    subst this
    exact hX

/-! ### More sample objects -/

theorem str_a_to_t_WF : WF str_a_to_t := ctor_sv_WF a_to_t mem0 mem0_OK (by decide)

theorem str_forty_x_twenty_WF : WF str_forty_x_twenty := by
  rcases resize_cases str_forty_x 20 0 str_forty_x_WF (by decide) with ⟨o2, e, hwf, _⟩ | he
  · have : str_forty_x_twenty = o2 := by unfold str_forty_x_twenty; rw [e]; rfl
    rw [this]; exact hwf
  · have h : resize str_forty_x 20 0 = .ok (outcome (resize str_forty_x 20 0)) := by rfl
    rw [h] at he; cases he

theorem str_forty_x_twenty_nine_WF : WF str_forty_x_twenty_nine := by
  rcases resize_cases str_forty_x 29 0 str_forty_x_WF (by decide) with ⟨o2, e, hwf, _⟩ | he
  · have : str_forty_x_twenty_nine = o2 := by unfold str_forty_x_twenty_nine; rw [e]; rfl
    rw [this]; exact hwf
  · have h : resize str_forty_x 29 0 = .ok (outcome (resize str_forty_x 29 0)) := by rfl
    rw [h] at he; cases he

/-- A string in heap mode whose size is not below its raw capacity breaks the
structural invariant. -/
theorem not_structural_of_heap (o : Obj) (hh : is_heap o.storage = true)
    (hc : heap_capacity_raw o.storage ≤ size o) : ¬ Structural o := by
  intro hs
  obtain ⟨b, _, _, hlt, _⟩ := hs.2 hh
  omega

/-- A string whose free store has recorded a fault is not well-formed. -/
theorem not_WF_of_fault (o : Obj) (hf : o.mem.fault = true) : ¬ WF o := by
  intro hwf
  have := hwf.mem_ok.no_fault
  rw [hf] at this
  cases this

/-! ### Views that may point into the string -/

theorem sv_check_storage (o : Obj) (v : SvData) (n : Nat) (dst : SvData) :
    (sv_check o v n dst).storage = o.storage := by
  unfold sv_check
  cases v with
  | outside b => rfl
  | in_object off => simp only; split <;> rfl
  | in_store p off => simp only; split <;> rfl

/-- Whatever the view points to, an `append` that throws throws `bad_alloc`
and leaves the string as it was. -/
theorem append_view_throws (o : Obj) (v : SvData) (add : Nat) (e : Exn) (o2 : Obj)
    (h : append_view o v add = .error (e, o2)) : e = Exn.bad_alloc ∧ o2 = o := by
  unfold append_view at h
  simp only at h
  split at h
  · cases h
  · split at h
    · next e2 he => cases h; exact make_non_sso_error _ _ _ _ he
    · cases h

/-- Whatever the view points to, an `insert` that throws leaves the string as
it was, and throws `out_of_range` for `pos > size()` and `bad_alloc`
otherwise. -/
theorem insert_view_throws (o : Obj) (pos : Nat) (v : SvData) (add : Nat) (e : Exn) (o2 : Obj)
    (h : insert_view o pos v add = .error (e, o2)) :
    o2 = o ∧ ((e = Exn.out_of_range ∧ size o < pos) ∨ (e = Exn.bad_alloc ∧ pos ≤ size o)) := by
  unfold insert_view at h
  split at h
  · next hp => cases h; exact ⟨rfl, Or.inl ⟨rfl, hp⟩⟩
  · next hp =>
    simp only at h
    split at h
    · cases h
    · split at h
      · next e2 he =>
        cases h
        obtain ⟨h1, h2⟩ := make_non_sso_error _ _ _ _ he
        exact ⟨h2, Or.inr ⟨h1, by omega⟩⟩
      · cases h

/-- Whatever the view points to, `append` leaves a heap string in heap
mode. -/
theorem append_view_keeps_heap (o : Obj) (v : SvData) (add : Nat)
    (hh : is_heap o.storage = true) :
    is_heap (outcome (append_view o v add)).storage = true := by
  cases hr : append_view o v add with
  | error e =>
    obtain ⟨e1, o2⟩ := e
    rw [(append_view_throws o v add e1 o2 hr).2]
    exact hh
  | ok o2 =>
    unfold append_view at hr
    simp only at hr
    rw [if_neg (fun hc => is_sso_false_of_heap hh hc.1)] at hr
    split at hr
    · cases hr
    · next o1 he =>
      cases hr
      show is_heap (set_heap_size (sv_check o1 v add _).storage _) = true
      rw [is_heap_set_heap_size, sv_check_storage]
      exact make_non_sso_result_heap _ _ _ he

/-- Whatever the view points to, `insert` leaves a heap string in heap
mode. -/
theorem insert_view_keeps_heap (o : Obj) (pos : Nat) (v : SvData) (add : Nat)
    (hh : is_heap o.storage = true) :
    is_heap (outcome (insert_view o pos v add)).storage = true := by
  cases hr : insert_view o pos v add with
  | error e =>
    obtain ⟨e1, o2⟩ := e
    rw [(insert_view_throws o pos v add e1 o2 hr).1]
    exact hh
  | ok o2 =>
    unfold insert_view at hr
    split at hr
    · cases hr
    · simp only at hr
      rw [if_neg (fun hc => is_sso_false_of_heap hh hc.1)] at hr
      split at hr
      · cases hr
      · next o1 he =>
        cases hr
        show is_heap (set_heap_size (sv_check _ v add _).storage _) = true
        rw [is_heap_set_heap_size, sv_check_storage]
        exact make_non_sso_result_heap o _ o1 he

/-! # Claims -/

/-! ## Construction (C2, C3) -/

/-- C2: a byte sequence `s` of at most `R - 1 = 29` bytes constructs an
inline-mode string (from a `string_view`, and from a C string when `s` has no
NUL) with `size() == len(s)`, the bytes of `s` as its first `size()` bytes
and a 0 byte at offset `size()`. -/
theorem ctor_small_is_inline (s : List Byte) (m : Mem)
    (hlen : s.length ≤ SSO_ReservedBytes - 1) :
    (∃ o, ctor_sv s m = .ok o ∧ is_heap o.storage = false ∧ size o = s.length ∧
        content o = s ∧ data o (size o) = 0) ∧
    ((∀ b ∈ s, b ≠ 0) → ∃ o, ctor_cstr (some s) m = .ok o ∧ is_heap o.storage = false ∧
        size o = s.length ∧ content o = s ∧ data o (size o) = 0) := by
  have h29 : s.length ≤ 29 := hlen
  refine ⟨ctor_bytes_small_obs s s.length m h29 rfl, ?_⟩
  intro hnul
  show ∃ o, ctor_bytes (of_list s) (c_length s) m = .ok o ∧ _
  rw [c_length_of_nul_free s hnul]
  exact ctor_bytes_small_obs s s.length m h29 rfl

/-- Witness for C2: the five bytes of `"abcde"`. -/
theorem ctor_small_is_inline_witness :
    abcde.length ≤ SSO_ReservedBytes - 1 ∧
    ((∃ o, ctor_sv abcde mem0 = .ok o ∧ is_heap o.storage = false ∧ size o = abcde.length ∧
        content o = abcde ∧ data o (size o) = 0) ∧
    ((∀ b ∈ abcde, b ≠ 0) → ∃ o, ctor_cstr (some abcde) mem0 = .ok o ∧
        is_heap o.storage = false ∧ size o = abcde.length ∧ content o = abcde ∧
        data o (size o) = 0)) :=
  ⟨by decide, ctor_small_is_inline abcde mem0 (by decide)⟩

/-- C3: a byte sequence `s` of more than `R - 1 = 29` bytes constructs, when
the allocator has room for `len(s) + 1` bytes, a heap-mode string with
`size() == len(s)`, content `s`, a 0 byte at offset `size()` and
`capacity() >= len(s)`. -/
theorem ctor_large_is_heap (s : List Byte) (m : Mem) (hm : m.OK)
    (hlen : SSO_ReservedBytes - 1 < s.length) (hroom : s.length + 1 < m.room) :
    (∃ o, ctor_sv s m = .ok o ∧ is_heap o.storage = true ∧ size o = s.length ∧
        content o = s ∧ data o (size o) = 0 ∧ s.length ≤ capacity o) ∧
    ((∀ b ∈ s, b ≠ 0) → ∃ o, ctor_cstr (some s) m = .ok o ∧ is_heap o.storage = true ∧
        size o = s.length ∧ content o = s ∧ data o (size o) = 0 ∧ s.length ≤ capacity o) := by
  have h29 : 29 < s.length := hlen
  refine ⟨ctor_bytes_large_obs s s.length m hm h29 hroom rfl, ?_⟩
  intro hnul
  show ∃ o, ctor_bytes (of_list s) (c_length s) m = .ok o ∧ _
  rw [c_length_of_nul_free s hnul]
  exact ctor_bytes_large_obs s s.length m hm h29 hroom rfl

/-- Witness for C3: forty bytes `'x'`. -/
theorem ctor_large_is_heap_witness :
    mem0.OK ∧ SSO_ReservedBytes - 1 < forty_x.length ∧ forty_x.length + 1 < mem0.room ∧
    ((∃ o, ctor_sv forty_x mem0 = .ok o ∧ is_heap o.storage = true ∧ size o = forty_x.length ∧
        content o = forty_x ∧ data o (size o) = 0 ∧ forty_x.length ≤ capacity o) ∧
    ((∀ b ∈ forty_x, b ≠ 0) → ∃ o, ctor_cstr (some forty_x) mem0 = .ok o ∧
        is_heap o.storage = true ∧ size o = forty_x.length ∧ content o = forty_x ∧
        data o (size o) = 0 ∧ forty_x.length ≤ capacity o)) :=
  ⟨mem0_OK, by decide, by decide,
    ctor_large_is_heap forty_x mem0 mem0_OK (by decide) (by decide)⟩

/-! ## Append, insert, erase (C6, C7) -/

/-- Append of characters that live outside the string: for every well-formed
string `a` (inline or heap) and every byte sequence `b` outside it (with `size() + len(b) + 1` representable in `size_type`): when
`a.append(b)` returns, `a` holds its old bytes followed by the bytes of `b`,
`size()` is the old size plus `len(b)`, and the byte at offset `size()` is 0;
the only exception it lets out is `bad_alloc`, which leaves `a` as it was;
and it returns whenever the allocator has room for `max(needed, 2 * (capacity
+ 1))` bytes. -/
theorem append_concatenates (a : Obj) (b : List Byte) (hwf : WF a)
    (hfit : size a + b.length + 1 < 2 ^ 64) :
    (∀ a2, append a b = .ok a2 →
      content a2 = content a ++ b ∧ size a2 = size a + b.length ∧ data a2 (size a2) = 0) ∧
    (∀ e a2, append a b = .error (e, a2) → e = Exn.bad_alloc ∧ a2 = a) ∧
    (max (size a + b.length + 1) (2 * (capacity a + 1)) < a.mem.room →
      ∃ a2, append a b = .ok a2) := by
  have hcases := append_bytes_cases a (of_list b) b.length hwf hfit
  rw [map_range_of_list] at hcases
  refine ⟨?_, ?_, ?_⟩
  · intro a2 h
    rcases hcases with ⟨o2, e, _, hsize, hc, hz⟩ | he
    · have : append a b = .ok o2 := e
      rw [h] at this; cases this
      exact ⟨hc, hsize, hz⟩
    · have : append a b = .error (Exn.bad_alloc, a) := he
      rw [h] at this; cases this
  · intro e a2 h
    rcases hcases with ⟨o2, e2, _⟩ | he
    · have : append a b = .ok o2 := e2
      rw [h] at this; cases this
    · have : append a b = .error (Exn.bad_alloc, a) := he
      rw [h] at this; cases this
      exact ⟨rfl, rfl⟩
  · intro hroom
    obtain ⟨a2, e, _⟩ := append_bytes_ok a (of_list b) b.length hwf hroom
    exact ⟨a2, e⟩

/-- Instance of `append_concatenates`: forty bytes `'x'` appended to `"abcde"`, which moves the
string to the heap. -/
theorem append_concatenates_witness :
    WF str_abcde ∧ size str_abcde + forty_x.length + 1 < 2 ^ 64 ∧
    ∃ a2, append str_abcde forty_x = .ok a2 ∧ content a2 = content str_abcde ++ forty_x ∧
      size a2 = size str_abcde + forty_x.length ∧ data a2 (size a2) = 0 ∧
      is_heap a2.storage = true :=
  ⟨str_abcde_WF, by decide,
    ((append_concatenates str_abcde forty_x str_abcde_WF (by decide)).2.2 (by decide)).imp
      (fun a2 e => ⟨e,
        ((append_concatenates str_abcde forty_x str_abcde_WF (by decide)).1 a2 e).1,
        ((append_concatenates str_abcde forty_x str_abcde_WF (by decide)).1 a2 e).2.1,
        ((append_concatenates str_abcde forty_x str_abcde_WF (by decide)).1 a2 e).2.2,
        by
          have h : append str_abcde forty_x = .ok (outcome (append str_abcde forty_x)) := by rfl
          rw [h] at e
          cases e
          decide⟩)⟩

/-- Insertion of characters that live outside the string: for every
well-formed string `X`, every `pos <= X.size()` and every byte sequence `s`
outside it (with `size() + len(s) + 1` representable in `size_type`):
when `X.insert(pos, s)` returns, `X` holds `X[0..pos)`, then `s`, then the
old `X[pos..size)`, and `size() == old size + len(s)`; the only exception it
lets out for such a `pos` is `bad_alloc`, which leaves `X` as it was; and it
returns whenever the allocator has room for `max(needed, 2 * (capacity + 1))`
bytes. -/
theorem insert_splices (X : Obj) (pos : Nat) (s : List Byte) (hwf : WF X) (hpos : pos ≤ size X)
    (hfit : size X + s.length + 1 < 2 ^ 64) :
    (∀ X2, insert X pos s = .ok X2 →
      content X2 = (content X).take pos ++ s ++ (content X).drop pos ∧
      size X2 = size X + s.length) ∧
    (∀ e X2, insert X pos s = .error (e, X2) → e = Exn.bad_alloc ∧ X2 = X) ∧
    (max (size X + s.length + 1) (2 * (capacity X + 1)) < X.mem.room →
      ∃ X2, insert X pos s = .ok X2) := by
  have hcases := insert_cases X pos s hwf hpos hfit
  refine ⟨?_, ?_, ?_⟩
  · intro X2 h
    rcases hcases with ⟨o2, e, _, hsize, hc, _⟩ | he
    · rw [h] at e; cases e
      exact ⟨hc, hsize⟩
    · rw [h] at he; cases he
  · intro e X2 h
    rcases hcases with ⟨o2, e2, _⟩ | he
    · rw [h] at e2; cases e2
    · rw [h] at he; cases he
      exact ⟨rfl, rfl⟩
  · intro hroom
    obtain ⟨X2, e, _⟩ := insert_ok X pos s hwf hpos hroom
    exact ⟨X2, e⟩

/-- Instance of `insert_splices`, the scenario of the specification: `insert(3, "XYZ")` into
`"abcdef"` yields `"abcXYZdef"` of size 9. -/
theorem insert_splices_witness :
    WF str_abcdef ∧ 3 ≤ size str_abcdef ∧ size str_abcdef + XYZ.length + 1 < 2 ^ 64 ∧
    content str_abcdef = abcdef ∧
    ∃ X2, insert str_abcdef 3 XYZ = .ok X2 ∧
      content X2 = [97, 98, 99, 88, 89, 90, 100, 101, 102] ∧ size X2 = 9 :=
  ⟨str_abcdef_WF, by decide, by decide, by decide,
    ((insert_splices str_abcdef 3 XYZ str_abcdef_WF (by decide) (by decide)).2.2
      (by decide)).imp
      (fun X2 e => ⟨e,
        ((insert_splices str_abcdef 3 XYZ str_abcdef_WF (by decide) (by decide)).1 X2 e).1.trans
          (by decide),
        ((insert_splices str_abcdef 3 XYZ str_abcdef_WF (by decide) (by decide)).1 X2 e).2.trans
          (by decide)⟩)⟩

/-- C6: for every well-formed string `X` and every `pos`, `len` with
`pos + len < X.size()` (so `pos < X.size()`), `X.erase(pos, len)` returns with
`X` holding `X[0..pos)` followed by the old `X[pos+len..size)`,
`size() == old size - len`, and the mode unchanged. -/
theorem erase_closes_gap (X : Obj) (pos len : Nat) (hwf : WF X) (hlen : pos + len < size X) :
    ∃ X2, erase X pos len = .ok X2 ∧
      content X2 = (content X).take pos ++ (content X).drop (pos + len) ∧
      size X2 = size X - len ∧ is_heap X2.storage = is_heap X.storage := by
  obtain ⟨X2, e, _, hmode, hsize, h1, h2, _⟩ := erase_some X pos len hwf hlen
  exact ⟨X2, e, content_erase_of X X2 pos len (by omega) hsize h1 h2, hsize, hmode⟩

/-- Witness for C6: `erase(5, 2)` on forty bytes held on the heap. -/
theorem erase_closes_gap_witness :
    WF str_forty_x ∧ 5 + 2 < size str_forty_x ∧
    ∃ X2, erase str_forty_x 5 2 = .ok X2 ∧
      content X2 = (content str_forty_x).take 5 ++ (content str_forty_x).drop (5 + 2) ∧
      size X2 = size str_forty_x - 2 ∧ is_heap X2.storage = is_heap str_forty_x.storage :=
  ⟨str_forty_x_WF, by decide, erase_closes_gap str_forty_x 5 2 str_forty_x_WF (by decide)⟩

/-- C7, at the failing input: on the ten bytes `"0123456789"`, `pos = 5` and
`len = 2^64 - 3` (so `len >= size() - pos`, and `pos + len` wraps to 2),
`erase` does not truncate at `pos`: it returns a string of size 13 holding
`"0123423456789"`. -/
theorem erase_wrapping_len_grows :
    WF str_digits ∧ 5 < size str_digits ∧ size str_digits - 5 ≤ 2 ^ 64 - 3 ∧
    ∃ X2, erase str_digits 5 (2 ^ 64 - 3) = .ok X2 ∧ size X2 = 13 ∧
      content X2 = [48, 49, 50, 51, 52, 50, 51, 52, 53, 54, 55, 56, 57] ∧
      X2.mem.fault = false :=
  ⟨str_digits_WF, by decide, by decide, outcome (erase str_digits 5 (2 ^ 64 - 3)), by rfl,
    by decide, by decide, by decide⟩

/-! ## Range errors (C8, C9) -/

/-- C8: `erase(pos, len)` raises exactly when `pos >= size()`, what it raises
is out-of-range, and the object it leaves is the object it was given (so
mode, size, capacity and content are unchanged); in particular
`pos == size()` is rejected and every erase on an empty string is
rejected. -/
theorem erase_out_of_range_iff (X : Obj) (pos len : Nat) :
    ((∃ e X2, erase X pos len = .error (e, X2)) ↔ size X ≤ pos) ∧
    (∀ e X2, erase X pos len = .error (e, X2) →
      e = Exn.out_of_range ∧ X2 = X ∧ is_heap X2.storage = is_heap X.storage ∧
        size X2 = size X ∧ capacity X2 = capacity X ∧ content X2 = content X) ∧
    erase X (size X) len = .error (Exn.out_of_range, X) ∧
    (size X = 0 → erase X pos len = .error (Exn.out_of_range, X)) := by
  have hraise : ∀ p, size X ≤ p → erase X p len = .error (Exn.out_of_range, X) := by
    intro p hp
    unfold erase
    simp only
    rw [if_pos hp]
  have hok : pos < size X → ∀ e X2, erase X pos len ≠ .error (e, X2) := by
    intro hp e X2 h
    unfold erase at h
    simp only at h
    rw [if_neg (by omega)] at h
    split at h <;> split at h <;> cases h
  refine ⟨⟨?_, fun h => ⟨_, _, hraise pos h⟩⟩, ?_, hraise _ (le_refl _), fun h => hraise pos (by omega)⟩
  · rintro ⟨e, X2, h⟩
    by_contra hc
    exact hok (by omega) e X2 h
  · intro e X2 h
    have hp : size X ≤ pos := by
      by_contra hc
      exact hok (by omega) e X2 h
    rw [hraise pos hp] at h
    cases h
    exact ⟨rfl, rfl, rfl, rfl, rfl, rfl⟩

/-- C9: `insert(pos, s)` raises out-of-range exactly when `pos > size()`, and
the object it leaves then is the object it was given (mode, size, capacity
and content unchanged); `pos == size()` is accepted, and on a well-formed
string with room to grow it appends. -/
theorem insert_out_of_range_iff (X : Obj) (pos : Nat) (s : List Byte) :
    ((∃ X2, insert X pos s = .error (Exn.out_of_range, X2)) ↔ size X < pos) ∧
    (∀ X2, insert X pos s = .error (Exn.out_of_range, X2) →
      X2 = X ∧ is_heap X2.storage = is_heap X.storage ∧ size X2 = size X ∧
        capacity X2 = capacity X ∧ content X2 = content X) ∧
    (WF X → max (size X + s.length + 1) (2 * (capacity X + 1)) < X.mem.room →
      ∃ X2, insert X (size X) s = .ok X2 ∧ content X2 = content X ++ s) := by
  have hraise : size X < pos → insert X pos s = .error (Exn.out_of_range, X) := by
    intro hp
    rw [insert_eq]
    rw [if_pos hp]
  have hok : pos ≤ size X → ∀ X2, insert X pos s ≠ .error (Exn.out_of_range, X2) := by
    intro hp X2 h
    rw [insert_eq] at h
    rw [if_neg (by omega)] at h
    simp only at h
    split at h
    · cases h
    · split at h
      · next e he =>
        cases h
        have := (make_non_sso_error _ _ _ _ he).1
        cases this
      · cases h
  refine ⟨⟨?_, fun h => ⟨_, hraise h⟩⟩, ?_, ?_⟩
  · rintro ⟨X2, h⟩
    by_contra hc
    exact hok (by omega) X2 h
  · intro X2 h
    have hp : size X < pos := by
      by_contra hc
      exact hok (by omega) X2 h
    rw [hraise hp] at h
    cases h
    exact ⟨rfl, rfl, rfl, rfl, rfl⟩
  · intro hwf hroom
    obtain ⟨X2, e, _, _, hc, _⟩ := insert_ok X (size X) s hwf (le_refl _) hroom
    refine ⟨X2, e, ?_⟩
    rw [hc, ← content_length X, List.take_length, List.drop_length, List.append_nil]

/-- Witness for C9: inserting `"XYZ"` into `"abcdef"` at position 7 raises, at
position 6 it appends. -/
theorem insert_out_of_range_iff_witness :
    insert str_abcdef 7 XYZ = .error (Exn.out_of_range, str_abcdef) ∧
    ∃ X2, insert str_abcdef (size str_abcdef) XYZ = .ok X2 ∧
      content X2 = content str_abcdef ++ XYZ :=
  ⟨by rfl, (insert_out_of_range_iff str_abcdef 6 XYZ).2.2 str_abcdef_WF (by decide)⟩

/-! ## Insert then erase (C10) -/

/-- C10, counterexample: inserting the empty sequence at `p == size()` into
`"abcdef"` succeeds, and the following `erase(p, 0)` raises out-of-range, so
the pair does not complete. -/
theorem insert_empty_at_end_then_erase_raises :
    WF str_abcdef ∧ 6 ≤ size str_abcdef ∧
    ∃ X1, insert str_abcdef 6 [] = .ok X1 ∧
      erase X1 6 ([] : List Byte).length = .error (Exn.out_of_range, X1) :=
  ⟨str_abcdef_WF, by decide, outcome (insert str_abcdef 6 []), by rfl, by rfl⟩

/-- C10, amended: for every well-formed string `X`, every position
`p <= X.size()` and every byte sequence `s` that is not empty when
`p == X.size()` (with `size() + len(s) + 1` representable in `size_type`):
when `X.insert(p, s)` returns, the following `X.erase(p, len(s))` returns too
and leaves `X` with exactly its original content and size; and the insert
returns whenever the allocator has room for `max(needed, 2 * (capacity + 1))`
bytes. -/
theorem insert_then_erase_restores (X : Obj) (p : Nat) (s : List Byte) (hwf : WF X)
    (hp : p ≤ size X) (hne : s ≠ [] ∨ p < size X) (hfit : size X + s.length + 1 < 2 ^ 64) :
    (∀ X1, insert X p s = .ok X1 →
      ∃ X2, erase X1 p s.length = .ok X2 ∧ content X2 = content X ∧ size X2 = size X) ∧
    (max (size X + s.length + 1) (2 * (capacity X + 1)) < X.mem.room →
      ∃ X1, insert X p s = .ok X1) := by
  refine ⟨?_, fun hroom => ?_⟩
  swap
  · obtain ⟨X1, e, _⟩ := insert_ok X p s hwf hp hroom
    exact ⟨X1, e⟩
  intro X1 e1
  have hX1 : WF X1 ∧ size X1 = size X + s.length ∧
      content X1 = (content X).take p ++ s ++ (content X).drop p := by
    rcases insert_cases X p s hwf hp hfit with ⟨o2, e, hwf2, hsize, hc, _⟩ | he
    · rw [e1] at e; cases e; exact ⟨hwf2, hsize, hc⟩
    · rw [e1] at he; cases he
  obtain ⟨hwf1, hsize1, hc1⟩ := hX1
  have hA : ((content X).take p).length = p := by simp [content_length]; omega
  have htake : (content X1).take p = (content X).take p := by
    rw [hc1, List.append_assoc, List.take_left' hA]
  by_cases hlt : p < size X
  · obtain ⟨X2, e2, _, _, hsize2, h1, h2, _⟩ := erase_some X1 p s.length hwf1 (by omega)
    refine ⟨X2, e2, ?_, by omega⟩
    rw [content_erase_of X1 X2 p s.length (by omega) hsize2 h1 h2, htake, hc1,
      List.drop_left' (by rw [List.length_append, hA]), List.take_append_drop]
  · have hpe : p = size X := by omega
    have hs : s.length ≠ 0 := by
      rcases hne with h | h
      · intro h0; exact h (List.length_eq_zero.mp h0)
      · omega
    obtain ⟨X2, e2, _, _, hsize2, h1, _⟩ := erase_truncate X1 p s.length hwf1 (by omega)
      (Or.inr (by rw [add64_of_lt _ _ (by omega)]; omega))
    refine ⟨X2, e2, ?_, by omega⟩
    rw [content_take_of X1 X2 p (by omega) hsize2 h1, htake, hpe, ← content_length X,
      List.take_length]

/-- Witness for C10 as amended: `"XYZ"` inserted at 3 into `"abcdef"` and
erased again. -/
theorem insert_then_erase_restores_witness :
    WF str_abcdef ∧ 3 ≤ size str_abcdef ∧ (XYZ ≠ [] ∨ 3 < size str_abcdef) ∧
    size str_abcdef + XYZ.length + 1 < 2 ^ 64 ∧
    ∃ X1, insert str_abcdef 3 XYZ = .ok X1 ∧
      ∃ X2, erase X1 3 XYZ.length = .ok X2 ∧
        content X2 = content str_abcdef ∧ size X2 = size str_abcdef :=
  ⟨str_abcdef_WF, by decide, Or.inl (by decide), by decide,
    ((insert_then_erase_restores str_abcdef 3 XYZ str_abcdef_WF (by decide)
      (Or.inl (by decide)) (by decide)).2 (by decide)).imp
      (fun X1 e => ⟨e, (insert_then_erase_restores str_abcdef 3 XYZ str_abcdef_WF (by decide)
        (Or.inl (by decide)) (by decide)).1 X1 e⟩)⟩

/-! ## The capacity invariant (C1) -/

/-- C1, at the failing input: the string constructed from `"abcde"` and then
given `reserve_exact(2)` is reachable by normally-returning public calls and
has `size() == 5` and `capacity() == 2`, so `size() <= capacity()` fails.
(The same call writes past the three bytes it allocated.) -/
theorem reserve_exact_breaks_capacity_invariant :
    ∃ o, Reachable o ∧ o = outcome (reserve_exact str_abcde 2) ∧ size o = 5 ∧
      capacity o = 2 ∧ capacity o < size o ∧ is_heap o.storage = true ∧
      o.mem.fault = true :=
  ⟨outcome (reserve_exact str_abcde 2),
    Reachable.reserve_exact str_abcde 2 _
      (Reachable.ctor_sv abcde mem0 str_abcde mem0_OK (by rfl)) (by decide) (by rfl),
    rfl, by decide, by decide, by decide, by decide, by decide⟩

/-! ## Push back at the inline boundary (C14) -/

/-- C14, amended: a string constructed from exactly `R - 1 = 29` bytes is in
inline mode; and for every well-formed string `X` of exactly 29 bytes, inline
or heap: when
`push_back(ch)` returns, `X` is in heap mode with `size() == R`, content equal
to the old bytes followed by `ch`, and `capacity() >= R`; the only exception
it lets out is `bad_alloc`, which leaves `X` as it was; and it returns
whenever the allocator has room for `max(31, 2 * (capacity + 1))` bytes. -/
theorem push_back_at_boundary (s : List Byte) (m : Mem) (X : Obj) (ch : Byte) (hm : m.OK)
    (hlen : s.length = SSO_ReservedBytes - 1) (hwf : WF X)
    (hsz : size X = SSO_ReservedBytes - 1) :
    (∃ X0, ctor_sv s m = .ok X0 ∧ WF X0 ∧ is_heap X0.storage = false ∧
      size X0 = SSO_ReservedBytes - 1 ∧ content X0 = s) ∧
    (∀ X2, push_back X ch = .ok X2 → is_heap X2.storage = true ∧
      size X2 = SSO_ReservedBytes ∧ content X2 = content X ++ [ch] ∧
      SSO_ReservedBytes ≤ capacity X2 ∧ data X2 (size X2) = 0) ∧
    (∀ e X2, push_back X ch = .error (e, X2) → e = Exn.bad_alloc ∧ X2 = X) ∧
    (max (size X + 2) (2 * (capacity X + 1)) < X.mem.room → ∃ X2, push_back X ch = .ok X2) := by
  have h29 : s.length = 29 := hlen
  have hsz29 : size X = 29 := hsz
  refine ⟨?_, ?_, ?_, push_back_ok X ch hwf⟩
  · obtain ⟨o, e, hs, hsize, hc, _⟩ := ctor_bytes_small_obs s s.length m (by omega) rfl
    obtain ⟨o2, e2, hwf2⟩ := ctor_bytes_small_WF (of_list s) s.length m (by omega) hm
    have e0 : ctor_sv s m = .ok o := e
    have : o2 = o := by rw [e] at e2; cases e2; rfl
    subst this
    exact ⟨o2, e0, hwf2, hs, by rw [hsize]; exact hlen, hc⟩
  · intro X2 h
    rcases push_back_cases X ch hwf (by omega) with ⟨o2, e, _, hsize, hc, hz, hinl, hcap⟩ | he
    · rw [h] at e; cases e
      have hheap : is_heap X2.storage = true := by
        cases hh : is_heap X2.storage
        · have := (hinl hh).2; omega
        · rfl
      have := hcap hheap
      exact ⟨hheap, by rw [hsize, hsz29]; rfl, hc, by unfold SSO_ReservedBytes; omega, hz⟩
    · rw [h] at he; cases he
  · intro e X2 h
    rcases push_back_cases X ch hwf (by omega) with ⟨o2, e2, _⟩ | he
    · rw [h] at e2; cases e2
    · rw [h] at he; cases he
      exact ⟨rfl, rfl⟩

/-- Witness for C14: the string constructed from 29 bytes `'x'`, and `'!'`
pushed onto it. -/
theorem push_back_at_boundary_witness :
    mem0.OK ∧ twenty_nine_x.length = SSO_ReservedBytes - 1 ∧ WF str_twenty_nine_x ∧
    size str_twenty_nine_x = SSO_ReservedBytes - 1 ∧
    is_heap str_twenty_nine_x.storage = false ∧
    ∃ X2, push_back str_twenty_nine_x 33 = .ok X2 ∧ is_heap X2.storage = true ∧
      size X2 = SSO_ReservedBytes ∧ content X2 = content str_twenty_nine_x ++ [33] ∧
      SSO_ReservedBytes ≤ capacity X2 ∧ data X2 (size X2) = 0 :=
  ⟨mem0_OK, by decide, str_twenty_nine_x_WF, by decide, by decide,
    ((push_back_at_boundary twenty_nine_x mem0 str_twenty_nine_x 33 mem0_OK (by decide)
      str_twenty_nine_x_WF (by decide)).2.2.2 (by decide)).imp
      (fun X2 e => ⟨e, (push_back_at_boundary twenty_nine_x mem0 str_twenty_nine_x 33 mem0_OK
        (by decide) str_twenty_nine_x_WF (by decide)).2.1 X2 e⟩)⟩

/-! ## Reserve (C18) -/

/-- C18: for every well-formed string `X` and every `n` for which `n + 1` does
not overflow `size_type`: when `X.reserve(n)` returns, the content and size of
`X` are unchanged and `capacity() >= n`, and if `capacity() >= n` held
beforehand the call is a no-op (the object, so its mode and capacity, are
unchanged); the only exception it lets out is `bad_alloc`, which leaves `X`
as it was; and it returns whenever the allocator has room for
`max(n + 1, 2 * (capacity + 1))` bytes. -/
theorem reserve_keeps_content (X : Obj) (n : Nat) (hwf : WF X) (hn : n + 1 < 2 ^ 64) :
    (∀ X2, reserve X n = .ok X2 →
      content X2 = content X ∧ size X2 = size X ∧ n ≤ capacity X2 ∧
      (n ≤ capacity X → X2 = X ∧ is_heap X2.storage = is_heap X.storage ∧
        capacity X2 = capacity X)) ∧
    (∀ e X2, reserve X n = .error (e, X2) → e = Exn.bad_alloc ∧ X2 = X) ∧
    (max (n + 1) (2 * (capacity X + 1)) < X.mem.room → ∃ X2, reserve X n = .ok X2) := by
  refine ⟨?_, ?_, reserve_ok X n hwf⟩
  · intro X2 h
    rcases reserve_cases X n hwf hn with ⟨o2, e, _, hsize, hc, _, hcap, hnoop⟩ | he
    · rw [h] at e; cases e
      refine ⟨hc, hsize, hcap, fun hle => ?_⟩
      have := hnoop hle
      subst this
      exact ⟨rfl, rfl, rfl⟩
    · rw [h] at he; cases he
  · intro e X2 h
    rcases reserve_cases X n hwf hn with ⟨o2, e2, _⟩ | he
    · rw [h] at e2; cases e2
    · rw [h] at he; cases he
      exact ⟨rfl, rfl⟩

/-- Witness for C18: `reserve(100)` on `"abcde"` moves it to the heap with
capacity 100, and `reserve(10)` on it is a no-op. -/
theorem reserve_keeps_content_witness :
    WF str_abcde ∧ 100 + 1 < 2 ^ 64 ∧
    (∃ X2, reserve str_abcde 100 = .ok X2 ∧ content X2 = content str_abcde ∧
      size X2 = size str_abcde ∧ 100 ≤ capacity X2) ∧
    reserve str_abcde 10 = .ok str_abcde :=
  ⟨str_abcde_WF, by decide,
    ((reserve_keeps_content str_abcde 100 str_abcde_WF (by decide)).2.2 (by decide)).imp
      (fun X2 e => ⟨e,
        ((reserve_keeps_content str_abcde 100 str_abcde_WF (by decide)).1 X2 e).1,
        ((reserve_keeps_content str_abcde 100 str_abcde_WF (by decide)).1 X2 e).2.1,
        ((reserve_keeps_content str_abcde 100 str_abcde_WF (by decide)).1 X2 e).2.2.1⟩),
    by rfl⟩

/-! ## Resize (C16) -/

/-- Resize without an access outside the buffer: for every well-formed string
`X` (inline or heap), every `new_size`
of `size_type` and every fill byte `ch`: when `X.resize(new_size, ch)` returns
without having accessed memory outside its buffer, `size() == new_size`, the
content is the first `min(new_size, old size)` old bytes followed by
`new_size - old size` copies of `ch`, and the byte at offset `new_size` is 0;
it returns that way whenever `new_size + 1` does not overflow `size_type`;
the only exception it lets out is `bad_alloc`, which leaves `X` as it was;
and it returns whenever the allocator has room for
`max(new_size + 1, 2 * (capacity + 1))` bytes. -/
theorem resize_sets_size (X : Obj) (new_size : Nat) (ch : Byte) (hwf : WF X)
    (hn : new_size < 2 ^ 64) :
    (∀ X2, resize X new_size ch = .ok X2 → X2.mem.fault = false →
      size X2 = new_size ∧
      content X2 = (content X).take (min new_size (size X)) ++
        List.replicate (new_size - size X) ch ∧
      data X2 new_size = 0) ∧
    (new_size + 1 < 2 ^ 64 → ∀ X2, resize X new_size ch = .ok X2 → X2.mem.fault = false) ∧
    (∀ e X2, resize X new_size ch = .error (e, X2) → e = Exn.bad_alloc ∧ X2 = X) ∧
    (max (new_size + 1) (2 * (capacity X + 1)) < X.mem.room →
      ∃ X2, resize X new_size ch = .ok X2 ∧ X2.mem.fault = false) := by
  refine ⟨?_, ?_, resize_error X new_size ch, resize_ok X new_size ch hwf⟩
  · intro X2 h hf
    by_cases hfit : new_size + 1 < 2 ^ 64
    · rcases resize_cases X new_size ch hwf hfit with ⟨o2, e, _, hsize, hc, hz, _⟩ | he
      · rw [h] at e; cases e
        refine ⟨hsize, ?_, by rw [← hsize]; exact hz⟩
        rw [hc]
        congr 1
        rcases Nat.le_total new_size (size X) with hle | hle
        · rw [Nat.min_eq_left hle]
        · rw [Nat.min_eq_right hle, List.take_of_length_le (le_of_eq (content_length X)),
            List.take_of_length_le (le_trans (le_of_eq (content_length X)) hle)]
      · rw [h] at he; cases he
    · exfalso
      have : new_size = npos := by unfold npos; omega
      subst this
      rw [resize_npos_faults X ch hwf X2 h] at hf
      cases hf
  · intro hfit X2 h
    rcases resize_cases X new_size ch hwf hfit with ⟨o2, e, hwf2, _⟩ | he
    · rw [h] at e; cases e
      exact hwf2.mem_ok.no_fault
    · rw [h] at he; cases he

/-- Instance of `resize_sets_size`: `"abcde"` resized to 7 with `'x'`, and the heap string of
forty `'x'` resized to 3. -/
theorem resize_sets_size_witness :
    WF str_abcde ∧ 7 < 2 ^ 64 ∧
    (∃ X2, resize str_abcde 7 120 = .ok X2 ∧ X2.mem.fault = false ∧ size X2 = 7 ∧
      content X2 = (content str_abcde).take (min 7 (size str_abcde)) ++
        List.replicate (7 - size str_abcde) 120 ∧
      data X2 7 = 0) ∧
    content (outcome (resize str_forty_x 3 0)) = [120, 120, 120] :=
  ⟨str_abcde_WF, by decide,
    ((resize_sets_size str_abcde 7 120 str_abcde_WF (by decide)).2.2.2 (by decide)).imp
      (fun X2 e => ⟨e.1, e.2,
        (resize_sets_size str_abcde 7 120 str_abcde_WF (by decide)).1 X2 e.1 e.2⟩),
    by decide⟩

/-- C16, at the failing input: the inline string `"abcde"` and
`new_size = 7 <= R - 1 = 29`.  `resize(7, 'x')` returns with the string in
heap mode (size 7, capacity 7, content `"abcdexx"`, no access outside a
buffer): the growing branch of `resize` calls `make_non_sso_and_reserve`
without the test `need <= sso_capacity_bytes()` that `reserve`, `push_back`,
`append` and `insert` make first. -/
theorem resize_within_inline_capacity_goes_heap :
    WF str_abcde ∧ is_heap str_abcde.storage = false ∧ 7 ≤ SSO_ReservedBytes - 1 ∧
    ∃ X2, resize str_abcde 7 120 = .ok X2 ∧ is_heap X2.storage = true ∧ size X2 = 7 ∧
      capacity X2 = 7 ∧ content X2 = [97, 98, 99, 100, 101, 120, 120] ∧
      X2.mem.fault = false :=
  ⟨str_abcde_WF, by decide, by decide, outcome (resize str_abcde 7 120), by rfl,
    by decide, by decide, by decide, by decide, by decide⟩

/-! ## Exact reservation (C17) -/

/-- C17, at the failing input: the inline string `"abcde"` has
`capacity() == 29 >= 10`, yet `reserve_exact(10)` is no no-op: it returns with
the string in heap mode and `capacity() == 10` (content and size unchanged,
no access outside a buffer).  The two early-return tests of `reserve_exact`
are made under the wrong mode. -/
theorem reserve_exact_not_a_noop :
    WF str_abcde ∧ is_heap str_abcde.storage = false ∧ capacity str_abcde = 29 ∧
    10 ≤ capacity str_abcde ∧
    ∃ X2, reserve_exact str_abcde 10 = .ok X2 ∧ is_heap X2.storage = true ∧
      capacity X2 = 10 ∧ size X2 = 5 ∧ content X2 = content str_abcde ∧
      X2.mem.fault = false :=
  ⟨str_abcde_WF, by decide, by decide, by decide, outcome (reserve_exact str_abcde 10), by rfl,
    by decide, by decide, by decide, by decide, by decide⟩

/-! ## Shrink to fit (C20) -/

/-- The fields `shrink_to_fit` leaves: for every well-formed string `X`, when
`shrink_to_fit` returns, the
content and size are unchanged, and an inline string is left untouched (the
object is the one given), a heap string with `size() <= R - 1` is inline, and
a heap string with `size() > R - 1` is in heap mode with raw capacity exactly
`size() + 1` (`capacity() == size()`) and no access outside a buffer has
happened; the only exception it lets out is `bad_alloc`, which leaves `X` as
it was; and it returns whenever the allocator has room for `size() + 1`
bytes.  (The result is about the fields of the string; the heap-to-inline
branch reaches them after a `deallocate` of a pointer it has overwritten.) -/
theorem shrink_to_fit_by_mode (X : Obj) (hwf : WF X) :
    (∀ X2, shrink_to_fit X = .ok X2 →
      content X2 = content X ∧ size X2 = size X ∧
      (is_heap X.storage = false → X2 = X) ∧
      (is_heap X.storage = true → size X ≤ SSO_ReservedBytes - 1 →
        is_heap X2.storage = false) ∧
      (is_heap X.storage = true → SSO_ReservedBytes - 1 < size X →
        is_heap X2.storage = true ∧ heap_capacity_raw X2.storage = size X2 + 1 ∧
        capacity X2 = size X2 ∧ X2.mem.fault = false)) ∧
    (∀ e X2, shrink_to_fit X = .error (e, X2) → e = Exn.bad_alloc ∧ X2 = X) ∧
    (size X + 1 < X.mem.room → ∃ X2, shrink_to_fit X = .ok X2) := by
  refine ⟨?_, shrink_error X, shrink_ok X hwf⟩
  intro X2 h
  rcases shrink_cases X hwf with ⟨o2, e, hsize, hc, _, h1, h2, h3⟩ | ⟨he, _⟩
  · rw [h] at e; cases e
    refine ⟨hc, hsize, h1, fun hh hs => h2 hh (by unfold SSO_ReservedBytes at hs; omega), ?_⟩
    intro hh hs
    obtain ⟨hwf2, hm, hcap⟩ := h3 hh (by unfold SSO_ReservedBytes at hs; omega)
    refine ⟨hm, by rw [hcap, hsize], ?_, hwf2.mem_ok.no_fault⟩
    unfold capacity
    rw [hm, if_pos rfl, hcap, hsize]
    have := hwf.succ_size_lt
    unfold sub64
    omega
  · rw [h] at he; cases he

/-- Instance of `shrink_to_fit_by_mode`: the heap string of forty `'x'` with raw capacity 101 is
cut down to raw capacity 41, and the heap string `"xxx"` becomes inline. -/
theorem shrink_to_fit_by_mode_witness :
    WF str_forty_x_reserved ∧ heap_capacity_raw str_forty_x_reserved.storage = 101 ∧
    (∃ X2, shrink_to_fit str_forty_x_reserved = .ok X2 ∧
      content X2 = content str_forty_x_reserved ∧ size X2 = 40 ∧
      is_heap X2.storage = true ∧ heap_capacity_raw X2.storage = 41) ∧
    (∃ X2, shrink_to_fit str_forty_x_resized = .ok X2 ∧ content X2 = [120, 120, 120] ∧
      size X2 = 3 ∧ is_heap str_forty_x_resized.storage = true ∧ is_heap X2.storage = false) :=
  ⟨str_forty_x_reserved_WF, by decide,
    ((shrink_to_fit_by_mode str_forty_x_reserved str_forty_x_reserved_WF).2.2 (by decide)).imp
      (fun X2 e => ⟨e,
        ((shrink_to_fit_by_mode str_forty_x_reserved str_forty_x_reserved_WF).1 X2 e).1,
        ((shrink_to_fit_by_mode str_forty_x_reserved str_forty_x_reserved_WF).1 X2 e).2.1.trans
          (by decide),
        (((shrink_to_fit_by_mode str_forty_x_reserved str_forty_x_reserved_WF).1 X2
          e).2.2.2.2 (by decide) (by decide)).1,
        ((((shrink_to_fit_by_mode str_forty_x_reserved str_forty_x_reserved_WF).1 X2
          e).2.2.2.2 (by decide) (by decide)).2.1).trans
          (by rw [((shrink_to_fit_by_mode str_forty_x_reserved str_forty_x_reserved_WF).1 X2
            e).2.1]; decide)⟩),
    ⟨outcome (shrink_to_fit str_forty_x_resized), by rfl, by decide, by decide, by decide,
      by decide⟩⟩

/-- C20: for every string `X` on which `shrink_to_fit` returns, a second
`shrink_to_fit` returns too and leaves the object as the first call left it:
same mode, size, capacity and content; and when the first call throws, the
object is as it was, so a second call throws the same way. -/
theorem shrink_to_fit_idempotent (X : Obj) :
    (∀ X1, shrink_to_fit X = .ok X1 →
      ∃ X2, shrink_to_fit X1 = .ok X2 ∧ X2 = X1 ∧ is_heap X2.storage = is_heap X1.storage ∧
        size X2 = size X1 ∧ capacity X2 = capacity X1 ∧ content X2 = content X1) ∧
    (∀ e X1, shrink_to_fit X = .error (e, X1) → shrink_to_fit X1 = .error (e, X1)) := by
  refine ⟨fun X1 h => ⟨X1, shrink_twice X X1 h, rfl, rfl, rfl, rfl, rfl⟩, ?_⟩
  intro e X1 h
  obtain ⟨_, hx⟩ := shrink_error X e X1 h
  subst hx
  exact h

/-- Witness for C20: the heap string of forty `'x'` with raw capacity 101. -/
theorem shrink_to_fit_idempotent_witness :
    shrink_to_fit str_forty_x_reserved = .ok (outcome (shrink_to_fit str_forty_x_reserved)) ∧
    ∃ X2, shrink_to_fit (outcome (shrink_to_fit str_forty_x_reserved)) = .ok X2 ∧
      X2 = outcome (shrink_to_fit str_forty_x_reserved) ∧
      is_heap X2.storage = is_heap (outcome (shrink_to_fit str_forty_x_reserved)).storage ∧
      size X2 = size (outcome (shrink_to_fit str_forty_x_reserved)) ∧
      capacity X2 = capacity (outcome (shrink_to_fit str_forty_x_reserved)) ∧
      content X2 = content (outcome (shrink_to_fit str_forty_x_reserved)) :=
  ⟨by rfl, (shrink_to_fit_idempotent str_forty_x_reserved).1 _ (by rfl)⟩

/-! ## Comparison (C11, C12) -/

/-- C11, at the failing input: over a `memcmp` of the C standard that returns
the difference of the first pair of bytes that differ, `"abcde".compare("abz")`
is `'c' - 'z' = -23`, not a value of `{-1, 0, 1}`: `compare` returns the
result of `memcmp` as it is when that is not 0. -/
theorem compare_returns_memcmp_value :
    MemcmpSpec memcmp_diff ∧ content str_abcde = [97, 98, 99, 100, 101] ∧
    compare memcmp_diff str_abcde [97, 98, 122] = -23 ∧
    compare memcmp_diff str_abcde [97, 98, 122] ≠ -1 ∧
    compare memcmp_diff str_abcde [97, 98, 122] ≠ 0 ∧
    compare memcmp_diff str_abcde [97, 98, 122] ≠ 1 :=
  ⟨memcmp_diff_spec, by decide, by decide, by decide, by decide, by decide⟩

/-- C12: over every `memcmp` of the C standard, for every string `a` and byte
sequence `b`: if the first `min(|a|, |b|)` bytes differ, first at index `k`,
`a.compare(b)` is negative when `a[k] < b[k]` and positive when
`a[k] > b[k]`, the bytes compared as unsigned; if they are equal, it is -1
when `|a| < |b|`, 0 when `|a| == |b|` and 1 when `|a| > |b|`. -/
theorem compare_orders_bytes_then_length (memcmp : Bytes → Bytes → Nat → Int)
    (hmc : MemcmpSpec memcmp) (a : Obj) (b : List Byte) :
    (∀ k, k < min (size a) b.length →
      (∀ i, i < k → (content a).getD i 0 = b.getD i 0) →
      (content a).getD k 0 ≠ b.getD k 0 →
      ((content a).getD k 0 < b.getD k 0 → compare memcmp a b < 0) ∧
      (b.getD k 0 < (content a).getD k 0 → 0 < compare memcmp a b)) ∧
    ((content a).take (min (size a) b.length) = b.take (min (size a) b.length) →
      compare memcmp a b =
        if size a < b.length then -1 else if size a = b.length then 0 else 1) := by
  constructor
  · intro k hk heq hne
    have hka : k < size a := lt_of_lt_of_le hk (Nat.min_le_left _ _)
    rw [content_getD_lt a k hka] at hne ⊢
    have hm : mismatch (data a) (of_list b) 0 (min (size a) b.length) = some k := by
      rw [mismatch_some]
      refine ⟨Nat.zero_le _, by omega, hne, ?_⟩
      intro i _ hi
      have := heq i hi
      rw [content_getD_lt a i (by omega)] at this
      exact this
    have hs := ((hmc (data a) (of_list b) (min (size a) b.length)).2 k hm)
    constructor
    · intro hlt
      have hr := hs.1 hlt
      rw [compare_of_differ memcmp a b (by omega)]
      exact hr
    · intro hlt
      have hr := hs.2 hlt
      rw [compare_of_differ memcmp a b (by omega)]
      exact hr
  · intro heq
    apply compare_of_agree
    apply (hmc (data a) (of_list b) (min (size a) b.length)).1
    rw [mismatch_none]
    intro i _ hi
    have hi2 : i < min (size a) b.length := by omega
    have hia : i < size a := lt_of_lt_of_le hi2 (Nat.min_le_left _ _)
    have h1 := congrArg (fun l => l.getD i 0) heq
    simp only [getD_take, if_pos hi2] at h1
    rw [content_getD_lt a i hia] at h1
    exact h1

/-- Witness for C12: over the byte-difference `memcmp`, `"abcde"` compared with
`"abz"` (negative: `'c' < 'z'`), and with `"abc"` (equal bytes, longer:
1). -/
theorem compare_orders_bytes_then_length_witness :
    MemcmpSpec memcmp_diff ∧ compare memcmp_diff str_abcde [97, 98, 122] < 0 ∧
    compare memcmp_diff str_abcde [97, 98, 99] = 1 :=
  ⟨memcmp_diff_spec,
    ((compare_orders_bytes_then_length memcmp_diff memcmp_diff_spec str_abcde
      [97, 98, 122]).1 2 (by decide) (by decide) (by decide)).1 (by decide),
    (compare_orders_bytes_then_length memcmp_diff memcmp_diff_spec str_abcde
      [97, 98, 99]).2 (by decide)⟩


/-! ## Search (C13) -/

/-- C13: for every string `X`, pattern `p` and start index `start`,
`find(p, start)` returns, and the value `r` it returns is the least index
`i >= start` such that `i + len(p) <= X.size()` and `X[i .. i + len(p))`
equals `p` (when there is such an index, `r` is one and no other is below
it), and `npos` when no such index exists; in particular an empty pattern
returns `start` whenever `start <= X.size()` and `npos` when
`start > X.size()`. -/
theorem find_returns_least_occurrence (X : Obj) (p : List Byte) (start : Nat) :
    ∃ r, find X p start = some r ∧
      (∀ i, Occurs X p start i → Occurs X p start r ∧ r ≤ i) ∧
      ((∀ i, ¬ Occurs X p start i) → r = npos) ∧
      (p = [] → start ≤ size X → r = start) ∧
      (p = [] → size X < start → r = npos) := by
  obtain ⟨r, e, hr⟩ := find_spec X p start
  refine ⟨r, e, ?_, ?_, ?_, ?_⟩
  · intro i hi
    rcases hr with ⟨h1, h2⟩ | ⟨_, h2⟩
    · exact ⟨h1, h2 i hi⟩
    · exact absurd hi (h2 i)
  · intro hno
    rcases hr with ⟨h1, _⟩ | ⟨h1, _⟩
    · exact absurd h1 (hno r)
    · exact h1
  · intro hp hs
    subst hp
    have hocc : Occurs X [] start start := ⟨le_refl _, by simpa using hs, by simp⟩
    rcases hr with ⟨h1, h2⟩ | ⟨_, h2⟩
    · exact Nat.le_antisymm (h2 start hocc) h1.1
    · exact absurd hocc (h2 start)
  · intro hp hs
    rcases hr with ⟨h1, _⟩ | ⟨h1, _⟩
    · have := h1.1
      have := h1.2.1
      omega
    · exact h1

/-- Witness for C13: `"45"` is found in `"0123456789"` from index 2 at index
4, and the empty pattern from index 10 at index 10. -/
theorem find_returns_least_occurrence_witness :
    find str_digits [52, 53] 2 = some 4 ∧ find str_digits [] 10 = some 10 ∧
    ∃ r, find str_digits [52, 53] 2 = some r ∧
      (∀ i, Occurs str_digits [52, 53] 2 i → Occurs str_digits [52, 53] 2 r ∧ r ≤ i) ∧
      ((∀ i, ¬ Occurs str_digits [52, 53] 2 i) → r = npos) ∧
      (([52, 53] : List Byte) = [] → 2 ≤ size str_digits → r = 2) ∧
      (([52, 53] : List Byte) = [] → size str_digits < 2 → r = npos) :=
  ⟨by decide, by decide, find_returns_least_occurrence str_digits [52, 53] 2⟩

/-! ## Allocation failure (C25) -/

/-- C25: for every string `X`, each of the growth-triggering operations
`push_back`, `append`, `insert`, `resize` and `reserve`, and the routine
`make_non_sso_and_reserve` they allocate through: whenever the call raises,
the string is exactly as it was before the call (the whole object and the
free store: mode, size, capacity, content, owned buffer), and what is raised
is the allocation failure `bad_alloc` (for `insert`, unless `pos > size()`,
which raises `out_of_range` before anything else). -/
theorem growth_failure_keeps_state (X : Obj) (ch : Byte) (sv : List Byte) (pos n new_size : Nat) :
    (∀ e X2, make_non_sso_and_reserve X n = .error (e, X2) → e = Exn.bad_alloc ∧ X2 = X) ∧
    (∀ e X2, push_back X ch = .error (e, X2) → e = Exn.bad_alloc ∧ X2 = X) ∧
    (∀ e X2, append X sv = .error (e, X2) → e = Exn.bad_alloc ∧ X2 = X) ∧
    (∀ e X2, insert X pos sv = .error (e, X2) →
      X2 = X ∧ ((e = Exn.out_of_range ∧ size X < pos) ∨ (e = Exn.bad_alloc ∧ pos ≤ size X))) ∧
    (∀ e X2, resize X new_size ch = .error (e, X2) → e = Exn.bad_alloc ∧ X2 = X) ∧
    (∀ e X2, reserve X n = .error (e, X2) → e = Exn.bad_alloc ∧ X2 = X) :=
  ⟨make_non_sso_error X n, push_back_throws X ch, append_bytes_throws X (of_list sv) sv.length,
    insert_throws X pos sv, resize_error X new_size ch, reserve_throws X n⟩

/-- Witness for C25: on an arena with 62 bytes left, `push_back` on the full
heap string of forty `'x'`, and `append`, `insert`, `resize` and `reserve` on
the inline string `"abcde"`, raise `bad_alloc` and leave the string as it
was. -/
theorem growth_failure_keeps_state_witness :
    push_back str_forty_x_tight 33 = .error (Exn.bad_alloc, str_forty_x_tight) ∧
    append str_abcde_tight (forty_x ++ forty_x) = .error (Exn.bad_alloc, str_abcde_tight) ∧
    insert str_abcde_tight 2 (forty_x ++ forty_x) = .error (Exn.bad_alloc, str_abcde_tight) ∧
    resize str_abcde_tight 70 120 = .error (Exn.bad_alloc, str_abcde_tight) ∧
    reserve str_abcde_tight 100 = .error (Exn.bad_alloc, str_abcde_tight) ∧
    (Exn.bad_alloc = Exn.bad_alloc ∧ str_forty_x_tight = str_forty_x_tight) :=
  ⟨by rfl, by rfl, by rfl, by rfl, by rfl,
    (growth_failure_keeps_state str_forty_x_tight 33 [] 0 0 0).2.1 _ _ (by rfl)⟩

/-! ## Append and concatenation -/

/-- Two appends and one, of characters outside the string: for every
well-formed string `X` (holding `a`) and all byte sequences `b` and `c`
outside it (with `size() + len(b) + len(c) + 1` representable in
`size_type`): when `X.append(b)` and then `append(c)` return on one route and
`X.append(b + c)` returns on the other, the two strings are byte-equal (same
size, same content `a + b + c`), whatever their capacities; each `append`
returns whenever the allocator has room for `max(needed, 2 * (capacity + 1))`
bytes at its call. -/
theorem append_twice_eq_append_concat (X : Obj) (b c : List Byte) (hwf : WF X)
    (hfit : size X + b.length + c.length + 1 < 2 ^ 64) :
    (∀ X1 X2 X3, append X b = .ok X1 → append X1 c = .ok X2 → append X (b ++ c) = .ok X3 →
      content X2 = content X3 ∧ size X2 = size X3 ∧ content X3 = content X ++ (b ++ c)) ∧
    (max (size X + b.length + 1) (2 * (capacity X + 1)) < X.mem.room →
      ∃ X1, append X b = .ok X1 ∧
        (max (size X1 + c.length + 1) (2 * (capacity X1 + 1)) < X1.mem.room →
          ∃ X2, append X1 c = .ok X2)) ∧
    (max (size X + (b ++ c).length + 1) (2 * (capacity X + 1)) < X.mem.room →
      ∃ X3, append X (b ++ c) = .ok X3) := by
  refine ⟨?_, ?_, ?_⟩
  · intro X1 X2 X3 h1 h2 h3
    obtain ⟨hwf1, hs1, hc1⟩ := append_returns X X1 b hwf (by omega) h1
    obtain ⟨_, hs2, hc2⟩ := append_returns X1 X2 c hwf1 (by omega) h2
    obtain ⟨_, hs3, hc3⟩ :=
      append_returns X X3 (b ++ c) hwf (by rw [List.length_append]; omega) h3
    refine ⟨?_, ?_, hc3⟩
    · rw [hc2, hc1, hc3, List.append_assoc]
    · rw [hs2, hs1, hs3, List.length_append]; omega
  · intro hroom
    obtain ⟨X1, e1, hwf1, _⟩ := append_ok X b hwf hroom
    refine ⟨X1, e1, fun hroom1 => ?_⟩
    obtain ⟨X2, e2, _⟩ := append_ok X1 c hwf1 hroom1
    exact ⟨X2, e2⟩
  · intro hroom
    obtain ⟨X3, e3, _⟩ := append_ok X (b ++ c) hwf hroom
    exact ⟨X3, e3⟩

/-- Instance of `append_twice_eq_append_concat`: `"!"` and then forty `'x'` and `"abcde"` appended to the
heap string of forty `'x'` give capacity 163, the 46 bytes appended at once
give capacity 86, and the two strings are byte-equal. -/
theorem append_twice_eq_append_concat_witness :
    WF str_forty_x ∧ size str_forty_x + [33].length + (forty_x ++ abcde).length + 1 < 2 ^ 64 ∧
    capacity (outcome (append (outcome (append str_forty_x [33])) (forty_x ++ abcde))) = 163 ∧
    capacity (outcome (append str_forty_x ([33] ++ (forty_x ++ abcde)))) = 86 ∧
    content (outcome (append (outcome (append str_forty_x [33])) (forty_x ++ abcde))) =
      content (outcome (append str_forty_x ([33] ++ (forty_x ++ abcde)))) :=
  ⟨str_forty_x_WF, by decide, by decide, by decide,
    ((append_twice_eq_append_concat str_forty_x [33] (forty_x ++ abcde) str_forty_x_WF
      (by decide)).1 _ _ _ (by rfl) (by rfl) (by rfl)).1⟩

/-! ## Equality (C26) -/

/-- C26: for every pair of strings `a` and `b`, of any mode and capacity,
`a == b` holds exactly when `a.size() == b.size()` and the first `size()`
bytes of `a` and `b` are equal (that is, when their contents are the same
byte sequence). -/
theorem operator_eq_iff_same_bytes (w : World) (a b : Nat) :
    (operator_eq w a b = true ↔
      size (w.obj a) = size (w.obj b) ∧
        ∀ i, i < size (w.obj a) → data (w.obj a) i = data (w.obj b) i) ∧
    (operator_eq w a b = true ↔ content (w.obj a) = content (w.obj b)) := by
  constructor
  · rw [operator_eq_iff, content_eq_iff]
    constructor
    · rintro ⟨_, h⟩; exact h
    · intro h; exact ⟨h.1, h⟩
  · rw [operator_eq_iff]
    constructor
    · rintro ⟨_, h⟩; exact h
    · intro h
      exact ⟨by rw [← content_length, ← content_length, h], h⟩

/-- Witness for C26: the heap string `"xxx"` of capacity 40 and the inline
string `"xxx"` compare equal; `"abcde"` and forty `'x'` do not. -/
theorem operator_eq_iff_same_bytes_witness :
    is_heap (world_short_heap.obj addr_a).storage = true ∧
    is_heap (world_short_heap.obj addr_b).storage = false ∧
    capacity (world_short_heap.obj addr_a) = 40 ∧
    capacity (world_short_heap.obj addr_b) = 29 ∧
    operator_eq world_short_heap addr_a addr_b = true ∧
    operator_eq world_ab addr_a addr_b = false :=
  ⟨by decide, by decide, by decide, by decide,
    (operator_eq_iff_same_bytes world_short_heap addr_a addr_b).2.mpr (by decide), by decide⟩

/-! ## Swap (C30) -/

/-- C30: for two strings `a` and `b` (their allocators, `std::allocator`, are
equal), `a.swap(b)` leaves `a` as `b` was and `b` as `a` was, so each has the
other's former mode, size, capacity and content; swapping twice restores
both (and everything else); and swapping a string with itself leaves it
unchanged. -/
theorem swap_exchanges (w : World) (a b : Nat) :
    (a ≠ b →
      (swap w a b).obj a = w.obj b ∧ (swap w a b).obj b = w.obj a ∧
      is_heap ((swap w a b).obj a).storage = is_heap (w.obj b).storage ∧
      size ((swap w a b).obj a) = size (w.obj b) ∧
      capacity ((swap w a b).obj a) = capacity (w.obj b) ∧
      content ((swap w a b).obj a) = content (w.obj b) ∧
      is_heap ((swap w a b).obj b).storage = is_heap (w.obj a).storage ∧
      size ((swap w a b).obj b) = size (w.obj a) ∧
      capacity ((swap w a b).obj b) = capacity (w.obj a) ∧
      content ((swap w a b).obj b) = content (w.obj a)) ∧
    swap (swap w a b) a b = w ∧
    swap w a a = w := by
  refine ⟨fun h => ?_, swap_swap w a b, swap_self w a⟩
  have h1 := swap_obj_this w a b h
  have h2 := swap_obj_other w a b h
  refine ⟨h1, h2, ?_, ?_, ?_, ?_, ?_, ?_, ?_, ?_⟩
  · rw [h1]
  · rw [h1]
  · rw [h1]
  · rw [h1]
  · rw [h2]
  · rw [h2]
  · rw [h2]
  · rw [h2]

/-- Witness for C30: the inline string `"abcde"` and the heap string of forty
`'x'`, swapped. -/
theorem swap_exchanges_witness :
    addr_a ≠ addr_b ∧ content ((swap world_ab addr_a addr_b).obj addr_a) = forty_x ∧
    content ((swap world_ab addr_a addr_b).obj addr_b) = abcde ∧
    is_heap ((swap world_ab addr_a addr_b).obj addr_a).storage = true ∧
    is_heap ((swap world_ab addr_a addr_b).obj addr_b).storage = false ∧
    (swap world_ab addr_a addr_b).obj addr_a = world_ab.obj addr_b :=
  ⟨by decide, by decide, by decide, by decide, by decide,
    ((swap_exchanges world_ab addr_a addr_b).1 (by decide)).1⟩

/-! ## Move (C21) -/

/-- C21: for a well-formed source `other` (inline or heap) and a destination
`this` that is another object: after move construction of `this` from
`other`, and after move assignment `this = std::move(other)` to a well-formed
`this` that shares no buffer with `other` (`std::allocator`), the source has
`size() == 0` and is in inline mode, and the destination holds exactly the
source's original content and size (and mode and capacity); both are
well-formed.  Move assignment of a string to itself leaves it unchanged. -/
theorem move_leaves_source_empty (w : World) (this other : Nat) (hne : this ≠ other)
    (hsrc : WF (w.obj other)) :
    (is_heap ((move_ctor w this other).obj other).storage = false ∧
      size ((move_ctor w this other).obj other) = 0 ∧
      content ((move_ctor w this other).obj this) = content (w.obj other) ∧
      size ((move_ctor w this other).obj this) = size (w.obj other) ∧
      is_heap ((move_ctor w this other).obj this).storage = is_heap (w.obj other).storage ∧
      capacity ((move_ctor w this other).obj this) = capacity (w.obj other) ∧
      WF ((move_ctor w this other).obj this) ∧ WF ((move_ctor w this other).obj other)) ∧
    (WF (w.obj this) → NoAlias (w.obj this) (w.obj other) →
      is_heap ((move_assign w this other).obj other).storage = false ∧
      size ((move_assign w this other).obj other) = 0 ∧
      content ((move_assign w this other).obj this) = content (w.obj other) ∧
      size ((move_assign w this other).obj this) = size (w.obj other) ∧
      is_heap ((move_assign w this other).obj this).storage = is_heap (w.obj other).storage ∧
      capacity ((move_assign w this other).obj this) = capacity (w.obj other) ∧
      WF ((move_assign w this other).obj this) ∧ WF ((move_assign w this other).obj other)) ∧
    move_assign w this this = w := by
  refine ⟨?_, ?_, move_assign_self w this⟩
  · have e1 : (move_ctor w this other).obj this = w.obj other := by
      unfold World.obj
      rw [move_ctor_objs_this w this other hne, move_ctor_mem]
    have e2 : ((move_ctor w this other).obj other).storage = reset_storage :=
      move_ctor_objs_other w this other
    obtain ⟨h1, h2, _, _⟩ := is_heap_reset _ e2
    refine ⟨h1, h2, by rw [e1], by rw [e1], by rw [e1], by rw [e1], by rw [e1]; exact hsrc, ?_⟩
    exact WF.of_reset _ e2 hsrc.mem_ok
  · intro hdst hna
    obtain ⟨hwf1, hs, hsize, hcap, hc, hwf2, hreset⟩ := move_assign_spec w this other hne hdst hsrc hna
    obtain ⟨h1, h2, _, _⟩ := is_heap_reset _ hreset
    exact ⟨h1, h2, hc, hsize, by rw [hs], hcap, hwf1, hwf2⟩

/-- Witness for C21: the heap string of forty `'x'` moved into the inline
string `"abcde"` by assignment, and moved into a new string by
construction. -/
theorem move_leaves_source_empty_witness :
    addr_a ≠ addr_b ∧ WF (world_ab.obj addr_b) ∧ WF (world_ab.obj addr_a) ∧
    NoAlias (world_ab.obj addr_a) (world_ab.obj addr_b) ∧
    size ((move_assign world_ab addr_a addr_b).obj addr_b) = 0 ∧
    is_heap ((move_assign world_ab addr_a addr_b).obj addr_b).storage = false ∧
    content ((move_assign world_ab addr_a addr_b).obj addr_a) = forty_x ∧
    content ((move_ctor world_ab addr_c addr_b).obj addr_c) = forty_x ∧
    size ((move_ctor world_ab addr_c addr_b).obj addr_b) = 0 :=
  ⟨by decide, world_ab_WF.2, world_ab_WF.1, world_ab_NoAlias.1,
    ((move_leaves_source_empty world_ab addr_a addr_b (by decide) world_ab_WF.2).2.1
      world_ab_WF.1 world_ab_NoAlias.1).2.1,
    by decide, by decide, by decide, by decide⟩

/-! ## Copy (C22, C23, C24) -/

/-- C22, counterexample: the source is the heap string `"xxx"`, of size
`3 <= R - 1` (the string of forty `'x'` after `resize(3)`); its copy by
construction and its copy by assignment are in heap mode, not in inline
mode. -/
theorem copy_of_short_heap_source_is_heap :
    WF (world_short_heap.obj addr_a) ∧
    size (world_short_heap.obj addr_a) ≤ SSO_ReservedBytes - 1 ∧
    (∃ w1, copy_ctor world_short_heap addr_c addr_a = .ok w1 ∧
      is_heap (w1.obj addr_c).storage = true) ∧
    (∃ w1, copy_assign world_short_heap addr_b addr_a = .ok w1 ∧
      is_heap (w1.obj addr_b).storage = true) :=
  ⟨world_short_heap_WF.1, by decide,
    ⟨woutcome (copy_ctor world_short_heap addr_c addr_a), by rfl, by decide⟩,
    ⟨woutcome (copy_assign world_short_heap addr_b addr_a), by rfl, by decide⟩⟩

/-- C22, amended: for every well-formed source and a destination that is
another object, a returning copy construction, and a returning copy
assignment to a well-formed destination that shares no buffer with the
source, give the copy the mode of the source: heap mode for a heap source, in
a buffer of its own with the capacity of the source, and inline mode for an
inline source; so the copy is in heap mode whenever the source's
`size() > R - 1`, and an inline source (whose `size() <= R - 1`) gives an
inline copy. -/
theorem copy_keeps_mode (w : World) (this other : Nat) (hne : this ≠ other)
    (hsrc : WF (w.obj other)) :
    (∀ w1, copy_ctor w this other = .ok w1 →
      is_heap (w1.obj this).storage = is_heap (w.obj other).storage ∧
      capacity (w1.obj this) = capacity (w.obj other) ∧
      (SSO_ReservedBytes - 1 < size (w.obj other) → is_heap (w1.obj this).storage = true) ∧
      (is_heap (w.obj other).storage = false →
        is_heap (w1.obj this).storage = false ∧ size (w.obj other) ≤ SSO_ReservedBytes - 1) ∧
      NoAlias (w1.obj this) (w1.obj other)) ∧
    (WF (w.obj this) → NoAlias (w.obj this) (w.obj other) →
      ∀ w1, copy_assign w this other = .ok w1 →
        is_heap (w1.obj this).storage = is_heap (w.obj other).storage ∧
        capacity (w1.obj this) = capacity (w.obj other) ∧
        (SSO_ReservedBytes - 1 < size (w.obj other) → is_heap (w1.obj this).storage = true) ∧
        (is_heap (w.obj other).storage = false →
          is_heap (w1.obj this).storage = false ∧ size (w.obj other) ≤ SSO_ReservedBytes - 1) ∧
        NoAlias (w1.obj this) (w1.obj other)) := by
  constructor
  · intro w1 h
    rcases copy_ctor_cases w this other hne hsrc with ⟨w2, e, hc⟩ | ⟨e, _⟩
    · rw [h] at e; cases e
      exact hc.mode_facts hsrc
    · rw [h] at e; cases e
  · intro hdst hna w1 h
    rcases copy_assign_cases w this other hne hdst hsrc hna with ⟨w2, e, hc⟩ | ⟨e, _⟩
    · rw [h] at e; cases e
      exact hc.mode_facts hsrc
    · rw [h] at e; cases e

/-- Witness for C22, amended: the copy of the heap string of forty `'x'` is a
heap string, the copy of the inline string `"abcde"` is inline. -/
theorem copy_keeps_mode_witness :
    addr_c ≠ addr_b ∧ WF (world_ab.obj addr_b) ∧
    (∃ w1, copy_ctor world_ab addr_c addr_b = .ok w1 ∧
      is_heap (w1.obj addr_c).storage = is_heap (world_ab.obj addr_b).storage ∧
      is_heap (w1.obj addr_c).storage = true) ∧
    is_heap ((woutcome (copy_ctor world_ab addr_c addr_a)).obj addr_c).storage = false :=
  ⟨by decide, world_ab_WF.2,
    ⟨woutcome (copy_ctor world_ab addr_c addr_b), by rfl,
      ((copy_keeps_mode world_ab addr_c addr_b (by decide) world_ab_WF.2).1 _ (by rfl)).1,
      by decide⟩,
    by decide⟩

/-- C23: for every well-formed source `other` (inline or heap) and a
destination `this` that is another object: when copy construction of `this`
from `other` returns, and when copy assignment `this = other` to a
well-formed `this` that shares no buffer with `other` returns, the
destination compares `==` to the source (same size, same bytes, a 0 byte at
offset `size()`), and the source is unchanged (its storage block, size and
content); the only exception they let out is `bad_alloc`, with the source
unchanged; they return whenever the source is inline or the allocator has
room for the raw capacity of the source; and assignment of a string to
itself returns and leaves everything unchanged. -/
theorem copy_equals_source (w : World) (this other : Nat) (hne : this ≠ other)
    (hsrc : WF (w.obj other)) :
    (∀ w1, copy_ctor w this other = .ok w1 →
      operator_eq w1 this other = true ∧ size (w1.obj this) = size (w.obj other) ∧
      content (w1.obj this) = content (w.obj other) ∧
      data (w1.obj this) (size (w1.obj this)) = 0 ∧
      w1.objs other = w.objs other ∧ size (w1.obj other) = size (w.obj other) ∧
      content (w1.obj other) = content (w.obj other)) ∧
    (∀ e w1, copy_ctor w this other = .error (e, w1) →
      e = Exn.bad_alloc ∧ w1.obj other = w.obj other) ∧
    ((is_heap (w.objs other) = true → heap_capacity_raw (w.objs other) < w.mem.room) →
      ∃ w1, copy_ctor w this other = .ok w1) ∧
    (WF (w.obj this) → NoAlias (w.obj this) (w.obj other) →
      (∀ w1, copy_assign w this other = .ok w1 →
        operator_eq w1 this other = true ∧ size (w1.obj this) = size (w.obj other) ∧
        content (w1.obj this) = content (w.obj other) ∧
        data (w1.obj this) (size (w1.obj this)) = 0 ∧
        w1.objs other = w.objs other ∧ size (w1.obj other) = size (w.obj other) ∧
        content (w1.obj other) = content (w.obj other)) ∧
      (∀ e w1, copy_assign w this other = .error (e, w1) →
        e = Exn.bad_alloc ∧ w1.objs other = w.objs other ∧
        content (w1.obj other) = content (w.obj other)) ∧
      ((is_heap (w.objs other) = true → heap_capacity_raw (w.objs other) < w.mem.room) →
        ∃ w1, copy_assign w this other = .ok w1)) ∧
    copy_assign w this this = .ok w := by
  refine ⟨?_, ?_, ?_, ?_, copy_assign_self w this⟩
  · intro w1 h
    rcases copy_ctor_cases w this other hne hsrc with ⟨w2, e, hc⟩ | ⟨e, _⟩
    · rw [h] at e; cases e
      exact hc.copy_facts
    · rw [h] at e; cases e
  · intro e w1 h
    rcases copy_ctor_cases w this other hne hsrc with ⟨w2, e2, _⟩ | ⟨e2, _⟩
    · rw [h] at e2; cases e2
    · rw [h] at e2; cases e2
      refine ⟨rfl, ?_⟩
      unfold World.obj
      rw [World.set_objs_ne _ _ _ _ (Ne.symm hne)]
      rfl
  · intro hroom
    rcases copy_ctor_cases w this other hne hsrc with ⟨w2, e, _⟩ | ⟨_, hh, hno⟩
    · exact ⟨w2, e⟩
    · exact absurd (hroom hh) hno
  · intro hdst hna
    have hcases := copy_assign_cases w this other hne hdst hsrc hna
    refine ⟨?_, ?_, ?_⟩
    · intro w1 h
      rcases hcases with ⟨w2, e, hc⟩ | ⟨e, _⟩
      · rw [h] at e; cases e
        exact hc.copy_facts
      · rw [h] at e; cases e
    · intro e w1 h
      rcases hcases with ⟨w2, e2, _⟩ | ⟨e2, _⟩
      · rw [h] at e2; cases e2
      · rw [h] at e2; cases e2
        obtain ⟨_, h2, _, _, h5⟩ := released_source w this other hdst hsrc hna
        exact ⟨rfl, h2, h5⟩
    · intro hroom
      rcases hcases with ⟨w2, e, _⟩ | ⟨_, hh, hno⟩
      · exact ⟨w2, e⟩
      · exact absurd (hroom hh) hno

/-- Witness for C23: the heap string of forty `'x'` copied into a new string,
and assigned to the inline string `"abcde"`. -/
theorem copy_equals_source_witness :
    addr_a ≠ addr_b ∧ WF (world_ab.obj addr_b) ∧ WF (world_ab.obj addr_a) ∧
    NoAlias (world_ab.obj addr_a) (world_ab.obj addr_b) ∧
    (∃ w1, copy_assign world_ab addr_a addr_b = .ok w1 ∧
      operator_eq w1 addr_a addr_b = true ∧ content (w1.obj addr_a) = forty_x ∧
      content (w1.obj addr_b) = forty_x) ∧
    content ((woutcome (copy_ctor world_ab addr_c addr_b)).obj addr_c) = forty_x :=
  ⟨by decide, world_ab_WF.2, world_ab_WF.1, world_ab_NoAlias.1,
    ⟨woutcome (copy_assign world_ab addr_a addr_b), by rfl,
      (((copy_equals_source world_ab addr_a addr_b (by decide) world_ab_WF.2).2.2.2.1
        world_ab_WF.1 world_ab_NoAlias.1).1 _ (by rfl)).1,
      by decide, by decide⟩,
    by decide⟩

/-- C24, at the failing input: two heap strings of forty bytes, `a` and `b`,
on an arena without room for a third buffer of 41 bytes.  The copy
assignment `a = b` throws `bad_alloc`, and at the throw the fields of `a` are
what they were, but the buffer they point to is no longer allocated: `a` has
released it (`deallocate(4096, 41)`) before it asked for the new one. -/
theorem copy_assign_failure_releases_buffer :
    WF (world_tight.obj addr_a) ∧ WF (world_tight.obj addr_b) ∧
    is_heap (world_tight.obj addr_a).storage = true ∧
    is_heap (world_tight.obj addr_b).storage = true ∧
    (world_tight.mem.blocks (heap_ptr (world_tight.objs addr_a))).isSome = true ∧
    ∃ w1, copy_assign world_tight addr_a addr_b = .error (Exn.bad_alloc, w1) ∧
      w1.objs addr_a = world_tight.objs addr_a ∧
      heap_ptr (w1.objs addr_a) = 4096 ∧
      (w1.mem.blocks (heap_ptr (w1.objs addr_a))).isSome = false ∧
      w1.mem.freed = [(4096, 41)] :=
  ⟨world_tight_WF.1, world_tight_WF.2.1, by decide, by decide, by decide,
    woutcome (copy_assign world_tight addr_a addr_b), by rfl, by rfl, by decide, by decide,
    by decide⟩

/-! ## Substring of the whole string (C27) -/

/-- C27: for every well-formed string `X` (inline or heap): when
`X.substr(0, X.size())` returns, the string returned compares `==` to `X` (it
has the content of `X`), `X` is the string it was, and no access has been
outside a buffer; the only exception it lets out is `bad_alloc`, with nothing
changed; and it returns whenever the allocator has room for `size() + 1`
bytes. -/
theorem substr_whole_equals_self (w : World) (this ret : Nat) (hne : ret ≠ this)
    (hwf : WF (w.obj this)) :
    (∀ w1, substr w this ret 0 (size (w.obj this)) = .ok w1 →
      operator_eq w1 ret this = true ∧ content (w1.obj ret) = content (w.obj this) ∧
      w1.objs this = w.objs this ∧ content (w1.obj this) = content (w.obj this) ∧
      w1.mem.fault = false) ∧
    (∀ e w1, substr w this ret 0 (size (w.obj this)) = .error (e, w1) →
      e = Exn.bad_alloc ∧ w1 = w) ∧
    (size (w.obj this) + 1 < w.mem.room →
      ∃ w1, substr w this ret 0 (size (w.obj this)) = .ok w1) := by
  have hcases := substr_whole_cases w this ret hne hwf
  refine ⟨?_, ?_, ?_⟩
  · intro w1 h
    rcases hcases with ⟨w2, e, hwf1, _, ho, hsz, hc, hsz2, hc2⟩ | ⟨e, _⟩
    · rw [h] at e; cases e
      refine ⟨?_, hc, ho, hc2, hwf1.mem_ok.no_fault⟩
      rw [operator_eq_iff]
      exact ⟨by rw [hsz, hsz2], by rw [hc, hc2]⟩
    · rw [h] at e; cases e
  · intro e w1 h
    rcases hcases with ⟨w2, e2, _⟩ | ⟨e2, _⟩
    · rw [h] at e2; cases e2
    · rw [h] at e2; cases e2
      exact ⟨rfl, rfl⟩
  · intro hroom
    rcases hcases with ⟨w2, e, _⟩ | ⟨_, _, hno⟩
    · exact ⟨w2, e⟩
    · exact absurd hroom hno

/-- Witness for C27: the heap string of forty `'x'` and the inline string
`"abcde"`. -/
theorem substr_whole_equals_self_witness :
    addr_c ≠ addr_b ∧ WF (world_ab.obj addr_b) ∧
    (∃ w1, substr world_ab addr_b addr_c 0 (size (world_ab.obj addr_b)) = .ok w1 ∧
      operator_eq w1 addr_c addr_b = true ∧ content (w1.obj addr_c) = forty_x) ∧
    operator_eq (woutcome (substr world_ab addr_a addr_c 0 5)) addr_c addr_a = true :=
  ⟨by decide, world_ab_WF.2,
    ⟨woutcome (substr world_ab addr_b addr_c 0 (size (world_ab.obj addr_b))), by rfl,
      ((substr_whole_equals_self world_ab addr_b addr_c (by decide) world_ab_WF.2).1 _
        (by rfl)).1,
      by decide⟩,
    by decide⟩

/-! ## Trimming (C29) -/

/-- C29: for every well-formed string `X` and every NUL-free charset `cs`,
`trim(cs)` returns normally (no `erase` it calls is out of range) and leaves
`X` equal to the old `X` with its maximal prefix and its maximal suffix of
bytes belonging to `cs` removed; the result is empty when every byte of `X`
is in `cs`. -/
theorem trim_removes_both_ends (X : Obj) (cs : List Byte) (hwf : WF X)
    (hcs : ∀ b ∈ cs, b ≠ 0) :
    ∃ X2, trim X cs = .ok X2 ∧
      content X2 = ((content X).dropWhile (fun b => decide (b ∈ cs))).rdropWhile
        (fun b => decide (b ∈ cs)) ∧
      ((∀ b ∈ content X, b ∈ cs) → content X2 = [] ∧ size X2 = 0) ∧
      data X2 (size X2) = 0 := by
  obtain ⟨X2, e, hwf2, hc⟩ := trim_spec X cs hwf
  rw [c_view_of_nul_free cs hcs] at hc
  refine ⟨X2, e, hc, ?_, hwf2.terminated⟩
  intro hall
  have hnil : content X2 = [] := by
    rw [hc, List.dropWhile_eq_nil_iff.mpr (fun b hb => by simpa using hall b hb)]
    simp
  exact ⟨hnil, by rw [← content_length, hnil]; rfl⟩

/-- Witness for C29: `trim(" \t")` on `"  pad  "` yields `"pad"`. -/
theorem trim_removes_both_ends_witness :
    WF str_pad_padded ∧ (∀ b ∈ blank_tab, b ≠ 0) ∧
    trim str_pad_padded blank_tab = .ok (outcome (trim str_pad_padded blank_tab)) ∧
    content (outcome (trim str_pad_padded blank_tab)) = [112, 97, 100] ∧
    ∃ X2, trim str_pad_padded blank_tab = .ok X2 ∧
      content X2 = ((content str_pad_padded).dropWhile
        (fun b => decide (b ∈ blank_tab))).rdropWhile (fun b => decide (b ∈ blank_tab)) :=
  ⟨str_pad_padded_WF, blank_tab_nul_free, by rfl, by decide,
    (trim_removes_both_ends str_pad_padded blank_tab str_pad_padded_WF blank_tab_nul_free).imp
      (fun _ h => ⟨h.1, h.2.1⟩)⟩

/-! ## Front and back (C37) -/

/-- C37: for every string `X`: on an empty string `front()` and `back()` both
raise `out_of_range` and leave `X` as it was (`back` computes
`size() - 1 = npos`, which `at` rejects); on a non-empty string `front()`
returns the byte at index 0 and `back()` the byte at index `size() - 1`. -/
theorem front_back_checked (X : Obj) :
    (size X = 0 →
      sub64 (size X) 1 = npos ∧ front X = .error (Exn.out_of_range, X) ∧
      back X = .error (Exn.out_of_range, X)) ∧
    (0 < size X →
      front X = .ok (data X 0) ∧ back X = .ok (data X (size X - 1)) ∧
      data X 0 = (content X).getD 0 0 ∧
      data X (size X - 1) = (content X).getD (size X - 1) 0) := by
  have hlt := size_lt_pow X
  constructor
  · intro h0
    have hs : sub64 (size X) 1 = npos := by rw [h0]; exact sub64_zero_one
    refine ⟨hs, ?_, ?_⟩
    · exact at_index_of_ge X 0 (by omega)
    · unfold back
      rw [hs]
      exact at_index_of_ge X npos (by unfold npos; omega)
  · intro hpos
    have hs : sub64 (size X) 1 = size X - 1 := sub64_of_le _ _ (by omega) hlt
    refine ⟨at_index_of_lt X 0 hpos, ?_, ?_, ?_⟩
    · unfold back
      rw [hs]
      exact at_index_of_lt X _ (by omega)
    · rw [content_getD_lt X 0 hpos]
    · rw [content_getD_lt X _ (by omega)]

/-- Witness for C37: the empty string, and `"abcde"`, whose front is `'a'`
and whose back is `'e'`. -/
theorem front_back_checked_witness :
    size str_empty = 0 ∧ front str_empty = .error (Exn.out_of_range, str_empty) ∧
    back str_empty = .error (Exn.out_of_range, str_empty) ∧
    0 < size str_abcde ∧ front str_abcde = .ok 97 ∧ back str_abcde = .ok 101 :=
  ⟨by decide, ((front_back_checked str_empty).1 (by decide)).2.1,
    ((front_back_checked str_empty).1 (by decide)).2.2, by decide, by rfl, by rfl⟩

/-! ## Substring with a wrapping count (C36) -/

/-- C36, at the failing input: on `"abcde"`, `pos = 3 <= size()` and
`count = 2^64 - 2` (not `npos`; `pos + count` wraps to 1, which is not above
`size()`), `substr` does not clamp `count` to `size() - pos = 2`: it builds a
view of `2^64 - 2` bytes, asks the allocator for `2^64 - 1` bytes and lets
`bad_alloc` out, while `min(count, size() - pos) = 2` and the claim says it
returns `"de"`. -/
theorem substr_wrapping_count_not_clamped :
    WF (world_ab.obj addr_a) ∧ content (world_ab.obj addr_a) = [97, 98, 99, 100, 101] ∧
    3 ≤ size (world_ab.obj addr_a) ∧ 2 ^ 64 - 2 ≠ npos ∧ add64 3 (2 ^ 64 - 2) = 1 ∧
    min (2 ^ 64 - 2) (size (world_ab.obj addr_a) - 3) = 2 ∧
    (∃ w1, substr world_ab addr_a addr_c 3 (2 ^ 64 - 2) = .error (Exn.bad_alloc, w1)) ∧
    content ((woutcome (substr world_ab addr_a addr_c 3 2)).obj addr_c) = [100, 101] :=
  ⟨world_ab_WF.1, by decide, by decide, by decide, by decide, by decide,
    ⟨woutcome (substr world_ab addr_a addr_c 3 (2 ^ 64 - 2)), by rfl⟩, by decide⟩

/-! ## The buffer released by shrink_to_fit (C32) -/

/-- C32, at the failing input: the heap string `"xxx"` (forty `'x'` resized
to 3) holds the pointer 4096 and the raw capacity 41.  `shrink_to_fit` takes
the heap-to-inline branch and calls `deallocate(7895160, 41)`: the pointer it
passes is read from `storage.heap.ptr` after `memcpy` and the terminator have
overwritten its low four bytes with `'x' 'x' 'x' 0` (`0x00787878`).  The
buffer at 4096 stays allocated, and the call is recorded as a fault. -/
theorem shrink_to_fit_releases_wrong_pointer :
    WF str_forty_x_resized ∧ is_heap str_forty_x_resized.storage = true ∧
    size str_forty_x_resized = 3 ∧ heap_ptr str_forty_x_resized.storage = 4096 ∧
    heap_capacity_raw str_forty_x_resized.storage = 41 ∧
    ∃ X2, shrink_to_fit str_forty_x_resized = .ok X2 ∧ is_heap X2.storage = false ∧
      X2.mem.freed = [(7895160, 41)] ∧ (X2.mem.blocks 4096).isSome = true ∧
      X2.mem.fault = true :=
  ⟨str_forty_x_resized_WF, by decide, by decide, by decide, by decide,
    outcome (shrink_to_fit str_forty_x_resized), by rfl, by decide, by decide, by decide,
    by decide⟩

/-! ## The heap-to-inline transition (C31) -/

/-- C33: for every well-formed string `X` and every `needed` of `size_type`,
when `make_non_sso_and_reserve(needed)` (the routine every growth-triggering
operation calls with the bytes it needs, terminator included) returns: a heap
string of raw capacity `c < needed` (with `2 * c` representable in
`size_type`) has raw capacity `max(needed, 2 * c)`; an inline string of
length `l` is in heap mode with raw capacity `max(needed, l + 1)`; and in
both cases the string is well-formed with the size, the first `size()` bytes
and the terminator it had.  The only exception is `bad_alloc`, with `X` as it
was, and the call returns whenever the allocator has room for
`max(needed, 2 * (capacity + 1))` bytes. -/
theorem growth_policy (X : Obj) (needed : Nat) (hwf : WF X) (hn : needed < 2 ^ 64) :
    (is_heap X.storage = true → heap_capacity_raw X.storage < needed →
      2 * heap_capacity_raw X.storage < 2 ^ 64 →
      ∀ X2, make_non_sso_and_reserve X needed = .ok X2 →
        heap_capacity_raw X2.storage = max needed (2 * heap_capacity_raw X.storage) ∧
        is_heap X2.storage = true ∧ WF X2 ∧ size X2 = size X ∧ content X2 = content X ∧
        data X2 (size X2) = 0) ∧
    (is_heap X.storage = false →
      ∀ X2, make_non_sso_and_reserve X needed = .ok X2 →
        heap_capacity_raw X2.storage = max needed (size X + 1) ∧
        is_heap X2.storage = true ∧ WF X2 ∧ size X2 = size X ∧ content X2 = content X ∧
        data X2 (size X2) = 0) ∧
    (∀ e X2, make_non_sso_and_reserve X needed = .error (e, X2) →
      e = Exn.bad_alloc ∧ X2 = X) ∧
    (max needed (2 * (capacity X + 1)) < X.mem.room →
      ∃ X2, make_non_sso_and_reserve X needed = .ok X2) := by
  have hfacts : ∀ X2, make_non_sso_and_reserve X needed = .ok X2 →
      is_heap X2.storage = true ∧ WF X2 ∧ size X2 = size X ∧ content X2 = content X ∧
        data X2 (size X2) = 0 := by
    intro X2 h
    rcases make_non_sso_cases X needed hwf with hg | he
    · obtain ⟨o1, e1, hwf1, hm, hsz, hc, hz, _⟩ := hg.facts
      rw [h] at e1; cases e1
      exact ⟨hm, hwf1, hsz, hc, hz⟩
    · rw [h] at he; cases he
  refine ⟨?_, ?_, make_non_sso_error X needed, ?_⟩
  · intro hh hlt h2 X2 h
    refine ⟨?_, hfacts X2 h⟩
    rw [make_non_sso_cap_heap X needed X2 hh hlt hn h, mul64_two_of_lt _ h2]
  · intro hs X2 h
    refine ⟨?_, hfacts X2 h⟩
    have hlen := (hwf.sso hs).1
    simp only [sso_max_size, sso_capacity_bytes, SSO_ReservedBytes] at hlen
    rw [make_non_sso_cap_sso X needed X2 hs hn h, size_of_sso hs, add64_of_lt _ _ (by omega)]
  · intro hroom
    obtain ⟨o1, e1, _⟩ := (make_non_sso_ok X needed hwf hroom).facts
    exact ⟨o1, e1⟩

/-- Witness for C33: the heap string of forty `'x'` (raw capacity 41) grown
for 42 bytes gets raw capacity 82, and the inline string `"abcde"` converted
for 3 bytes gets raw capacity 6. -/
theorem growth_policy_witness :
    WF str_forty_x ∧ heap_capacity_raw str_forty_x.storage = 41 ∧
    (∃ X2, make_non_sso_and_reserve str_forty_x 42 = .ok X2 ∧
      heap_capacity_raw X2.storage = max 42 (2 * heap_capacity_raw str_forty_x.storage) ∧
      content X2 = content str_forty_x) ∧
    heap_capacity_raw (outcome (make_non_sso_and_reserve str_abcde 3)).storage = 6 :=
  ⟨str_forty_x_WF, by decide,
    ⟨outcome (make_non_sso_and_reserve str_forty_x 42), by rfl,
      ((growth_policy str_forty_x 42 str_forty_x_WF (by decide)).1 (by decide) (by decide)
        (by decide) _ (by rfl)).1,
      by decide⟩,
    by decide⟩

/-! ## Preservation of the structural invariant -/

/-- The structural invariant under the mutating operations, away from the
wrapping size of `resize`: for every well-formed string `X` (the structural
invariant, on a
sound free store), the string a call leaves, whether the call returns or
throws, satisfies the structural invariant (in inline mode `size() <= R - 1`
and `buf[size()] == 0`; in heap mode `size()` below the raw capacity and
`ptr[size()] == 0`), for each of `push_back`, `pop_back`, `append`, `insert`
with `pos <= size()`, `resize`, `clear`, `reserve`, `shrink_to_fit`, and
`erase` with `pos < size()` and `pos + len` not overflowing `size_type`
(which returns); for all but `shrink_to_fit` the free store is sound as well
(`WF`).  The sizes involved are representable in `size_type` (`size() + 2`
for `push_back`, `size() + len + 1` for `append` and `insert`), and `resize`
is taken when it makes no access outside its buffer, which it does not
unless `new_size + 1` overflows. -/
theorem mutators_keep_invariant (X : Obj) (hwf : WF X) (ch : Byte) (sv : List Byte)
    (pos len new_size n : Nat) :
    (size X + 2 < 2 ^ 64 →
      Structural (outcome (push_back X ch)) ∧ WF (outcome (push_back X ch))) ∧
    (Structural (pop_back X) ∧ WF (pop_back X)) ∧
    (size X + sv.length + 1 < 2 ^ 64 →
      Structural (outcome (append X sv)) ∧ WF (outcome (append X sv))) ∧
    (pos ≤ size X → size X + sv.length + 1 < 2 ^ 64 →
      Structural (outcome (insert X pos sv)) ∧ WF (outcome (insert X pos sv))) ∧
    (new_size < 2 ^ 64 → (outcome (resize X new_size ch)).mem.fault = false →
      Structural (outcome (resize X new_size ch)) ∧ WF (outcome (resize X new_size ch))) ∧
    (Structural (clear X) ∧ WF (clear X)) ∧
    (n < 2 ^ 64 → Structural (outcome (reserve X n)) ∧ WF (outcome (reserve X n))) ∧
    Structural (outcome (shrink_to_fit X)) ∧
    (pos < size X → pos + len < 2 ^ 64 →
      (∃ X2, erase X pos len = .ok X2) ∧
      Structural (outcome (erase X pos len)) ∧ WF (outcome (erase X pos len))) := by
  have hX : Structural X ∧ WF X := ⟨hwf.structural, hwf⟩
  refine ⟨?_, ?_, ?_, ?_, ?_, ?_, ?_, ?_, ?_⟩
  · intro hfit
    refine outcome_keeps (fun o => Structural o ∧ WF o) _ X hX ?_
      (fun e X2 h => (push_back_throws X ch e X2 h).2)
    intro X2 h
    rcases push_back_cases X ch hwf hfit with ⟨o2, e, hwf2, _⟩ | he
    · rw [h] at e; cases e; exact ⟨hwf2.structural, hwf2⟩
    · rw [h] at he; cases he
  · exact ⟨(pop_back_spec X hwf).1.structural, (pop_back_spec X hwf).1⟩
  · intro hfit
    refine outcome_keeps (fun o => Structural o ∧ WF o) _ X hX ?_
      (fun e X2 h => (append_bytes_throws X _ _ e X2 h).2)
    intro X2 h
    have := (append_returns X X2 sv hwf hfit h).1
    exact ⟨this.structural, this⟩
  · intro hpos hfit
    refine outcome_keeps (fun o => Structural o ∧ WF o) _ X hX ?_
      (fun e X2 h => (insert_throws X pos sv e X2 h).1)
    intro X2 h
    rcases insert_cases X pos sv hwf hpos hfit with ⟨o2, e, hwf2, _⟩ | he
    · rw [h] at e; cases e; exact ⟨hwf2.structural, hwf2⟩
    · rw [h] at he; cases he
  · intro hn
    refine outcome_keeps (fun o => o.mem.fault = false → Structural o ∧ WF o) _ X
      (fun _ => hX) ?_ (fun e X2 h => (resize_error X new_size ch e X2 h).2)
    intro X2 h hf
    have := resize_keeps_WF X new_size ch hwf hn X2 h hf
    exact ⟨this.structural, this⟩
  · exact ⟨(clear_spec X hwf).1.structural, (clear_spec X hwf).1⟩
  · intro hn
    refine outcome_keeps (fun o => Structural o ∧ WF o) _ X hX ?_
      (fun e X2 h => (reserve_throws X n e X2 h).2)
    intro X2 h
    have := reserve_keeps_WF X n hwf hn X2 h
    exact ⟨this.structural, this⟩
  · exact outcome_keeps Structural _ X hwf.structural (shrink_keeps_structural X hwf)
      (fun e X2 h => (shrink_error X e X2 h).2)
  · intro hpos hfit
    have hret : ∃ X2, erase X pos len = .ok X2 := by
      unfold erase
      simp only
      rw [if_neg (by omega)]
      split <;> split <;> exact ⟨_, rfl⟩
    obtain ⟨X2, h⟩ := hret
    have := erase_keeps_WF X pos len hwf hpos hfit X2 h
    rw [h]
    exact ⟨⟨X2, rfl⟩, this.structural, this⟩

/-- Instance of `mutators_keep_invariant`: the heap string of forty `'x'` after `push_back('!')`,
after `erase(5, 2)` and after `clear()`, and the heap string `"xxx"` after
`shrink_to_fit()`. -/
theorem mutators_keep_invariant_witness :
    WF str_forty_x ∧ size str_forty_x + 2 < 2 ^ 64 ∧
    Structural (outcome (push_back str_forty_x 33)) ∧
    (∃ X2, erase str_forty_x 5 2 = .ok X2) ∧
    Structural (outcome (erase str_forty_x 5 2)) ∧
    Structural (clear str_forty_x) ∧
    WF str_forty_x_resized ∧ Structural (outcome (shrink_to_fit str_forty_x_resized)) :=
  ⟨str_forty_x_WF, by decide,
    ((mutators_keep_invariant str_forty_x str_forty_x_WF 33 [] 5 2 0 0).1 (by decide)).1,
    ((mutators_keep_invariant str_forty_x str_forty_x_WF 33 [] 5 2 0 0).2.2.2.2.2.2.2.2
      (by decide) (by decide)).1,
    ((mutators_keep_invariant str_forty_x str_forty_x_WF 33 [] 5 2 0 0).2.2.2.2.2.2.2.2
      (by decide) (by decide)).2.1,
    (mutators_keep_invariant str_forty_x str_forty_x_WF 33 [] 5 2 0 0).2.2.2.2.2.1.1,
    str_forty_x_resized_WF,
    (mutators_keep_invariant str_forty_x_resized str_forty_x_resized_WF 0 [] 0 0 0 0).2.2.2.2.2.2.2.1⟩

/-! ## The legacy search (C35) -/

/-- C35, at the failing input: on the five-byte string "abcde" with the empty
pattern and `pos = 5 = size()`, `find` returns 5 (the empty pattern matches at
the end, as it does at every `pos ≤ size()`) while `find_legacy` returns
`npos`: its `std::search` returns `hay + haylen` for the empty match at the
end, which the code takes for "not found". One position earlier both return
4, and on the empty string at `pos = 0` they differ in the same way. -/
theorem find_legacy_misses_empty_pattern_at_end :
    size str_abcde = 5 ∧
    find str_abcde [] 5 = some 5 ∧ find_legacy str_abcde [] 5 = npos ∧ (5 : Nat) ≠ npos ∧
    find str_abcde [] 4 = some 4 ∧ find_legacy str_abcde [] 4 = 4 ∧
    size str_empty = 0 ∧
    find str_empty [] 0 = some 0 ∧ find_legacy str_empty [] 0 = npos := by
  refine ⟨by decide, by decide, by decide, by decide, by decide, by decide, by decide,
    by decide, by decide⟩

/-! ## A view of the string itself (C4, C5, C28) -/

/-- C4, at the failing input: `s.append(s)` on the inline string `s` of the
20 bytes `"abcdefghijklmnopqrst"`.  The 41 bytes needed do not fit the inline
buffer, so `make_non_sso_and_reserve` moves the string to the heap and
writes the pointer, the size and the capacity over `storage.sso.buf`, where
the view still points; the `memcpy` then appends those bytes (`4096`, `20`
and `41`, little-endian) instead of the old content.  No access leaves its
object.  The same 20 bytes from outside the string are appended as they are;
`s.append(s)` on `"abcde"`, which stays inline, gives `"abcdeabcde"`; and on
the heap string of forty `'x'` the buffer the view points into has been
released when it is read. -/
theorem append_self_appends_heap_fields :
    WF str_a_to_t ∧ is_heap str_a_to_t.storage = false ∧ content str_a_to_t = a_to_t ∧
    (∃ X2, append_self str_a_to_t = .ok X2 ∧ size X2 = 40 ∧ X2.mem.fault = false ∧
      content X2 =
        a_to_t ++ [0, 16, 0, 0, 0, 0, 0, 0, 20, 0, 0, 0, 0, 0, 0, 0, 41, 0, 0, 0] ∧
      content X2 ≠ content str_a_to_t ++ a_to_t) ∧
    content (outcome (append str_a_to_t a_to_t)) = content str_a_to_t ++ a_to_t ∧
    content (outcome (append_self str_abcde)) = abcde ++ abcde ∧
    (outcome (append_self str_abcde)).mem.fault = false ∧
    (outcome (append_self str_forty_x)).mem.fault = true :=
  ⟨str_a_to_t_WF, by decide, by decide,
    ⟨outcome (append_self str_a_to_t), by rfl, by decide, by decide, by decide, by decide⟩,
    by decide, by decide, by decide, by decide⟩

/-- C5, at the failing input: `x.insert(3, x)` on the inline string `x` of
the 20 bytes `"abcdefghijklmnopqrst"`.  The string moves to the heap, the
heap fields are written over `storage.sso.buf`, the tail moves, and the
`memcpy` fills the gap from where the view points: with the bytes of the
pointer, the size and the capacity instead of `x`.  No access leaves its
object.  The same 20 bytes from outside the string are inserted as they are,
and `x.insert(5, x)` on `"abcde"`, which stays inline, gives
`"abcdeabcde"`. -/
theorem insert_self_inserts_heap_fields :
    WF str_a_to_t ∧ 3 ≤ size str_a_to_t ∧ content str_a_to_t = a_to_t ∧
    (∃ X2, insert_self str_a_to_t 3 = .ok X2 ∧ size X2 = 40 ∧ X2.mem.fault = false ∧
      content X2 =
        [97, 98, 99] ++ [0, 16, 0, 0, 0, 0, 0, 0, 20, 0, 0, 0, 0, 0, 0, 0, 41, 0, 0, 0] ++
          a_to_t.drop 3 ∧
      content X2 ≠ (content str_a_to_t).take 3 ++ a_to_t ++ (content str_a_to_t).drop 3) ∧
    content (outcome (insert str_a_to_t 3 a_to_t)) =
      (content str_a_to_t).take 3 ++ a_to_t ++ (content str_a_to_t).drop 3 ∧
    content (outcome (insert_self str_abcde 5)) = abcde ++ abcde ∧
    (outcome (insert_self str_abcde 5)).mem.fault = false :=
  ⟨str_a_to_t_WF, by decide, by decide,
    ⟨outcome (insert_self str_a_to_t 3), by rfl, by decide, by decide, by decide, by decide⟩,
    by decide, by decide, by decide⟩

/-- C28, at the failing input: `a = b = "abcdefghijklmnopqrst"` with `b` the
view of the string itself, and `c = "!"`.  Appending `b` and then `c`
(`x.append(x); x.append("!")`) leaves `a`, then the bytes of the heap fields,
then `'!'`; appending the concatenation `b + c`, a string of its own, to a
string holding `a` leaves `a`, `a`, `'!'`.  Both have size 41 and they are
not byte-equal. -/
theorem append_self_then_append_differs :
    WF str_a_to_t ∧ content str_a_to_t = a_to_t ∧
    (∃ X1 X2 Y, append_self str_a_to_t = .ok X1 ∧ append X1 [33] = .ok X2 ∧
      append str_a_to_t (a_to_t ++ [33]) = .ok Y ∧
      size X2 = 41 ∧ size Y = 41 ∧ X2.mem.fault = false ∧
      content Y = a_to_t ++ a_to_t ++ [33] ∧
      content X2 =
        a_to_t ++ [0, 16, 0, 0, 0, 0, 0, 0, 20, 0, 0, 0, 0, 0, 0, 0, 41, 0, 0, 0] ++ [33] ∧
      content X2 ≠ content Y) :=
  ⟨str_a_to_t_WF, by decide,
    ⟨outcome (append_self str_a_to_t), outcome (append (outcome (append_self str_a_to_t)) [33]),
      outcome (append str_a_to_t (a_to_t ++ [33])), by rfl, by rfl, by rfl, by decide,
      by decide, by decide, by decide, by decide, by decide⟩⟩

/-! ## A heap string of 29 bytes (C14) -/

/-- C14, counterexample to the first clause: the string of forty `'x'` after
`resize(29)` is a well-formed string of exactly `R - 1 = 29` bytes and it is
in heap mode. -/
theorem heap_string_of_twenty_nine_bytes :
    WF str_forty_x_twenty_nine ∧ size str_forty_x_twenty_nine = SSO_ReservedBytes - 1 ∧
    content str_forty_x_twenty_nine = twenty_nine_x ∧
    str_forty_x_twenty_nine.mem.fault = false ∧
    is_heap str_forty_x_twenty_nine.storage = true :=
  ⟨str_forty_x_twenty_nine_WF, by decide, by decide, by decide, by decide⟩

/-! ## A wrapping size in resize (C15, C34) -/

/-- C15, at the failing input: `resize(npos, 'x')` on `"abcde"`.  The bytes
needed, `new_size + 1`, wrap to 0, `make_non_sso_and_reserve(0)` allocates 6
bytes, and the fill of `npos - 5` bytes and the terminator at offset `npos`
go to that buffer: the call returns with `size() == npos` on a buffer of 6
bytes, having written outside it. -/
theorem resize_npos_overruns_buffer :
    WF str_abcde ∧ size str_abcde = 5 ∧ add64 npos 1 = 0 ∧
    ∃ X2, resize str_abcde npos 120 = .ok X2 ∧ size X2 = npos ∧
      is_heap X2.storage = true ∧ heap_capacity_raw X2.storage = 6 ∧
      X2.mem.fault = true :=
  ⟨str_abcde_WF, by decide, by decide, outcome (resize str_abcde npos 120), by rfl, by decide,
    by decide, by decide, by decide⟩

/-- C34, at the failing input: `"abcde"` satisfies the structural invariant,
and after `resize(npos, 'x')` the string is in heap mode with `size()` not
below the raw capacity (`npos` against 6): the invariant is broken. -/
theorem resize_npos_breaks_invariant :
    WF str_abcde ∧ Structural str_abcde ∧
    ∃ X2, resize str_abcde npos 120 = .ok X2 ∧ is_heap X2.storage = true ∧
      heap_capacity_raw X2.storage ≤ size X2 ∧ ¬ Structural X2 :=
  ⟨str_abcde_WF, str_abcde_WF.structural, outcome (resize str_abcde npos 120), by rfl,
    by decide, by decide, not_structural_of_heap _ (by decide) (by decide)⟩

/-! ## The heap-to-inline branch of shrink_to_fit (C19) -/

/-- C19, at the failing input: `shrink_to_fit()` on the heap string of 20
bytes `'x'` (forty `'x'` after `resize(20)`; pointer 4096, raw capacity 41).
The branch for `size() <= R - 1` copies the 20 bytes and the terminator into
`storage.sso.buf`, over the pointer, the size and the capacity, and then
reads the capacity and the pointer back to release the buffer: it calls
`deallocate(0x7878787878787878, 0x78787878)`.  The string does not become
inline by a defined execution: the call hands the allocator an address and a
size it never gave out, and the buffer at 4096 stays allocated. -/
theorem shrink_to_fit_inline_branch_faults :
    WF str_forty_x_twenty ∧ is_heap str_forty_x_twenty.storage = true ∧
    size str_forty_x_twenty = 20 ∧ size str_forty_x_twenty ≤ SSO_ReservedBytes - 1 ∧
    heap_ptr str_forty_x_twenty.storage = 4096 ∧
    heap_capacity_raw str_forty_x_twenty.storage = 41 ∧
    ∃ X2, shrink_to_fit str_forty_x_twenty = .ok X2 ∧
      X2.mem.freed = [(0x7878787878787878, 0x78787878)] ∧
      (X2.mem.blocks 4096).isSome = true ∧ X2.mem.fault = true ∧ ¬ WF X2 :=
  ⟨str_forty_x_twenty_WF, by decide, by decide, by decide, by decide, by decide,
    outcome (shrink_to_fit str_forty_x_twenty), by rfl, by decide, by decide, by decide,
    not_WF_of_fault _ (by decide)⟩

end libsstring
